import Mathlib

/-!
Verification of `packagemeta` (package_meta.h, package_meta.cc) of cygwin-setup.

A shallow embedding of the per-package selection state of `packagemeta` and of
the operations `set_action`, `trustp`, `add_version`, `select_action`,
`toggle_action`, `list_actions`, `parseNames`, `isManuallyWanted`,
`isManuallyDeleted`, `scan`, `ScanDownloadedFiles`, `set_installed_version`
and `add_category`, followed by the properties established about them.

Conventions of the embedding.

* A `packageversion` (`SolvableVersion`) is either the default-constructed
  empty version (`none`) or a version object minted by the solver pool
  (`some s`).  `operator bool` is `Option.isSome`, `operator==` is equality of
  the version objects (each minted object carries its pool identity `id`).
* `std::set<packageversion>` is a list in ascending (iteration) order.
* `std::set<std::string, casecompare_lt_op>` is a list of names looked up
  case-insensitively.
* Collaborators whose code is not part of `package_meta.*` and whose answer
  depends on the environment (`SolvableVersion::accessible`,
  `SolvableVersion::compareVersions`) are parameters of the functions that
  call them.
* Logging and `message.display ()` do not touch the modelled state and are
  left out.
* A C++ exception is the `error` case of `Except`; the statics of a function
  and the globals it writes are passed in and returned.
-/

namespace PackageMeta

/-! Section: Data model -/

/-- Trust levels of PackageTrust.h. -/
inductive trusts where
  | TRUST_UNKNOWN
  | TRUST_CURR
  | TRUST_TEST
deriving DecidableEq, Repr

/-- The enum `packagemeta::_actions` of package_meta.h. -/
inductive _actions where
  | NoChange_action
  | Install_action
  | Reinstall_action
  | Uninstall_action
deriving DecidableEq, Repr

/-- Modelled from the spec: the version object behind a non-empty
`SolvableVersion` (libsolv.h is absent).  It records the canonical version
string, the vendor/release label, the originating repository label, the
stability classification and the download sites; `id` is the identity the
pool assigned when it minted the object. -/
structure Solvable where
  id : Nat
  name : String
  version : String
  vendor : String
  reponame : String
  stability : trusts
  sites : List String
deriving DecidableEq, Repr

/-- Modelled from the spec: `SolvableVersion` (libsolv.h is absent) is an
optional reference to a version object; `none` is `packageversion ()`. -/
abbrev SolvableVersion := Option Solvable

/-- The typedef `packageversion` of package_meta.h. -/
abbrev packageversion := SolvableVersion

/-- Modelled from the spec: `SolvableVersion::Canonical_version` (libsolv.h is
absent): the canonical version string, empty for the empty version. -/
def Canonical_version : packageversion → String
  | none => ""
  | some s => s.version

/-- Modelled from the spec: `SolvableVersion::Vendor` (libsolv.h is absent). -/
def Vendor : packageversion → String
  | none => ""
  | some s => s.vendor

/-- Modelled from the spec: the site list of `SolvableVersion::source ()`
(libsolv.h is absent). -/
def source_sites : packageversion → List String
  | none => []
  | some s => s.sites

/-- Modelled from the spec: the comparison of `casecompare_lt_op` (String++.h
is absent): category names are equal when they agree up to letter case. -/
def casecompare_eq (a b : String) : Bool :=
  a.toLower == b.toLower

/-- The test `categories.find (cat) != categories.end ()` on the
case-insensitive category set. -/
def categories_find (categories : List String) (cat : String) : Bool :=
  categories.any (fun c => casecompare_eq c cat)

/-- The data members of `class packagemeta` (package_meta.h) that the
operations below read or write. -/
structure packagemeta where
  name : String
  categories : List String
  versions : List packageversion
  user_picked : Bool
  installed : packageversion
  curr : packageversion
  exp : packageversion
  default_version : packageversion
  desired : packageversion
  _action : _actions
  _picked : Bool
  _srcpicked : Bool
  version_blacklist : List String
deriving DecidableEq, Repr

/-- The constructor `packagemeta (const std::string& pkgname)`. -/
def packagemeta.mk_named (pkgname : String) : packagemeta :=
  { name := pkgname, categories := [], versions := [], user_picked := false,
    installed := none, curr := none, exp := none, default_version := none,
    desired := none, _action := _actions.NoChange_action, _picked := false,
    _srcpicked := false, version_blacklist := [] }

/-! Section: Pick flags -/

/-- The method `packagemeta::pick` (the message display is not modelled). -/
def pick (pkg : packagemeta) (picked : Bool) : packagemeta :=
  { pkg with _picked := picked }

/-- The method `packagemeta::srcpick`. -/
def srcpick (pkg : packagemeta) (picked : Bool) : packagemeta :=
  { pkg with _srcpicked := picked }

/-! Section: The action state machine -/

/-- The method `packagemeta::set_action`.  `accessible` is
`SolvableVersion::accessible`, the answer of the download/cache subsystem.
The branches compute the new members and the (possibly degraded) local
`action`; the closing assignment `_action = action` is the last line. -/
def set_action (accessible : packageversion → Bool) (pkg : packagemeta)
    (action : _actions) (default_version : packageversion)
    (useraction : Bool) : packagemeta :=
  let (pkg, action) : packagemeta × _actions :=
    if action = _actions.NoChange_action then
      -- if installed, keep
      if pkg.installed.isSome
          || categories_find pkg.categories "Base"
          || categories_find pkg.categories "Orphaned" then
        let pkg := { pkg with desired := default_version }
        if pkg.desired.isSome then
          let pkg := pick pkg (decide (pkg.desired ≠ pkg.installed))
          let pkg := srcpick pkg false
          (pkg, action)
        else
          (pkg, action)
      else
        -- else, if not installed, skip
        let pkg := { pkg with desired := none }
        let pkg := pick pkg false
        (pkg, action)
    else if action = _actions.Install_action then
      let pkg := { pkg with desired := default_version }
      if pkg.desired.isSome then
        if pkg.desired ≠ pkg.installed then
          if accessible pkg.desired then
            -- memorize that the user picked to install this package
            let pkg := if useraction then { pkg with user_picked := true } else pkg
            let pkg := pick pkg true
            let pkg := srcpick pkg false
            (pkg, action)
          else
            let pkg := pick pkg false
            let pkg := srcpick pkg true
            (pkg, action)
        else
          let pkg := pick pkg false
          let pkg := srcpick pkg false
          (pkg, _actions.NoChange_action)
      else
        (pkg, action)
    else if action = _actions.Reinstall_action then
      let pkg := { pkg with desired := pkg.installed }
      if pkg.desired.isSome then
        let pkg := pick pkg true
        let pkg := srcpick pkg false
        (pkg, action)
      else
        let pkg := pick pkg false
        let pkg := srcpick pkg false
        (pkg, _actions.NoChange_action)
    else if action = _actions.Uninstall_action then
      let pkg := { pkg with desired := none }
      (pkg, action)
    else
      (pkg, action)
  { pkg with _action := action }

/-! Section: Trust resolution -/

/-- The method `packagemeta::trustp` of package_meta.h.  `compareVersions` is
`packageversion::compareVersions`. -/
def trustp (compareVersions : packageversion → packageversion → Int)
    (pkg : packagemeta) (_default : Bool) (t : trusts) : packageversion :=
  if t = trusts.TRUST_TEST ∧ pkg.exp.isSome then pkg.exp
  else if _default ∧ pkg.curr.isSome ∧ pkg.installed.isSome
      ∧ compareVersions pkg.curr pkg.installed < 0 then
    if pkg.exp.isSome ∧ compareVersions pkg.installed pkg.exp < 0 then pkg.exp
    else pkg.installed
  else if pkg.curr.isSome then pkg.curr
  else pkg.installed

/-! Section: Version set merge/replace -/

/-- Modelled from the spec: `SolverPool::addPackageData` (libsolv.h is
absent): the data `add_version` receives for the version to create. -/
structure addPackageData where
  reponame : String
  version : String
  vendor : String
  stability : trusts
  archive_sites : List String
deriving DecidableEq, Repr

/-- Modelled from the spec: the state of the version registry (`SolverPool`,
libsolv.h is absent): the identity the next minted object gets and the log of
the objects `remove ()` was called on. -/
structure SolverPool where
  next_id : Nat
  removed : List packageversion
deriving DecidableEq, Repr

/-- Modelled from the spec: `SolverPool::addPackage` (libsolv.h is absent)
mints a new version object carrying the given data. -/
def SolverPool.addPackage (pool : SolverPool) (name : String)
    (pkgdata : addPackageData) : SolvableVersion × SolverPool :=
  (some { id := pool.next_id, name := name, version := pkgdata.version,
          vendor := pkgdata.vendor, reponame := pkgdata.reponame,
          stability := pkgdata.stability, sites := pkgdata.archive_sites },
   { pool with next_id := pool.next_id + 1 })

/-- Modelled from the spec: `SolvableVersion::remove` (libsolv.h is absent)
asks the registry to remove the object; the request is logged. -/
def SolverPool.remove (pool : SolverPool) (v : packageversion) : SolverPool :=
  { pool with removed := pool.removed ++ [v] }

/-- Modelled from the spec: `std::set<packageversion>::insert`, with
`operator<` of `SolvableVersion` (libsolv.h is absent) taken to be
`compareVersions (a, b) < 0`.  The flag is `result.second`. -/
def set_insert (compareVersions : packageversion → packageversion → Int)
    (x : packageversion) : List packageversion → List packageversion × Bool
  | [] => ([x], true)
  | y :: ys =>
    if compareVersions x y < 0 then (x :: y :: ys, true)
    else if compareVersions y x < 0 then
      let r := set_insert compareVersions x ys
      (y :: r.1, r.2)
    else (y :: ys, false)

/-- The test `v != NULL` after the `switch (pkgdata.stability)` of
`add_version`. -/
def has_slot (stability : trusts) : Bool :=
  match stability with
  | trusts.TRUST_CURR => true
  | trusts.TRUST_TEST => true
  | _ => false

/-- The read `*v` of the slot chosen by the `switch (pkgdata.stability)`. -/
def slot_get (pkg : packagemeta) (stability : trusts) : packageversion :=
  match stability with
  | trusts.TRUST_CURR => pkg.curr
  | trusts.TRUST_TEST => pkg.exp
  | _ => none

/-- The write `*v = x` to the slot chosen by the `switch (pkgdata.stability)`. -/
def slot_set (pkg : packagemeta) (stability : trusts) (x : packageversion) :
    packagemeta :=
  match stability with
  | trusts.TRUST_CURR => { pkg with curr := x }
  | trusts.TRUST_TEST => { pkg with exp := x }
  | _ => pkg

/-- The `for` loop of `packagemeta::add_version` over the remaining
iterator range: entries with another canonical version are skipped
(`continue`); the first match is merged/superseded, erased from the set, and
ends the loop (`break`).  Returns the updated `pkgdata`, package (trust
slots), registry, and what the range of `versions` becomes. -/
def add_version_loop (pkgdata : addPackageData) (pkg : packagemeta)
    (pool : SolverPool) :
    List packageversion →
      addPackageData × packagemeta × SolverPool × List packageversion
  | [] => (pkgdata, pkg, pool, [])
  | i :: rest =>
    if Canonical_version i ≠ pkgdata.version then
      let r := add_version_loop pkgdata pkg pool rest
      (r.1, r.2.1, r.2.2.1, i :: r.2.2.2)
    else
      let (pkgdata, pkg, pool) : addPackageData × packagemeta × SolverPool :=
        if pkgdata.vendor = Vendor i then
          -- merge the site-list of the existing packageversion
          let pkgdata :=
            { pkgdata with archive_sites := pkgdata.archive_sites ++ source_sites i }
          -- installed packages do not supersede repo packages
          if pkgdata.reponame ≠ "_installed" then
            let pkg :=
              if has_slot pkgdata.stability ∧ slot_get pkg pkgdata.stability = i then
                slot_set pkg pkgdata.stability none
              else pkg
            (pkgdata, pkg, pool.remove i)
          else
            (pkgdata, pkg, pool)
        else
          -- vendors differ: only a log line
          (pkgdata, pkg, pool)
      (pkgdata, pkg, pool, rest)

/-- The method `packagemeta::add_version`.  Returns the created version
(`thepkg`), the package and the registry afterwards. -/
def add_version (compareVersions : packageversion → packageversion → Int)
    (pool : SolverPool) (pkg : packagemeta) (inpkgdata : addPackageData) :
    SolvableVersion × packagemeta × SolverPool :=
  let pkgdata := inpkgdata
  let r := add_version_loop pkgdata pkg pool pkg.versions
  let pkgdata := r.1
  let pkg := { r.2.1 with versions := r.2.2.2 }
  let pool := r.2.2.1
  -- create the SolvableVersion
  let created := pool.addPackage pkg.name pkgdata
  let thepkg := created.1
  let pool := created.2
  -- add the version
  let pkg := { pkg with versions := (set_insert compareVersions thepkg pkg.versions).1 }
  -- record the highest version at a given stability level
  let pkg :=
    if has_slot pkgdata.stability then
      let comparison : Int :=
        if (slot_get pkg pkgdata.stability).isSome then
          compareVersions thepkg (slot_get pkg pkgdata.stability)
        else 1
      if comparison ≥ 0 then slot_set pkg pkgdata.stability thepkg else pkg
    else pkg
  (thepkg, pkg, pool)

/-- A sequence of `add_version` calls on one package, in order; returns the
versions the calls created (in call order), the package and the registry. -/
def add_versions (compareVersions : packageversion → packageversion → Int) :
    SolverPool → packagemeta → List addPackageData →
      List SolvableVersion × packagemeta × SolverPool
  | pool, pkg, [] => ([], pkg, pool)
  | pool, pkg, d :: ds =>
    let r := add_version compareVersions pool pkg d
    let rs := add_versions compareVersions r.2.2 r.2.1 ds
    (r.1 :: rs.1, rs.2.1, rs.2.2)

/-! Section: Comparators -/

/-- A three-way comparator is a total (pre)order: reflexive, antisymmetric in
sign, transitive. -/
structure IsTotalOrder (cmp : packageversion → packageversion → Int) : Prop where
  refl : ∀ a, cmp a a = 0
  antisymm : ∀ a b, cmp a b < 0 ↔ 0 < cmp b a
  trans : ∀ a b c, cmp a b ≤ 0 → cmp b c ≤ 0 → cmp a c ≤ 0

/-- The comparator treats versions with the same canonical string as equal. -/
def RespectsCanonical (cmp : packageversion → packageversion → Int) : Prop :=
  ∀ a b, Canonical_version a = Canonical_version b → cmp a b = 0

/-- Lexicographic three-way comparison of two code-point sequences, result in
{-1, 0, 1}. -/
def lexCompare : List Nat → List Nat → Int
  | [], [] => 0
  | [], _ :: _ => -1
  | _ :: _, [] => 1
  | x :: xs, y :: ys =>
    if x < y then -1 else if y < x then 1 else lexCompare xs ys

/-- The code points of a canonical version string. -/
def versionKey (v : packageversion) : List Nat :=
  (Canonical_version v).toList.map Char.toNat

/-- A sample comparator for the examples: canonical version strings compared
lexicographically by code point. -/
def canonicalCompare (a b : packageversion) : Int :=
  lexCompare (versionKey a) (versionKey b)

/-- A sample version object for the examples. -/
def sampleVersion (id : Nat) (version : String) : packageversion :=
  some { id := id, name := "foo", version := version, vendor := "cygwin",
         reponame := "repo", stability := trusts.TRUST_CURR, sites := [] }

/-- A sample package state for the examples: package foo with version 1.0
installed and kept, versions 1.0 and 1.1 known. -/
def samplePackage : packagemeta :=
  { packagemeta.mk_named "foo" with
    versions := [sampleVersion 1 "1.0", sampleVersion 2 "1.1"],
    installed := sampleVersion 1 "1.0",
    curr := sampleVersion 1 "1.0",
    desired := sampleVersion 1 "1.0" }

/-- The claimed value of `trustp`, clause by clause as the specification
words it (section 4.2), to be compared with `trustp`. -/
def trustp_spec (compare : packageversion → packageversion → Int)
    (pkg : packagemeta) (d : Bool) (t : trusts) : packageversion :=
  if t = trusts.TRUST_TEST ∧ pkg.exp ≠ none then pkg.exp
  else if d = true ∧ pkg.curr ≠ none ∧ pkg.installed ≠ none
      ∧ compare pkg.curr pkg.installed < 0 then
    (if pkg.exp ≠ none ∧ compare pkg.installed pkg.exp < 0 then pkg.exp
     else pkg.installed)
  else if pkg.curr ≠ none then pkg.curr
  else pkg.installed

/-- A package state with the given stable, installed and test versions. -/
def trustPackage (curr installed exp : packageversion) : packagemeta :=
  { packagemeta.mk_named "foo" with curr := curr, installed := installed, exp := exp }

/-- The outcome of the "record the highest version" step of `add_version` on
a slot holding `b` when the created version is `v`: the slot keeps `b` only
when `b` is non-empty and `v` compares lower. -/
def keep_highest (cmp : packageversion → packageversion → Int)
    (b v : packageversion) : packageversion :=
  if b.isSome = true ∧ cmp v b < 0 then b else v

/-- One stable-tagged request for the examples. -/
def stableData (version vendor : String) (sites : List String) : addPackageData :=
  { reponame := "repo", version := version, vendor := vendor,
    stability := trusts.TRUST_CURR, archive_sites := sites }

/-- A sample sequence of stable-tagged requests: 1.0, 2.0, 1.5, then 2.0
again from another vendor, then 1.0 again. -/
def sampleRequests : List addPackageData :=
  [stableData "1.0" "A" ["s1"], stableData "2.0" "A" ["s2"],
   stableData "1.5" "A" [], stableData "2.0" "B" ["s3"],
   stableData "1.0" "A" ["s4"]]

/-- An empty registry. -/
def emptyPool : SolverPool := { next_id := 1, removed := [] }

/-! Section: Action selection -/

/-- The integer value of an `_actions` enumerator (`NoChange_action = 1`, the
others count up). -/
def _actions.toInt : _actions → Int
  | _actions.NoChange_action => 1
  | _actions.Install_action => 2
  | _actions.Reinstall_action => 3
  | _actions.Uninstall_action => 4

/-- The cast `(packagemeta::_actions) id`; `none` when `id` is not the value
of an enumerator. -/
def _actions.ofInt (id : Int) : Option _actions :=
  if id = 1 then some _actions.NoChange_action
  else if id = 2 then some _actions.Install_action
  else if id = 3 then some _actions.Reinstall_action
  else if id = 4 then some _actions.Uninstall_action
  else none

/-- The method `packagemeta::select_action`.  The result is `none` where the
C++ code has no defined behaviour: the iterator is advanced `-id` times from
`versions.begin ()` and dereferenced, which needs `-id` below the size of the
set, and a positive `id` is cast to `_actions`. -/
def select_action (accessible : packageversion → Bool)
    (compareVersions : packageversion → packageversion → Int)
    (pkg : packagemeta) (id : Int) (deftrust : trusts) : Option packagemeta :=
  if id ≤ 0 then
    -- install a specific version
    match pkg.versions[(-id).toNat]? with
    | some i => some (set_action accessible pkg _actions.Install_action i true)
    | none => none
  else
    if id = _actions.NoChange_action.toInt then
      some (set_action accessible pkg _actions.NoChange_action pkg.installed false)
    else
      match _actions.ofInt id with
      | some action =>
        some (set_action accessible pkg action
          (trustp compareVersions pkg true deftrust) true)
      | none => none

/-- The loop of `packagemeta::toggle_action`: every version the registry does
not classify as a test package overwrites `naively_preferred`. -/
def naively_preferred (is_test_package : packageversion → Bool)
    (versions : List packageversion) : packageversion :=
  versions.foldl
    (fun (preferred i : packageversion) => if !is_test_package i then i else preferred)
    none

/-- The method `packagemeta::toggle_action`.  `is_test_package` is
`packagedb::solver.is_test_package`. -/
def toggle_action (accessible : packageversion → Bool)
    (is_test_package : packageversion → Bool) (pkg : packagemeta) : packagemeta :=
  if pkg.desired ≠ pkg.installed then
    set_action accessible pkg _actions.NoChange_action pkg.installed false
  else
    set_action accessible pkg _actions.Install_action
      (naively_preferred is_test_package pkg.versions) true

/-- Modelled from the spec: one entry of an `ActionList` (ActionList.h is
absent): label, id, whether it is the current selection, whether it is
enabled. -/
structure Action where
  label : String
  id : Int
  selected : Bool
  enabled : Bool
deriving DecidableEq, Repr

/-- Modelled from the spec: `ActionList` (ActionList.h is absent), the
entries in the order they were added. -/
abbrev ActionList := List Action

/-- Modelled from the spec: `ActionList::add` (ActionList.h is absent)
appends one entry. -/
def ActionList.add (al : ActionList) (label : String) (id : Int)
    (selected enabled : Bool) : ActionList :=
  al ++ [{ label := label, id := id, selected := selected, enabled := enabled }]

/-- The `for` loop of `packagemeta::list_actions` over the remaining iterator
range; `j` is `std::distance (versions.begin (), i)`. -/
def list_actions_loop (is_test_package : packageversion → Bool)
    (task_is_install : Bool) (pkg : packagemeta) :
    Nat → List packageversion → ActionList → ActionList
  | _, [], al => al
  | j, i :: rest, al =>
    let al :=
      if i = pkg.installed then
        let al := al.add "Keep" _actions.NoChange_action.toInt
          (decide (pkg._action = _actions.NoChange_action)) true
        al.add (if task_is_install then "Reinstall" else "Retrieve")
          _actions.Reinstall_action.toInt
          (decide (pkg._action = _actions.Reinstall_action)) true
      else
        let label := Canonical_version i
        let label := if is_test_package i then label ++ " (Test)" else label
        al.add label (-(j : Int))
          (decide (pkg._action = _actions.Install_action) && decide (i = pkg.desired))
          true
    list_actions_loop is_test_package task_is_install pkg (j + 1) rest al

/-- The method `packagemeta::list_actions`.  `task_is_install` is the test
`packagedb::task == PackageDB_Install`; the `trust` argument is not used by
the body. -/
def list_actions (is_test_package : packageversion → Bool) (task_is_install : Bool)
    (pkg : packagemeta) (_trust : trusts) : ActionList :=
  -- build the list of possible actions
  let al : ActionList := []
  let al := al.add "Uninstall" _actions.Uninstall_action.toInt
    (decide (pkg._action = _actions.Uninstall_action)) pkg.installed.isSome
  let al := al.add "Skip" _actions.NoChange_action.toInt
    (decide (pkg._action = _actions.NoChange_action) && !pkg.installed.isSome)
    (!pkg.installed.isSome)
  list_actions_loop is_test_package task_is_install pkg 0 pkg.versions al

/-- The entries of `list_actions` for the version at zero-based index `j`, as
the specification words them (section 4.3). -/
def version_actions_spec (is_test_package : packageversion → Bool)
    (task_is_install : Bool) (pkg : packagemeta) (j : Nat) (v : packageversion) :
    List Action :=
  if v = pkg.installed then
    [{ label := "Keep", id := 1,
       selected := decide (pkg._action = _actions.NoChange_action), enabled := true },
     { label := if task_is_install then "Reinstall" else "Retrieve", id := 3,
       selected := decide (pkg._action = _actions.Reinstall_action), enabled := true }]
  else
    [{ label := Canonical_version v ++ (if is_test_package v then " (Test)" else ""),
       id := -(j : Int),
       selected := decide (pkg._action = _actions.Install_action ∧ v = pkg.desired),
       enabled := true }]

/-- The sequence `list_actions` returns, as the specification words it:
Uninstall, Skip, then the entries of each version in ascending order. -/
def list_actions_spec (is_test_package : packageversion → Bool)
    (task_is_install : Bool) (pkg : packagemeta) : List Action :=
  [{ label := "Uninstall", id := 4,
     selected := decide (pkg._action = _actions.Uninstall_action),
     enabled := decide (pkg.installed ≠ none) },
   { label := "Skip", id := 1,
     selected := decide (pkg._action = _actions.NoChange_action ∧ pkg.installed = none),
     enabled := decide (pkg.installed = none) }]
  ++ (pkg.versions.enum.flatMap
        (fun jv => version_actions_spec is_test_package task_is_install pkg jv.1 jv.2))

/-- A sample test-tagged version object for the examples. -/
def sampleTestVersion (id : Nat) (version : String) : packageversion :=
  some { id := id, name := "foo", version := version, vendor := "cygwin",
         reponame := "repo", stability := trusts.TRUST_TEST, sites := [] }

/-- A sample registry classification: a version is a test package when it is
tagged test. -/
def sample_is_test (v : packageversion) : Bool :=
  match v with
  | some s => decide (s.stability = trusts.TRUST_TEST)
  | none => false

/-- The package foo of the scenario in section 8: versions 1.0 (stable) and
1.1 (test), nothing installed. -/
def fooPackage : packagemeta :=
  { packagemeta.mk_named "foo" with
    versions := [sampleVersion 1 "1.0", sampleTestVersion 2 "1.1"],
    curr := sampleVersion 1 "1.0",
    exp := sampleTestVersion 2 "1.1" }

/-! Section: Selection filter -/

/-- The operation `std::set<std::string>::insert`, the set kept as a list
without duplicates. -/
def string_set_insert (parsed : List String) (x : String) : List String :=
  if x ∈ parsed then parsed else parsed ++ [x]

/-- The call `option.find (",", 0)` on the characters of `option`: the index
of the first comma, `none` for `std::string::npos`. -/
def find_comma : List Char → Option Nat
  | [] => none
  | c :: cs => if c = ',' then some 0 else (find_comma cs).map (fun loc => loc + 1)

/-- The `while (loc != std::string::npos)` loop of `parseNames` on the
characters of `option`.  Each round drops at least the comma, so
`option.length ()` rounds of fuel are enough for the loop to end by its own
exit test. -/
def parseNames_loop : Nat → List String → List Char → List String × List Char
  | 0, parsed, option => (parsed, option)
  | fuel + 1, parsed, option =>
    match find_comma option with
    | none => (parsed, option)
    | some loc =>
      let tname := option.take loc
      let option := option.drop (loc + 1)
      let parsed := string_set_insert parsed (String.mk tname)
      parseNames_loop fuel parsed option

/-- The function `parseNames`: returns the set `parsed` and what is left in
`option` (both are passed by reference). -/
def parseNames (parsed : List String) (option : String) : List String × String :=
  let r := parseNames_loop option.data.length parsed option.data
  let parsed := r.1
  let option := r.2
  -- at this point, no "," exists in option
  if option.length ≠ 0 then (string_set_insert parsed (String.mk option), String.mk option)
  else (parsed, String.mk option)

/-- The two loops `for (n = options.begin (); ...) parseNames (parsed, *n)`
of `isManuallyWanted` / `isManuallyDeleted` over one option vector. -/
def parse_options (parsed : List String) (options : List String) : List String :=
  options.foldl (fun parsed n => (parseNames parsed n).1) parsed

/-- The function-local statics of `isManuallyWanted` (and, separately, of
`isManuallyDeleted`): `parsed_yet` and the two cached sets. -/
structure SelectionCache where
  parsed_yet : Bool
  parsed_names : List String
  parsed_categories : List String
deriving DecidableEq, Repr

/-- The statics before the first call. -/
def SelectionCache.initial : SelectionCache :=
  { parsed_yet := false, parsed_names := [], parsed_categories := [] }

/-- The common body of `packagemeta::isManuallyWanted` and
`packagemeta::isManuallyDeleted`, which differ only in the option vectors
they read and in the names of their statics.  Returns `bReturn`, the global
`hasManualSelections` and the statics afterwards. -/
def manual_selection (package_options category_options : List String)
    (hasManualSelections : Bool) (cache : SelectionCache) (pkg : packagemeta) :
    Bool × Bool × SelectionCache :=
  let hasManualSelections := hasManualSelections || decide (cache.parsed_names.length ≠ 0)
  let hasManualSelections :=
    hasManualSelections || decide (cache.parsed_categories.length ≠ 0)
  -- first time through, parse all the names out of the option strings
  let cache :=
    if !cache.parsed_yet then
      { parsed_yet := true,
        parsed_names := parse_options cache.parsed_names package_options,
        parsed_categories := parse_options cache.parsed_categories category_options }
    else cache
  -- lookup in the cache of already-parsed names
  let bReturn := decide (pkg.name ∈ cache.parsed_names)
  -- if the package was not selected, was one of its categories?
  let bReturn :=
    if !bReturn && decide (cache.parsed_categories.length ≠ 0) then
      pkg.categories.foldl
        (fun (found : Bool) (curcat : String) =>
          if curcat ∈ cache.parsed_categories then true else found)
        bReturn
    else bReturn
  (bReturn, hasManualSelections, cache)

/-- The command-line options read by package_meta.cc: `-P`, `-C`, `-x`, `-c`. -/
structure SelectionOptions where
  PackageOption : List String
  CategoryOption : List String
  DeletePackageOption : List String
  DeleteCategoryOption : List String
deriving DecidableEq, Repr

/-- The method `packagemeta::isManuallyWanted`. -/
def isManuallyWanted (options : SelectionOptions) (hasManualSelections : Bool)
    (cache : SelectionCache) (pkg : packagemeta) : Bool × Bool × SelectionCache :=
  manual_selection options.PackageOption options.CategoryOption hasManualSelections
    cache pkg

/-- The method `packagemeta::isManuallyDeleted`. -/
def isManuallyDeleted (options : SelectionOptions) (hasManualSelections : Bool)
    (cache : SelectionCache) (pkg : packagemeta) : Bool × Bool × SelectionCache :=
  manual_selection options.DeletePackageOption options.DeleteCategoryOption
    hasManualSelections cache pkg

/-- The statics are either untouched (before the first call) or hold the sets
parsed from the given option vectors. -/
def SelectionCache.valid (package_options category_options : List String)
    (cache : SelectionCache) : Prop :=
  cache = SelectionCache.initial
    ∨ (cache.parsed_yet = true
        ∧ cache.parsed_names = parse_options [] package_options
        ∧ cache.parsed_categories = parse_options [] category_options)

/-- The option string begins with a separator. -/
def starts_with_comma (option : List Char) : Prop :=
  ∃ b, option = ',' :: b

/-- The option string holds two adjacent separators. -/
def has_double_comma (option : List Char) : Prop :=
  ∃ a b, option = a ++ ',' :: ',' :: b

/-- Sample command line: `-P ",vim,,gcc,"`, `-C "Devel"`, `-x "emacs"`,
`-c "Games,Text"`. -/
def sampleOptions : SelectionOptions :=
  { PackageOption := [",vim,,gcc,"], CategoryOption := ["Devel"],
    DeletePackageOption := ["emacs"], DeleteCategoryOption := ["Games,Text"] }

/-! Section: Availability scanner -/

/-- Modelled from the spec: the exception object thrown by the cache
collaborator (Exception.h is absent); `errNo` is what `e->errNo ()` returns. -/
structure Exception where
  errNo : Int
deriving DecidableEq, Repr

/-- Modelled from the spec: the error number `APPERR_CORRUPT_PACKAGE`
(Exception.h is absent) that signals a corrupted cached artifact. -/
def APPERR_CORRUPT_PACKAGE : Int := 1

/-- The static method `packagemeta::scan`.  `check_for_cached` is the cache
collaborator applied to the source of the version (it returns or throws),
`source_is_localdir` is the test `::source == IDC_SOURCE_LOCALDIR`. -/
def scan (check_for_cached : packageversion → Bool → Except Exception Bool)
    (source_is_localdir : Bool) (pkg : packageversion) (mirror_mode : Bool) :
    Except Exception Bool :=
  -- empty version
  if !pkg.isSome then Except.ok false
  else
    match check_for_cached pkg mirror_mode with
    | Except.ok cached =>
      if !cached && source_is_localdir then Except.ok false else Except.ok true
    | Except.error e =>
      -- we can ignore these, since we're clearing the source list anyway
      if e.errNo = APPERR_CORRUPT_PACKAGE then Except.ok false
      -- unexpected exception
      else Except.error e

/-- The `while (i != pkg.versions.end ())` loop of `ScanDownloadedFiles` for
one package over the remaining iterator range.  Returns the package (trust
slots), the registry and what the range of `versions` becomes, or the
exception that left the loop.  `sourcePackage` is
`SolvableVersion::sourcePackage`. -/
def scan_versions (check_for_cached : packageversion → Bool → Except Exception Bool)
    (source_is_localdir : Bool) (sourcePackage : packageversion → packageversion)
    (mirror_mode : Bool) :
    packagemeta → SolverPool → List packageversion →
      Except Exception (packagemeta × SolverPool × List packageversion)
  | pkg, pool, [] => Except.ok (pkg, pool, [])
  | pkg, pool, i :: rest =>
    let lazy_scan := mirror_mode
      && (decide (i ≠ pkg.installed) || decide (pkg.installed = pkg.curr)
          || decide (pkg.installed = pkg.exp))
    match scan check_for_cached source_is_localdir i lazy_scan with
    | Except.error e => Except.error e
    | Except.ok accessible =>
      let pkgsrcver := sourcePackage i
      match scan check_for_cached source_is_localdir pkgsrcver lazy_scan with
      | Except.error e => Except.error e
      | Except.ok src_accessible =>
        -- no src and no bin: the version is unavailable
        if !accessible && !src_accessible && decide (i ≠ pkg.installed) then
          let pkg := if pkg.curr = i then { pkg with curr := none } else pkg
          let pkg := if pkg.exp = i then { pkg with exp := none } else pkg
          let pool := pool.remove i
          scan_versions check_for_cached source_is_localdir sourcePackage mirror_mode
            pkg pool rest
        else
          match scan_versions check_for_cached source_is_localdir sourcePackage
              mirror_mode pkg pool rest with
          | Except.error e => Except.error e
          | Except.ok r => Except.ok (r.1, r.2.1, i :: r.2.2)

/-- The static method `packagemeta::ScanDownloadedFiles` over the packages of
the database, in iteration order.  Returns the packages and the registry
afterwards, or the exception that aborted the pass. -/
def ScanDownloadedFiles
    (check_for_cached : packageversion → Bool → Except Exception Bool)
    (source_is_localdir : Bool) (sourcePackage : packageversion → packageversion)
    (mirror_mode : Bool) :
    List packagemeta → SolverPool → Except Exception (List packagemeta × SolverPool)
  | [], pool => Except.ok ([], pool)
  | pkg :: rest, pool =>
    match scan_versions check_for_cached source_is_localdir sourcePackage mirror_mode
        pkg pool pkg.versions with
    | Except.error e => Except.error e
    | Except.ok r =>
      let pkg := { r.1 with versions := r.2.2 }
      match ScanDownloadedFiles check_for_cached source_is_localdir sourcePackage
          mirror_mode rest r.2.1 with
      | Except.error e => Except.error e
      | Except.ok rs => Except.ok (pkg :: rs.1, rs.2)

/-- A sample cache: the archive of 1.0 is cached, that of 1.1 is not, that of
1.2 is corrupt, the check of 1.3 fails with another error (number 2). -/
def sample_check (v : packageversion) (_mirror_mode : Bool) : Except Exception Bool :=
  if Canonical_version v = "1.1" then Except.ok false
  else if Canonical_version v = "1.2" then Except.error { errNo := APPERR_CORRUPT_PACKAGE }
  else if Canonical_version v = "1.3" then Except.error { errNo := 2 }
  else Except.ok true

/-- A sample package for the scanner: 1.0, 1.1 and 1.2 known, 1.1 installed,
1.2 the stable version. -/
def scanPackage : packagemeta :=
  { packagemeta.mk_named "foo" with
    versions := [sampleVersion 1 "1.0", sampleVersion 2 "1.1", sampleVersion 3 "1.2"],
    installed := sampleVersion 2 "1.1",
    curr := sampleVersion 3 "1.2",
    desired := sampleVersion 2 "1.1" }

/-! Section: Well-formed version sets -/

/-- The ordering of the version set has the canonical version string as its
key: only versions with the same canonical string tie (specification,
section 3: "unique by canonical-version string"). -/
def CanonicalKey (cmp : packageversion → packageversion → Int) : Prop :=
  ∀ a b, cmp a b = 0 → Canonical_version a = Canonical_version b

/-- No two members of the version set have the same canonical version. -/
def UniqueCanonical (versions : List packageversion) : Prop :=
  (versions.map Canonical_version).Nodup

/-- The data of one `add_version` call. -/
def request (reponame version vendor : String) (stability : trusts)
    (sites : List String) : addPackageData :=
  { reponame := reponame, version := version, vendor := vendor,
    stability := stability, archive_sites := sites }

/-- The sites that the entry of canonical version `s` already in `versions`
contributes to a merge with vendor `r`: its site list when its vendor is `r`,
nothing when there is no such entry or its vendor differs. -/
def prior_sites (versions : List packageversion) (s r : String) : List String :=
  match versions.find? (fun v => decide (Canonical_version v = s)) with
  | some e => if r = Vendor e then source_sites e else []
  | none => []

/-- A sample package holding version 1.0 of vendor cygwin with one download
site. -/
def mergePackage : packagemeta :=
  { packagemeta.mk_named "foo" with
    versions := [some { id := 7, name := "foo", version := "1.0", vendor := "cygwin",
                        reponame := "repo", stability := trusts.TRUST_CURR,
                        sites := ["s0"] }] }

/-! Section: Installed version, categories, operation sequences -/

/-- The method `packagemeta::set_installed_version`: every member with the
given canonical version becomes installed and desired ("mark as Keep"). -/
def set_installed_version (pkg : packagemeta) (version : String) : packagemeta :=
  pkg.versions.foldl
    (fun (pkg : packagemeta) (i : packageversion) =>
      if version = Canonical_version i then { pkg with installed := i, desired := i }
      else pkg)
    pkg

/-- Modelled from the spec: the process-wide category index
`packagedb::categories` (package_db.h is absent): category names, compared
like the package's own category set, each with the list of its member
packages.  A member (`packagemeta *`) is identified by the package name, the
key of the package collection. -/
abbrev CategoryIndex := List (String × List String)

/-- The member list `packagedb::categories[cat]` as a read: the list stored
under the name, empty when the name is not in the index. -/
def CategoryIndex.lookup (index : CategoryIndex) (cat : String) : List String :=
  match index.find? (fun e => casecompare_eq e.1 cat) with
  | some e => e.2
  | none => []

/-- The statement `packagedb::categories[cat].push_back (pkg)`: `operator[]`
creates the record when the name is not in the index. -/
def CategoryIndex.push_back : CategoryIndex → String → String → CategoryIndex
  | [], cat, pkg => [(cat, [pkg])]
  | e :: rest, cat, pkg =>
    if casecompare_eq e.1 cat then (e.1, e.2 ++ [pkg]) :: rest
    else e :: CategoryIndex.push_back rest cat pkg

/-- The method `packagemeta::add_category`.  Returns the category index and
the package afterwards; the place of the new name in the iteration order of
`categories` is not modelled. -/
def add_category (index : CategoryIndex) (pkg : packagemeta) (cat : String) :
    CategoryIndex × packagemeta :=
  if categories_find pkg.categories cat then (index, pkg)
  else
    -- add a new record for the package list
    let index := index.push_back cat pkg.name
    (index, { pkg with categories := pkg.categories ++ [cat] })

/-- Membership is bidirectionally consistent for package `pkg`: it occurs in
the index list of a category exactly once when the category is in its own
set, and not at all otherwise. -/
def index_consistent (index : CategoryIndex) (pkg : packagemeta) : Prop :=
  ∀ c : String,
    (index.lookup c).count pkg.name = if categories_find pkg.categories c then 1 else 0

/-- A reference held by a package is either empty or a member of versions. -/
def valid_ref (x : packageversion) (versions : List packageversion) : Prop :=
  x = none ∨ x ∈ versions

/-- One call of a state-changing method of `packagemeta`. -/
inductive Operation where
  | set_action (action : _actions) (default_version : packageversion) (useraction : Bool)
  | select_action (id : Int) (deftrust : trusts)
  | toggle_action
  | add_version (pkgdata : addPackageData)
  | set_installed_version (version : String)
deriving Repr

/-- The effect of one call on the package and the registry; `none` when the
call has no defined behaviour (`select_action` with an id out of range). -/
def apply_operation (accessible : packageversion → Bool)
    (compareVersions : packageversion → packageversion → Int)
    (is_test_package : packageversion → Bool)
    (state : packagemeta × SolverPool) : Operation → Option (packagemeta × SolverPool)
  | Operation.set_action action default_version useraction =>
    some (set_action accessible state.1 action default_version useraction, state.2)
  | Operation.select_action id deftrust =>
    match select_action accessible compareVersions state.1 id deftrust with
    | some pkg => some (pkg, state.2)
    | none => none
  | Operation.toggle_action =>
    some (toggle_action accessible is_test_package state.1, state.2)
  | Operation.add_version pkgdata =>
    let r := add_version compareVersions state.2 state.1 pkgdata
    some (r.2.1, r.2.2)
  | Operation.set_installed_version version =>
    some (set_installed_version state.1 version, state.2)

/-- A finite sequence of calls, in order. -/
def apply_operations (accessible : packageversion → Bool)
    (compareVersions : packageversion → packageversion → Int)
    (is_test_package : packageversion → Bool) :
    packagemeta × SolverPool → List Operation → Option (packagemeta × SolverPool)
  | state, [] => some state
  | state, op :: ops =>
    match apply_operation accessible compareVersions is_test_package state op with
    | some next => apply_operations accessible compareVersions is_test_package next ops
    | none => none

/-- A sample session on package foo: two versions are loaded, 1.0 is recorded
as installed, the user selects 1.1, toggles twice and asks for a reinstall. -/
def sampleSession : List Operation :=
  [Operation.add_version (request "repo" "1.0" "cygwin" trusts.TRUST_CURR ["s1"]),
   Operation.add_version (request "repo" "1.1" "cygwin" trusts.TRUST_TEST ["s1"]),
   Operation.set_installed_version "1.0",
   Operation.select_action (-1) trusts.TRUST_CURR,
   Operation.toggle_action,
   Operation.toggle_action,
   Operation.set_action _actions.Reinstall_action none true]

/-- The sample entry of version 1.0 held by `mergePackage`. -/
def mergeEntry : packageversion :=
  some { id := 7, name := "foo", version := "1.0", vendor := "cygwin",
         reponame := "repo", stability := trusts.TRUST_CURR, sites := ["s0"] }

/-- A sample package for the scanner whose desired version 1.1 is neither
installed nor cached: 1.0 is installed, 1.1 is the stable version. -/
def desiredPackage : packagemeta :=
  { packagemeta.mk_named "foo" with
    versions := [sampleVersion 1 "1.0", sampleVersion 2 "1.1"],
    installed := sampleVersion 1 "1.0",
    curr := sampleVersion 2 "1.1",
    desired := sampleVersion 2 "1.1" }

/-! Section: The sample comparator is a total order -/

/-- Comparing a sequence with itself gives 0. -/
theorem lexCompare_self (a : List Nat) : lexCompare a a = 0 := by
  induction a with
  | nil => rfl
  | cons x xs ih => simp [lexCompare, ih]

/-- Unfolding of `lexCompare` on two non-empty sequences. -/
theorem lexCompare_cons (x y : Nat) (xs ys : List Nat) :
    lexCompare (x :: xs) (y :: ys)
      = if x < y then -1 else if y < x then 1 else lexCompare xs ys := rfl

/-- Swapping the arguments of `lexCompare` negates the result. -/
theorem lexCompare_swap (a b : List Nat) : lexCompare b a = - lexCompare a b := by
  induction a generalizing b with
  | nil => cases b <;> simp [lexCompare]
  | cons x xs ih =>
    cases b with
    | nil => simp [lexCompare]
    | cons y ys =>
      rw [lexCompare_cons, lexCompare_cons]
      rcases Nat.lt_trichotomy x y with h | h | h
      · rw [if_neg (by omega), if_pos h, if_pos h]; rfl
      · subst h
        rw [if_neg (by omega), if_neg (by omega), if_neg (by omega), if_neg (by omega)]
        exact ih ys
      · rw [if_pos h, if_neg (by omega), if_pos h]

/-- Only equal sequences compare as 0. -/
theorem lexCompare_eq_zero (a b : List Nat) (h : lexCompare a b = 0) : a = b := by
  induction a generalizing b with
  | nil => cases b <;> simp_all [lexCompare]
  | cons x xs ih =>
    cases b with
    | nil => simp [lexCompare] at h
    | cons y ys =>
      rw [lexCompare_cons] at h
      rcases Nat.lt_trichotomy x y with hxy | hxy | hxy
      · rw [if_pos hxy] at h; omega
      · subst hxy
        rw [if_neg (by omega), if_neg (by omega)] at h
        rw [ih ys h]
      · rw [if_neg (by omega), if_pos hxy] at h; omega

/-- Transitivity of `lexCompare` in the form used by `IsTotalOrder`. -/
theorem lexCompare_trans (a b c : List Nat)
    (hab : lexCompare a b ≤ 0) (hbc : lexCompare b c ≤ 0) : lexCompare a c ≤ 0 := by
  induction a generalizing b c with
  | nil => cases c <;> simp [lexCompare]
  | cons x xs ih =>
    cases b with
    | nil => simp [lexCompare] at hab
    | cons y ys =>
      cases c with
      | nil => simp [lexCompare] at hbc
      | cons z zs =>
        rw [lexCompare_cons] at hab hbc ⊢
        rcases Nat.lt_trichotomy x y with hxy | hxy | hxy
        · rcases Nat.lt_trichotomy y z with hyz | hyz | hyz
          · rw [if_pos (by omega)]; omega
          · rw [if_pos (by omega)]; omega
          · rw [if_neg (by omega), if_pos hyz] at hbc; omega
        · subst hxy
          rw [if_neg (by omega), if_neg (by omega)] at hab
          rcases Nat.lt_trichotomy x z with hyz | hyz | hyz
          · rw [if_pos hyz]; omega
          · subst hyz
            rw [if_neg (by omega), if_neg (by omega)] at hbc ⊢
            exact ih ys zs hab hbc
          · rw [if_neg (by omega), if_pos hyz] at hbc; omega
        · rw [if_neg (by omega), if_pos hxy] at hab; omega

/-- The sample comparator satisfies `IsTotalOrder`. -/
theorem canonicalCompare_isTotalOrder : IsTotalOrder canonicalCompare where
  refl a := lexCompare_self _
  antisymm a b := by
    unfold canonicalCompare
    rw [lexCompare_swap (versionKey a) (versionKey b)]
    omega
  trans a b c := lexCompare_trans _ _ _

/-- The sample comparator ties versions with the same canonical string. -/
theorem canonicalCompare_respectsCanonical : RespectsCanonical canonicalCompare := by
  intro a b h
  unfold canonicalCompare versionKey
  rw [h]
  exact lexCompare_self _

/-- Equal code-point keys come from equal canonical strings. -/
theorem versionKey_injective (a b : packageversion)
    (h : versionKey a = versionKey b) : Canonical_version a = Canonical_version b := by
  have hchar : ∀ x y : Char, x.toNat = y.toNat → x = y := by
    intro x y hxy
    apply Char.ext
    apply UInt32.ext
    exact hxy
  have hlist : ∀ l m : List Char, l.map Char.toNat = m.map Char.toNat → l = m := by
    intro l
    induction l with
    | nil => intro m hm; cases m <;> simp_all
    | cons x xs ih =>
      intro m hm
      cases m with
      | nil => simp at hm
      | cons y ys =>
        simp only [List.map_cons, List.cons.injEq] at hm
        rw [hchar x y hm.1, ih ys hm.2]
  exact String.ext (hlist _ _ h)

/-- The sample comparator ties exactly the versions with the same canonical
string: on canonical strings it is a total order. -/
theorem canonicalCompare_eq_zero_iff (a b : packageversion) :
    canonicalCompare a b = 0 ↔ Canonical_version a = Canonical_version b :=
  ⟨fun h => versionKey_injective a b (lexCompare_eq_zero _ _ h),
   fun h => canonicalCompare_respectsCanonical a b h⟩

/-! Section: Properties of `set_action` -/

/-- C1: if the package has an installed version and X equals it, then
`set_action (Install, X, useraction)` ends with action NoChange, desired X and
both pick flags false, for either value of useraction. -/
theorem set_action_install_installed_degrades
    (accessible : packageversion → Bool) (pkg : packagemeta)
    (X : packageversion) (useraction : Bool)
    (hinst : pkg.installed.isSome = true) (hX : X = pkg.installed) :
    (set_action accessible pkg _actions.Install_action X useraction)._action
        = _actions.NoChange_action
      ∧ (set_action accessible pkg _actions.Install_action X useraction).desired = X
      ∧ (set_action accessible pkg _actions.Install_action X useraction)._picked = false
      ∧ (set_action accessible pkg _actions.Install_action X useraction)._srcpicked
        = false := by
  subst hX
  simp [set_action, pick, srcpick, hinst]

/-- Witness of C1 on the sample package, whose installed version is 1.0. -/
theorem set_action_install_installed_degrades_witness :
    (set_action (fun _ => true) samplePackage _actions.Install_action
        (sampleVersion 1 "1.0") true)._action = _actions.NoChange_action
      ∧ (set_action (fun _ => true) samplePackage _actions.Install_action
        (sampleVersion 1 "1.0") true).desired = sampleVersion 1 "1.0"
      ∧ (set_action (fun _ => true) samplePackage _actions.Install_action
        (sampleVersion 1 "1.0") true)._picked = false
      ∧ (set_action (fun _ => true) samplePackage _actions.Install_action
        (sampleVersion 1 "1.0") true)._srcpicked = false :=
  set_action_install_installed_degrades (fun _ => true) samplePackage
    (sampleVersion 1 "1.0") true (by decide) (by decide)

/-- C2 fails as stated: on a package whose binary is picked, Install with the
empty version leaves the action at Install and the pick flag set, whereas the
claim asks for NoChange and cleared flags. -/
theorem set_action_install_empty_counterexample :
    (set_action (fun _ => true) { samplePackage with _picked := true }
        _actions.Install_action none false)._action = _actions.Install_action
      ∧ (set_action (fun _ => true) { samplePackage with _picked := true }
        _actions.Install_action none false)._picked = true
      ∧ ¬ ((set_action (fun _ => true) { samplePackage with _picked := true }
            _actions.Install_action none false)._action = _actions.NoChange_action
          ∧ (set_action (fun _ => true) { samplePackage with _picked := true }
            _actions.Install_action none false)._picked = false) := by
  decide

/-- C2, amended: `set_action (Install, empty, useraction)` ends with desired
empty and action Install, and leaves picked, srcPicked and userPicked as they
were. -/
theorem set_action_install_empty
    (accessible : packageversion → Bool) (pkg : packagemeta) (useraction : Bool) :
    (set_action accessible pkg _actions.Install_action none useraction).desired = none
      ∧ (set_action accessible pkg _actions.Install_action none useraction)._action
        = _actions.Install_action
      ∧ (set_action accessible pkg _actions.Install_action none useraction)._picked
        = pkg._picked
      ∧ (set_action accessible pkg _actions.Install_action none useraction)._srcpicked
        = pkg._srcpicked
      ∧ (set_action accessible pkg _actions.Install_action none useraction).user_picked
        = pkg.user_picked := by
  simp [set_action]

/-- C3: for a non-empty X that differs from installed,
`set_action (Install, X, useraction)` ends with action Install and desired X;
if X is accessible then picked is true, srcPicked is false and userPicked is
true when useraction is true and unchanged otherwise; if X is not accessible
then picked is false, srcPicked is true and userPicked is unchanged. -/
theorem set_action_install_other
    (accessible : packageversion → Bool) (pkg : packagemeta)
    (X : packageversion) (useraction : Bool)
    (hX : X.isSome = true) (hne : X ≠ pkg.installed) :
    (set_action accessible pkg _actions.Install_action X useraction)._action
        = _actions.Install_action
      ∧ (set_action accessible pkg _actions.Install_action X useraction).desired = X
      ∧ (accessible X = true →
          (set_action accessible pkg _actions.Install_action X useraction)._picked = true
          ∧ (set_action accessible pkg _actions.Install_action X useraction)._srcpicked
            = false
          ∧ (useraction = true →
              (set_action accessible pkg _actions.Install_action X useraction).user_picked
                = true)
          ∧ (useraction = false →
              (set_action accessible pkg _actions.Install_action X useraction).user_picked
                = pkg.user_picked))
      ∧ (accessible X = false →
          (set_action accessible pkg _actions.Install_action X useraction)._picked = false
          ∧ (set_action accessible pkg _actions.Install_action X useraction)._srcpicked
            = true
          ∧ (set_action accessible pkg _actions.Install_action X useraction).user_picked
            = pkg.user_picked) := by
  cases hacc : accessible X <;> cases useraction <;>
    simp [set_action, pick, srcpick, hX, hne, hacc]

/-- Witness of C3: on the sample package (1.0 installed) the accessible
version 1.1 is installed by a user action. -/
theorem set_action_install_other_witness :
    (set_action (fun _ => true) samplePackage _actions.Install_action
        (sampleVersion 2 "1.1") true)._action = _actions.Install_action
      ∧ (set_action (fun _ => true) samplePackage _actions.Install_action
        (sampleVersion 2 "1.1") true).desired = sampleVersion 2 "1.1"
      ∧ (set_action (fun _ => true) samplePackage _actions.Install_action
        (sampleVersion 2 "1.1") true)._picked = true
      ∧ (set_action (fun _ => true) samplePackage _actions.Install_action
        (sampleVersion 2 "1.1") true).user_picked = true := by
  have h := set_action_install_other (fun _ => true) samplePackage
    (sampleVersion 2 "1.1") true (by decide) (by decide)
  exact ⟨h.1, h.2.1, (h.2.2.1 rfl).1, (h.2.2.1 rfl).2.2.1 rfl⟩

/-- C4 fails as stated: with no source queued beforehand, Install of the
inaccessible version 1.1 (1.0 installed) keeps action Install and queues the
source, it does not become NoChange. -/
theorem set_action_install_inaccessible_counterexample :
    samplePackage._srcpicked = false
      ∧ (sampleVersion 2 "1.1").isSome = true
      ∧ sampleVersion 2 "1.1" ≠ samplePackage.installed
      ∧ (set_action (fun _ => false) samplePackage _actions.Install_action
          (sampleVersion 2 "1.1") false)._action = _actions.Install_action
      ∧ (set_action (fun _ => false) samplePackage _actions.Install_action
          (sampleVersion 2 "1.1") false)._action ≠ _actions.NoChange_action := by
  decide

/-- C4, amended: when srcPicked is false beforehand and X is non-empty,
differs from installed and is not accessible, `set_action (Install, X,
useraction)` ends with action Install, picked false and srcPicked true. -/
theorem set_action_install_inaccessible
    (accessible : packageversion → Bool) (pkg : packagemeta)
    (X : packageversion) (useraction : Bool)
    (_hsrc : pkg._srcpicked = false)
    (hX : X.isSome = true) (hne : X ≠ pkg.installed)
    (hacc : accessible X = false) :
    (set_action accessible pkg _actions.Install_action X useraction)._action
        = _actions.Install_action
      ∧ (set_action accessible pkg _actions.Install_action X useraction)._picked = false
      ∧ (set_action accessible pkg _actions.Install_action X useraction)._srcpicked
        = true := by
  simp [set_action, pick, srcpick, hX, hne, hacc]

/-- Witness of the amended C4 on the sample package with the inaccessible
version 1.1. -/
theorem set_action_install_inaccessible_witness :
    (set_action (fun _ => false) samplePackage _actions.Install_action
        (sampleVersion 2 "1.1") true)._action = _actions.Install_action
      ∧ (set_action (fun _ => false) samplePackage _actions.Install_action
        (sampleVersion 2 "1.1") true)._picked = false
      ∧ (set_action (fun _ => false) samplePackage _actions.Install_action
        (sampleVersion 2 "1.1") true)._srcpicked = true :=
  set_action_install_inaccessible (fun _ => false) samplePackage
    (sampleVersion 2 "1.1") true (by decide) (by decide) (by decide) rfl

/-- C5: `set_action (NoChange, D)` ends with action NoChange.  If the package
is installed or its categories contain "Base" or "Orphaned", desired is D; for
a non-empty D picked is (D differs from installed) and srcPicked is false, for
an empty D both pick flags are unchanged.  Otherwise desired is empty and
picked is false. -/
theorem set_action_nochange
    (accessible : packageversion → Bool) (pkg : packagemeta)
    (D : packageversion) (useraction : Bool) :
    (set_action accessible pkg _actions.NoChange_action D useraction)._action
        = _actions.NoChange_action
      ∧ ((pkg.installed.isSome = true ∨ categories_find pkg.categories "Base" = true
            ∨ categories_find pkg.categories "Orphaned" = true) →
          (set_action accessible pkg _actions.NoChange_action D useraction).desired = D
          ∧ (D.isSome = true →
              (set_action accessible pkg _actions.NoChange_action D useraction)._picked
                = decide (D ≠ pkg.installed)
              ∧ (set_action accessible pkg _actions.NoChange_action D useraction)._srcpicked
                = false)
          ∧ (D = none →
              (set_action accessible pkg _actions.NoChange_action D useraction)._picked
                = pkg._picked
              ∧ (set_action accessible pkg _actions.NoChange_action D useraction)._srcpicked
                = pkg._srcpicked))
      ∧ (¬ (pkg.installed.isSome = true ∨ categories_find pkg.categories "Base" = true
            ∨ categories_find pkg.categories "Orphaned" = true) →
          (set_action accessible pkg _actions.NoChange_action D useraction).desired = none
          ∧ (set_action accessible pkg _actions.NoChange_action D useraction)._picked
            = false) := by
  refine ⟨?_, ?_, ?_⟩
  · simp only [set_action]
    split_ifs <;> rfl
  · intro h
    have hc : (pkg.installed.isSome || categories_find pkg.categories "Base"
        || categories_find pkg.categories "Orphaned") = true := by
      rcases h with h | h | h <;> simp [h]
    refine ⟨?_, ?_, ?_⟩
    · cases hD : D <;> simp [set_action, pick, srcpick, hc]
    · intro hD
      simp [set_action, pick, srcpick, hc, hD]
    · intro hD
      subst hD
      simp [set_action, hc]
  · intro h
    have hc : (pkg.installed.isSome || categories_find pkg.categories "Base"
        || categories_find pkg.categories "Orphaned") = false := by
      simp only [not_or, Bool.not_eq_true] at h
      simp [h.1, h.2.1, h.2.2]
    simp [set_action, pick, hc]

/-- Witness of C5: on the sample package (1.0 installed) NoChange with 1.1
keeps action NoChange, desires 1.1 and picks it; on a fresh package without
categories NoChange with 1.1 clears desired and picked. -/
theorem set_action_nochange_witness :
    ((set_action (fun _ => true) samplePackage _actions.NoChange_action
          (sampleVersion 2 "1.1") false)._action = _actions.NoChange_action
      ∧ (set_action (fun _ => true) samplePackage _actions.NoChange_action
          (sampleVersion 2 "1.1") false).desired = sampleVersion 2 "1.1"
      ∧ (set_action (fun _ => true) samplePackage _actions.NoChange_action
          (sampleVersion 2 "1.1") false)._picked = true)
      ∧ ((set_action (fun _ => true) (packagemeta.mk_named "foo")
          _actions.NoChange_action (sampleVersion 2 "1.1") false).desired = none
        ∧ (set_action (fun _ => true) (packagemeta.mk_named "foo")
          _actions.NoChange_action (sampleVersion 2 "1.1") false)._picked = false) := by
  have h := set_action_nochange (fun _ => true) samplePackage (sampleVersion 2 "1.1") false
  have g := set_action_nochange (fun _ => true) (packagemeta.mk_named "foo")
    (sampleVersion 2 "1.1") false
  have h2 := h.2.1 (Or.inl (by decide))
  refine ⟨⟨h.1, h2.1, ?_⟩, g.2.2 (by decide)⟩
  rw [(h2.2.1 (by decide)).1]
  decide

/-- C6: `set_action (Reinstall, D)` ignores D and sets desired to installed;
with an installed version the result is action Reinstall, picked true,
srcPicked false; without one it is action NoChange with both flags false. -/
theorem set_action_reinstall
    (accessible : packageversion → Bool) (pkg : packagemeta)
    (D : packageversion) (useraction : Bool) :
    (set_action accessible pkg _actions.Reinstall_action D useraction).desired
        = pkg.installed
      ∧ (pkg.installed.isSome = true →
          (set_action accessible pkg _actions.Reinstall_action D useraction)._action
            = _actions.Reinstall_action
          ∧ (set_action accessible pkg _actions.Reinstall_action D useraction)._picked
            = true
          ∧ (set_action accessible pkg _actions.Reinstall_action D useraction)._srcpicked
            = false)
      ∧ (pkg.installed = none →
          (set_action accessible pkg _actions.Reinstall_action D useraction)._action
            = _actions.NoChange_action
          ∧ (set_action accessible pkg _actions.Reinstall_action D useraction)._picked
            = false
          ∧ (set_action accessible pkg _actions.Reinstall_action D useraction)._srcpicked
            = false) := by
  refine ⟨?_, ?_, ?_⟩
  · cases h : pkg.installed <;> simp [set_action, pick, srcpick, h]
  · intro h
    simp [set_action, pick, srcpick, h]
  · intro h
    simp [set_action, pick, srcpick, h]

/-- Witness of C6: on the sample package (1.0 installed) Reinstall with
argument 1.1 desires 1.0 and picks it; on a fresh package it degrades to
NoChange. -/
theorem set_action_reinstall_witness :
    ((set_action (fun _ => true) samplePackage _actions.Reinstall_action
          (sampleVersion 2 "1.1") false).desired = sampleVersion 1 "1.0"
      ∧ (set_action (fun _ => true) samplePackage _actions.Reinstall_action
          (sampleVersion 2 "1.1") false)._action = _actions.Reinstall_action
      ∧ (set_action (fun _ => true) samplePackage _actions.Reinstall_action
          (sampleVersion 2 "1.1") false)._picked = true)
      ∧ (set_action (fun _ => true) (packagemeta.mk_named "foo")
          _actions.Reinstall_action (sampleVersion 2 "1.1") false)._action
        = _actions.NoChange_action := by
  have h := set_action_reinstall (fun _ => true) samplePackage (sampleVersion 2 "1.1") false
  have g := set_action_reinstall (fun _ => true) (packagemeta.mk_named "foo")
    (sampleVersion 2 "1.1") false
  exact ⟨⟨h.1, (h.2.1 (by decide)).1, (h.2.1 (by decide)).2.1⟩, (g.2.2 rfl).1⟩

/-- C7: `set_action (Uninstall, D)` ends with action Uninstall and desired
empty, and leaves picked, srcPicked, userPicked, installed, curr, exp,
versions and categories as they were. -/
theorem set_action_uninstall
    (accessible : packageversion → Bool) (pkg : packagemeta)
    (D : packageversion) (useraction : Bool) :
    (set_action accessible pkg _actions.Uninstall_action D useraction)._action
        = _actions.Uninstall_action
      ∧ (set_action accessible pkg _actions.Uninstall_action D useraction).desired = none
      ∧ (set_action accessible pkg _actions.Uninstall_action D useraction)._picked
        = pkg._picked
      ∧ (set_action accessible pkg _actions.Uninstall_action D useraction)._srcpicked
        = pkg._srcpicked
      ∧ (set_action accessible pkg _actions.Uninstall_action D useraction).user_picked
        = pkg.user_picked
      ∧ (set_action accessible pkg _actions.Uninstall_action D useraction).installed
        = pkg.installed
      ∧ (set_action accessible pkg _actions.Uninstall_action D useraction).curr = pkg.curr
      ∧ (set_action accessible pkg _actions.Uninstall_action D useraction).exp = pkg.exp
      ∧ (set_action accessible pkg _actions.Uninstall_action D useraction).versions
        = pkg.versions
      ∧ (set_action accessible pkg _actions.Uninstall_action D useraction).categories
        = pkg.categories := by
  simp [set_action]

/-! Section: Properties of `trustp` -/

/-- C8: `trustp (d, t)` is the value the specification describes clause by
clause, for every comparator, state, flag and preference; and on the three
sample states (stable 2.0 / installed 2.1 / test 2.2; stable 2.0 / installed
2.1 / no test; stable 2.0 / installed 1.9 / no test) `trustp (true, stable)`
gives 2.2, 2.1 and 2.0. -/
theorem trustp_eq_spec :
    (∀ (compare : packageversion → packageversion → Int) (pkg : packagemeta)
        (d : Bool) (t : trusts),
        trustp compare pkg d t = trustp_spec compare pkg d t)
      ∧ trustp canonicalCompare
          (trustPackage (sampleVersion 1 "2.0") (sampleVersion 2 "2.1")
            (sampleVersion 3 "2.2")) true trusts.TRUST_CURR = sampleVersion 3 "2.2"
      ∧ trustp canonicalCompare
          (trustPackage (sampleVersion 1 "2.0") (sampleVersion 2 "2.1") none)
          true trusts.TRUST_CURR = sampleVersion 2 "2.1"
      ∧ trustp canonicalCompare
          (trustPackage (sampleVersion 1 "2.0") (sampleVersion 2 "1.9") none)
          true trusts.TRUST_CURR = sampleVersion 1 "2.0" := by
  refine ⟨?_, by decide, by decide, by decide⟩
  intro compare pkg d t
  simp only [trustp, trustp_spec, ne_eq, Option.isSome_iff_ne_none]

/-- C9 fails as stated: with stable 2.0, installed 2.1 and an older test
version 1.5, `trustp (true, test)` returns the test version 1.5, which the
(total order) sample comparator ranks below the installed 2.1. -/
theorem trustp_downgrade_counterexample :
    IsTotalOrder canonicalCompare
      ∧ (trustPackage (sampleVersion 1 "2.0") (sampleVersion 2 "2.1")
          (sampleVersion 3 "1.5")).curr.isSome = true
      ∧ (trustPackage (sampleVersion 1 "2.0") (sampleVersion 2 "2.1")
          (sampleVersion 3 "1.5")).installed.isSome = true
      ∧ canonicalCompare (sampleVersion 1 "2.0") (sampleVersion 2 "2.1") < 0
      ∧ trustp canonicalCompare
          (trustPackage (sampleVersion 1 "2.0") (sampleVersion 2 "2.1")
            (sampleVersion 3 "1.5")) true trusts.TRUST_TEST = sampleVersion 3 "1.5"
      ∧ ¬ (0 ≤ canonicalCompare
          (trustp canonicalCompare
            (trustPackage (sampleVersion 1 "2.0") (sampleVersion 2 "2.1")
              (sampleVersion 3 "1.5")) true trusts.TRUST_TEST)
          (sampleVersion 2 "2.1")) :=
  ⟨canonicalCompare_isTotalOrder, by decide, by decide, by decide, by decide, by decide⟩

/-- C9, amended: for a total order `compare`, when curr and installed are
non-empty and compare (curr, installed) < 0, and the preference t is not test,
or there is no test version, or the test version is not lower than installed,
the version v returned by `trustp (true, t)` has compare (v, installed) >= 0. -/
theorem trustp_never_downgrades
    (compare : packageversion → packageversion → Int) (hord : IsTotalOrder compare)
    (pkg : packagemeta) (t : trusts)
    (hcurr : pkg.curr.isSome = true) (hinst : pkg.installed.isSome = true)
    (hlt : compare pkg.curr pkg.installed < 0)
    (ht : t ≠ trusts.TRUST_TEST ∨ pkg.exp = none ∨ 0 ≤ compare pkg.exp pkg.installed) :
    0 ≤ compare (trustp compare pkg true t) pkg.installed := by
  unfold trustp
  by_cases h1 : t = trusts.TRUST_TEST ∧ pkg.exp.isSome = true
  · rw [if_pos h1]
    rcases ht with ht | ht | ht
    · exact absurd h1.1 ht
    · rw [ht] at h1
      simp at h1
    · exact ht
  · rw [if_neg h1, if_pos ⟨rfl, hcurr, hinst, hlt⟩]
    by_cases h2 : pkg.exp.isSome = true ∧ compare pkg.installed pkg.exp < 0
    · rw [if_pos h2]
      exact le_of_lt ((hord.antisymm _ _).1 h2.2)
    · rw [if_neg h2]
      exact le_of_eq (hord.refl _).symm

/-- Witness of the amended C9: stable 2.0, installed 2.1, test 2.2 and
preference stable. -/
theorem trustp_never_downgrades_witness :
    0 ≤ canonicalCompare
      (trustp canonicalCompare
        (trustPackage (sampleVersion 1 "2.0") (sampleVersion 2 "2.1")
          (sampleVersion 3 "2.2")) true trusts.TRUST_CURR)
      (trustPackage (sampleVersion 1 "2.0") (sampleVersion 2 "2.1")
        (sampleVersion 3 "2.2")).installed :=
  trustp_never_downgrades canonicalCompare canonicalCompare_isTotalOrder
    (trustPackage (sampleVersion 1 "2.0") (sampleVersion 2 "2.1")
      (sampleVersion 3 "2.2")) trusts.TRUST_CURR (by decide) (by decide) (by decide)
    (Or.inl (by decide))

/-! Section: Properties of `add_version` -/

/-- The loop of `add_version` keeps the version, stability and package name,
and either leaves curr alone or clears it, the latter only when curr carries
the canonical version being added. -/
theorem add_version_loop_spec (pkgdata : addPackageData) (pkg : packagemeta)
    (pool : SolverPool) (l : List packageversion) :
    (add_version_loop pkgdata pkg pool l).1.version = pkgdata.version
      ∧ (add_version_loop pkgdata pkg pool l).1.stability = pkgdata.stability
      ∧ (add_version_loop pkgdata pkg pool l).2.1.name = pkg.name
      ∧ ((add_version_loop pkgdata pkg pool l).2.1.curr = pkg.curr
          ∨ ((add_version_loop pkgdata pkg pool l).2.1.curr = none
              ∧ Canonical_version pkg.curr = pkgdata.version)) := by
  induction l with
  | nil => simp [add_version_loop]
  | cons i rest ih =>
    by_cases hcv : Canonical_version i = pkgdata.version
    · by_cases hv : pkgdata.vendor = Vendor i
      · by_cases hr : pkgdata.reponame = "_installed"
        · simp [add_version_loop, hcv, hv, hr]
        · by_cases hs : has_slot pkgdata.stability = true
              ∧ slot_get pkg pkgdata.stability = i
          · cases hst : pkgdata.stability
            · rw [hst] at hs
              simp [has_slot] at hs
            · rw [hst] at hs
              simp only [slot_get] at hs
              simp [add_version_loop, hcv, hv, hr, hst, has_slot, slot_get, slot_set,
                hs.2]
            · rw [hst] at hs
              simp only [slot_get] at hs
              simp [add_version_loop, hcv, hv, hr, hst, has_slot, slot_get, slot_set,
                hs.2]
          · simp [add_version_loop, hcv, hv, hr, hs]
      · simp [add_version_loop, hcv, hv]
    · simp only [add_version_loop, ne_eq, hcv, not_false_eq_true, if_true]
      exact ih

/-- One stable-tagged `add_version`: the created version is non-empty, carries
the requested canonical version, and curr becomes `keep_highest` of the old
curr and the created version. -/
theorem add_version_stable_curr (cmp : packageversion → packageversion → Int)
    (hcan : RespectsCanonical cmp) (pool : SolverPool) (pkg : packagemeta)
    (d : addPackageData) (hst : d.stability = trusts.TRUST_CURR) :
    (add_version cmp pool pkg d).1.isSome = true
      ∧ Canonical_version (add_version cmp pool pkg d).1 = d.version
      ∧ (add_version cmp pool pkg d).2.1.curr
        = keep_highest cmp pkg.curr (add_version cmp pool pkg d).1 := by
  obtain ⟨hver, hstab, _, hcurr⟩ := add_version_loop_spec d pkg pool pkg.versions
  rw [hst] at hstab
  simp only [add_version]
  generalize add_version_loop d pkg pool pkg.versions = r at hver hstab hcurr ⊢
  have hthe : Canonical_version (r.2.2.1.addPackage r.2.1.name r.1).1 = d.version := by
    simp [SolverPool.addPackage, Canonical_version, hver]
  refine ⟨by simp [SolverPool.addPackage], hthe, ?_⟩
  simp only [hstab, has_slot, slot_get, slot_set, keep_highest, if_true]
  rcases hcurr with hcurr | ⟨hcurr, hcv⟩
  · rw [hcurr]
    by_cases hsome : pkg.curr.isSome = true
    · by_cases hlt : cmp (r.2.2.1.addPackage r.2.1.name r.1).1 pkg.curr < 0
      · simp [hsome, hlt, hcurr, not_le.mpr hlt]
      · simp [hsome, hlt, not_lt.mp hlt]
    · simp [hsome]
  · have hz : cmp (r.2.2.1.addPackage r.2.1.name r.1).1 pkg.curr = 0 := by
      apply hcan
      rw [hthe, hcv]
    simp [hcurr, hz]

/-- A sequence of stable-tagged calls: the created versions carry the requested
canonical versions in order, all are non-empty, and curr is the left fold of
`keep_highest` over them. -/
theorem add_versions_stable_curr (cmp : packageversion → packageversion → Int)
    (hcan : RespectsCanonical cmp) (ds : List addPackageData) :
    ∀ (pool : SolverPool) (pkg : packagemeta),
      (∀ d ∈ ds, d.stability = trusts.TRUST_CURR) →
      (add_versions cmp pool pkg ds).1.map Canonical_version
          = ds.map (fun d => d.version)
        ∧ (∀ v ∈ (add_versions cmp pool pkg ds).1, v.isSome = true)
        ∧ (add_versions cmp pool pkg ds).2.1.curr
          = List.foldl (keep_highest cmp) pkg.curr (add_versions cmp pool pkg ds).1 := by
  induction ds with
  | nil =>
    intro pool pkg _
    simp [add_versions]
  | cons d ds ih =>
    intro pool pkg hst
    obtain ⟨hsome, hver, hcurr⟩ :=
      add_version_stable_curr cmp hcan pool pkg d (hst d (List.mem_cons_self d ds))
    obtain ⟨ih1, ih2, ih3⟩ :=
      ih (add_version cmp pool pkg d).2.2 (add_version cmp pool pkg d).2.1
        (fun e he => hst e (List.mem_cons_of_mem d he))
    simp only [add_versions, List.map_cons, List.foldl_cons, List.mem_cons]
    refine ⟨by rw [hver, ih1], ?_, by rw [ih3, hcurr]⟩
    intro v hv
    rcases hv with hv | hv
    · rw [hv]; exact hsome
    · exact ih2 v hv

/-- The left fold of `keep_highest` over non-empty versions either keeps the
initial slot (every element compares strictly lower) or ends at the last
greatest element of the list. -/
theorem foldl_keep_highest (cmp : packageversion → packageversion → Int)
    (hord : IsTotalOrder cmp) (vs : List packageversion) :
    ∀ b : packageversion, (∀ v ∈ vs, v.isSome = true) →
      (List.foldl (keep_highest cmp) b vs = b ∧ (vs ≠ [] → b.isSome = true)
          ∧ ∀ w ∈ vs, cmp w b < 0)
        ∨ ∃ (k : Nat) (v : packageversion),
            vs[k]? = some v ∧ List.foldl (keep_highest cmp) b vs = v
            ∧ (b.isSome = true → cmp b v ≤ 0)
            ∧ (∀ (j : Nat) (w : packageversion), vs[j]? = some w → cmp w v ≤ 0)
            ∧ (∀ (j : Nat) (w : packageversion), k < j → vs[j]? = some w →
                cmp w v < 0) := by
  induction vs with
  | nil =>
    intro b _
    left
    simp
  | cons v rest ih =>
    intro b hall
    have hv : v.isSome = true := hall v (List.mem_cons_self v rest)
    have hrest : ∀ w ∈ rest, w.isSome = true :=
      fun w hw => hall w (List.mem_cons_of_mem v hw)
    rw [List.foldl_cons]
    by_cases hkeep : b.isSome = true ∧ cmp v b < 0
    · -- the slot keeps b
      have hb : keep_highest cmp b v = b := by simp [keep_highest, hkeep]
      rw [hb]
      rcases ih b hrest with ⟨h1, _, h3⟩ | ⟨k, v1, hk, h1, h2, h3, h4⟩
      · left
        refine ⟨h1, fun _ => hkeep.1, ?_⟩
        intro w hw
        rcases List.mem_cons.1 hw with hw | hw
        · rw [hw]; exact hkeep.2
        · exact h3 w hw
      · right
        refine ⟨k + 1, v1, by simpa using hk, h1, h2, ?_, ?_⟩
        · intro j w hj
          cases j with
          | zero =>
            simp only [List.getElem?_cons_zero, Option.some.injEq] at hj
            rw [← hj]
            exact hord.trans v b v1 (le_of_lt hkeep.2) (h2 hkeep.1)
          | succ j =>
            simp only [List.getElem?_cons_succ] at hj
            exact h3 j w hj
        · intro j w hlt hj
          cases j with
          | zero => omega
          | succ j =>
            simp only [List.getElem?_cons_succ] at hj
            exact h4 j w (by omega) hj
    · -- the slot takes v
      have hb : keep_highest cmp b v = v := by simp only [keep_highest, if_neg hkeep]
      have hbv : b.isSome = true → cmp b v ≤ 0 := by
        intro hbs
        have hnlt : ¬ cmp v b < 0 := fun h => hkeep ⟨hbs, h⟩
        have hnpos : ¬ 0 < cmp b v := fun h => hnlt ((hord.antisymm v b).2 h)
        omega
      rw [hb]
      rcases ih v hrest with ⟨h1, _, h3⟩ | ⟨k, v1, hk, h1, h2, h3, h4⟩
      · right
        refine ⟨0, v, by simp, h1, hbv, ?_, ?_⟩
        · intro j w hj
          cases j with
          | zero =>
            simp only [List.getElem?_cons_zero, Option.some.injEq] at hj
            rw [← hj]
            exact le_of_eq (hord.refl v)
          | succ j =>
            simp only [List.getElem?_cons_succ] at hj
            exact le_of_lt (h3 w (List.getElem?_mem hj))
        · intro j w hlt hj
          cases j with
          | zero => omega
          | succ j =>
            simp only [List.getElem?_cons_succ] at hj
            exact h3 w (List.getElem?_mem hj)
      · right
        refine ⟨k + 1, v1, by simpa using hk, h1, ?_, ?_, ?_⟩
        · intro hbs
          exact hord.trans b v v1 (hbv hbs) (h2 hv)
        · intro j w hj
          cases j with
          | zero =>
            simp only [List.getElem?_cons_zero, Option.some.injEq] at hj
            rw [← hj]
            exact h2 hv
          | succ j =>
            simp only [List.getElem?_cons_succ] at hj
            exact h3 j w hj
        · intro j w hlt hj
          cases j with
          | zero => omega
          | succ j =>
            simp only [List.getElem?_cons_succ] at hj
            exact h4 j w (by omega) hj

/-- C10: for a total preorder `compare` that treats versions with the same
canonical string as equal, starting from a package with no versions and empty
curr, after a non-empty sequence of stable-tagged `add_version` calls curr is
the version created by some call k of the sequence (carrying that call's
canonical version) such that no call created a greater version and every
later call created a strictly lower one: the greatest, and among ties the
most recent. -/
theorem add_versions_curr_is_greatest
    (compare : packageversion → packageversion → Int)
    (hord : IsTotalOrder compare) (hcan : RespectsCanonical compare)
    (pool : SolverPool) (pkg : packagemeta) (ds : List addPackageData)
    (_hversions : pkg.versions = []) (hcurr : pkg.curr = none)
    (hne : ds ≠ []) (hstable : ∀ d ∈ ds, d.stability = trusts.TRUST_CURR) :
    (add_versions compare pool pkg ds).1.length = ds.length
      ∧ ∃ (k : Nat) (d : addPackageData) (v : packageversion),
          ds[k]? = some d
          ∧ (add_versions compare pool pkg ds).1[k]? = some v
          ∧ v.isSome = true
          ∧ Canonical_version v = d.version
          ∧ (add_versions compare pool pkg ds).2.1.curr = v
          ∧ (∀ (j : Nat) (w : packageversion),
              (add_versions compare pool pkg ds).1[j]? = some w → compare w v ≤ 0)
          ∧ (∀ (j : Nat) (w : packageversion), k < j →
              (add_versions compare pool pkg ds).1[j]? = some w → compare w v < 0) := by
  obtain ⟨hmap, hsome, hfold⟩ := add_versions_stable_curr compare hcan ds pool pkg hstable
  have hlen : (add_versions compare pool pkg ds).1.length = ds.length := by
    have h := congrArg List.length hmap
    simpa using h
  refine ⟨hlen, ?_⟩
  have hvs : (add_versions compare pool pkg ds).1 ≠ [] := by
    intro h
    rw [h] at hlen
    exact hne (List.length_eq_zero.1 hlen.symm)
  rw [hcurr] at hfold
  rcases foldl_keep_highest compare hord (add_versions compare pool pkg ds).1 none hsome
    with ⟨_, h2, _⟩ | ⟨k, v, hk, h1, _, h3, h4⟩
  · exact absurd (h2 hvs) (by simp)
  · have hkd : (ds.map (fun d => d.version))[k]? = some (Canonical_version v) := by
      rw [← hmap, List.getElem?_map, hk]
      rfl
    rw [List.getElem?_map] at hkd
    cases hd : ds[k]? with
    | none => rw [hd] at hkd; simp at hkd
    | some d =>
      rw [hd] at hkd
      simp only [Option.map_some', Option.some.injEq] at hkd
      exact ⟨k, d, v, hd, hk, hsome v (List.getElem?_mem hk), hkd.symm,
        by rw [hfold, h1], h3, h4⟩

/-- Witness of C10: the sample requests 1.0, 2.0, 1.5, 2.0 (other vendor), 1.0
on a fresh package under the lexicographic comparator; curr ends as the
version the fourth call created (the later of the two 2.0 entries). -/
theorem add_versions_curr_is_greatest_witness :
    ((add_versions canonicalCompare emptyPool (packagemeta.mk_named "foo")
          sampleRequests).1.length = sampleRequests.length
      ∧ ∃ (k : Nat) (d : addPackageData) (v : packageversion),
          sampleRequests[k]? = some d
          ∧ (add_versions canonicalCompare emptyPool (packagemeta.mk_named "foo")
              sampleRequests).1[k]? = some v
          ∧ v.isSome = true
          ∧ Canonical_version v = d.version
          ∧ (add_versions canonicalCompare emptyPool (packagemeta.mk_named "foo")
              sampleRequests).2.1.curr = v
          ∧ (∀ (j : Nat) (w : packageversion),
              (add_versions canonicalCompare emptyPool (packagemeta.mk_named "foo")
                sampleRequests).1[j]? = some w → canonicalCompare w v ≤ 0)
          ∧ (∀ (j : Nat) (w : packageversion), k < j →
              (add_versions canonicalCompare emptyPool (packagemeta.mk_named "foo")
                sampleRequests).1[j]? = some w → canonicalCompare w v < 0))
      ∧ (add_versions canonicalCompare emptyPool (packagemeta.mk_named "foo")
          sampleRequests).2.1.curr
        = some { id := 4, name := "foo", version := "2.0", vendor := "B",
                 reponame := "repo", stability := trusts.TRUST_CURR, sites := ["s3"] } :=
  ⟨add_versions_curr_is_greatest canonicalCompare canonicalCompare_isTotalOrder
      canonicalCompare_respectsCanonical emptyPool (packagemeta.mk_named "foo")
      sampleRequests rfl rfl (by decide) (by decide),
    by decide⟩

/-! Section: Properties of action selection -/

/-- C18: for an index j within versions, `select_action (-j, t)` is
`set_action (Install, j-th version, true)`; when that version (a version
object) differs from installed and is accessible, the result has action
Install, desired that version, picked, not srcPicked, userPicked.  On package
foo (1.0 stable, 1.1 test, nothing installed) `select_action (-1, test)` gives
action Install, desired 1.1, picked. -/
theorem select_action_ordinal :
    (∀ (accessible : packageversion → Bool)
        (compare : packageversion → packageversion → Int) (pkg : packagemeta)
        (t : trusts) (j : Nat) (v : packageversion),
        pkg.versions[j]? = some v →
        select_action accessible compare pkg (-(j : Int)) t
            = some (set_action accessible pkg _actions.Install_action v true)
          ∧ (v.isSome = true → v ≠ pkg.installed → accessible v = true →
              ∃ r, select_action accessible compare pkg (-(j : Int)) t = some r
                ∧ r._action = _actions.Install_action ∧ r.desired = v
                ∧ r._picked = true ∧ r._srcpicked = false ∧ r.user_picked = true))
      ∧ ∃ r, select_action (fun _ => true) canonicalCompare fooPackage (-1)
            trusts.TRUST_TEST = some r
          ∧ r._action = _actions.Install_action
          ∧ r.desired = sampleTestVersion 2 "1.1" ∧ r._picked = true := by
  refine ⟨?_, ?_⟩
  · intro accessible compare pkg t j v hv
    have hsel : select_action accessible compare pkg (-(j : Int)) t
        = some (set_action accessible pkg _actions.Install_action v true) := by
      have hj : (-(j : Int)) ≤ 0 := by omega
      simp only [select_action, if_pos hj, neg_neg, Int.toNat_ofNat, hv]
    refine ⟨hsel, ?_⟩
    intro hsome hne hacc
    refine ⟨_, hsel, ?_⟩
    simp [set_action, pick, srcpick, hsome, hne, hacc]
  · exact ⟨_, rfl, by decide, by decide, by decide⟩

/-- Witness of C18: index 1 of the sample package (1.0 installed) selects the
version 1.1. -/
theorem select_action_ordinal_witness :
    select_action (fun _ => true) canonicalCompare samplePackage (-((1 : Nat) : Int))
        trusts.TRUST_CURR
      = some (set_action (fun _ => true) samplePackage _actions.Install_action
          (sampleVersion 2 "1.1") true) :=
  (select_action_ordinal.1 (fun _ => true) canonicalCompare samplePackage
    trusts.TRUST_CURR 1 (sampleVersion 2 "1.1") rfl).1

/-- The loop of `toggle_action` ends with the last version that is not a test
package, or keeps the initial value when there is none. -/
theorem naively_preferred_foldl (is_test_package : packageversion → Bool)
    (versions : List packageversion) (init : packageversion) :
    versions.foldl
        (fun (preferred i : packageversion) =>
          if !is_test_package i then i else preferred) init
      = ((versions.filter (fun v => !is_test_package v)).getLast?).getD init := by
  induction versions generalizing init with
  | nil => rfl
  | cons i rest ih =>
    rw [List.foldl_cons, ih]
    cases hi : is_test_package i
    · have hf : List.filter (fun v => !is_test_package v) (i :: rest)
          = i :: List.filter (fun v => !is_test_package v) rest :=
        List.filter_cons_of_pos (by simp [hi])
      rw [hf, List.getLast?_cons]
      simp
    · have hf : List.filter (fun v => !is_test_package v) (i :: rest)
          = List.filter (fun v => !is_test_package v) rest :=
        List.filter_cons_of_neg (by simp [hi])
      rw [hf]
      simp

/-- C19: when desired differs from installed, `toggle_action` is
`set_action (NoChange, installed)` and ends with action NoChange and desired
= installed; otherwise it is `set_action (Install, p, true)` with p the last
version in ascending order that is not classified as a test package, or the
empty version when every version is a test package. -/
theorem toggle_action_spec
    (accessible : packageversion → Bool) (is_test_package : packageversion → Bool)
    (pkg : packagemeta) :
    (pkg.desired ≠ pkg.installed →
        toggle_action accessible is_test_package pkg
            = set_action accessible pkg _actions.NoChange_action pkg.installed false
          ∧ (toggle_action accessible is_test_package pkg)._action
            = _actions.NoChange_action
          ∧ (toggle_action accessible is_test_package pkg).desired = pkg.installed)
      ∧ (pkg.desired = pkg.installed →
          toggle_action accessible is_test_package pkg
            = set_action accessible pkg _actions.Install_action
                (((pkg.versions.filter (fun v => !is_test_package v)).getLast?).getD none)
                true)
      ∧ ((∀ v ∈ pkg.versions, is_test_package v = true) →
          ((pkg.versions.filter (fun v => !is_test_package v)).getLast?).getD none
            = none) := by
  refine ⟨?_, ?_, ?_⟩
  · intro hne
    have htog : toggle_action accessible is_test_package pkg
        = set_action accessible pkg _actions.NoChange_action pkg.installed false := by
      simp only [toggle_action, if_pos hne]
    rw [htog]
    refine ⟨rfl, ?_, ?_⟩
    · simp only [set_action]
      split_ifs <;> rfl
    · cases hinst : pkg.installed with
      | none =>
        simp only [set_action, hinst]
        split_ifs <;> rfl
      | some s =>
        simp [set_action, pick, srcpick, hinst]
  · intro heq
    simp only [toggle_action, heq, ne_eq, not_true_eq_false, if_false, naively_preferred]
    rw [naively_preferred_foldl]
  · intro hall
    have hnil : pkg.versions.filter (fun v => !is_test_package v) = [] := by
      rw [List.filter_eq_nil_iff]
      intro v hv
      simp [hall v hv]
    rw [hnil]
    rfl

/-- Witness of C19 on package foo (nothing installed, nothing desired): the
toggle installs 1.0, the highest non-test version; toggling again reverts to
NoChange with desired = installed (none). -/
theorem toggle_action_spec_witness :
    toggle_action (fun _ => true) sample_is_test fooPackage
        = set_action (fun _ => true) fooPackage _actions.Install_action
            (sampleVersion 1 "1.0") true
      ∧ (toggle_action (fun _ => true) sample_is_test
          (toggle_action (fun _ => true) sample_is_test fooPackage))._action
        = _actions.NoChange_action
      ∧ (toggle_action (fun _ => true) sample_is_test
          (toggle_action (fun _ => true) sample_is_test fooPackage)).desired = none := by
  have h := toggle_action_spec (fun _ => true) sample_is_test fooPackage
  have g := toggle_action_spec (fun _ => true) sample_is_test
    (toggle_action (fun _ => true) sample_is_test fooPackage)
  refine ⟨h.2.1 (by decide), (g.1 (by decide)).2.1, ?_⟩
  rw [(g.1 (by decide)).2.2]
  decide

/-- The loop of `list_actions` appends, for each remaining version, the
entries the specification describes for its index. -/
theorem list_actions_loop_eq (is_test_package : packageversion → Bool)
    (task_is_install : Bool) (pkg : packagemeta) (rest : List packageversion) :
    ∀ (j : Nat) (al : ActionList),
      list_actions_loop is_test_package task_is_install pkg j rest al
        = al ++ (rest.enumFrom j).flatMap
            (fun jv => version_actions_spec is_test_package task_is_install pkg jv.1 jv.2) := by
  induction rest with
  | nil => intro j al; simp [list_actions_loop]
  | cons i rest ih =>
    intro j al
    simp only [list_actions_loop, List.enumFrom_cons, List.flatMap_cons]
    rw [ih]
    by_cases hi : i = pkg.installed
    · simp [version_actions_spec, ActionList.add, hi, _actions.toInt]
    · cases ht : is_test_package i <;>
        simp [version_actions_spec, ActionList.add, hi, ht]

/-- C20: `list_actions` returns exactly the sequence the specification
describes: Uninstall (enabled iff installed), Skip (selected iff NoChange and
not installed, enabled iff not installed), then per version in ascending
order either Keep and Reinstall/Retrieve (the installed version) or one entry
labelled with the canonical version, " (Test)" appended for test packages,
id = -index, selected iff action is Install and the version is desired. -/
theorem list_actions_eq_spec (is_test_package : packageversion → Bool)
    (task_is_install : Bool) (pkg : packagemeta) (trust : trusts) :
    list_actions is_test_package task_is_install pkg trust
      = list_actions_spec is_test_package task_is_install pkg := by
  simp only [list_actions, list_actions_spec, list_actions_loop_eq, List.enum]
  cases hinst : pkg.installed <;> simp [ActionList.add, _actions.toInt]

/-- Witness of C20: the sample package (1.0 installed and kept, 1.1 known,
install mode), and package foo (1.0 stable, 1.1 test, nothing installed,
download mode). -/
theorem list_actions_eq_spec_witness :
    list_actions sample_is_test true samplePackage trusts.TRUST_CURR
        = [{ label := "Uninstall", id := 4, selected := false, enabled := true },
           { label := "Skip", id := 1, selected := false, enabled := false },
           { label := "Keep", id := 1, selected := true, enabled := true },
           { label := "Reinstall", id := 3, selected := false, enabled := true },
           { label := "1.1", id := -1, selected := false, enabled := true }]
      ∧ list_actions sample_is_test false fooPackage trusts.TRUST_TEST
        = [{ label := "Uninstall", id := 4, selected := false, enabled := false },
           { label := "Skip", id := 1, selected := true, enabled := true },
           { label := "1.0", id := 0, selected := false, enabled := true },
           { label := "1.1 (Test)", id := -1, selected := false, enabled := true }] := by
  rw [list_actions_eq_spec, list_actions_eq_spec]
  exact ⟨by decide, by decide⟩

/-! Section: Properties of the selection filter -/

/-- Membership in the set after `insert`. -/
theorem mem_string_set_insert (parsed : List String) (x y : String) :
    y ∈ string_set_insert parsed x ↔ y ∈ parsed ∨ y = x := by
  unfold string_set_insert
  by_cases h : x ∈ parsed
  · rw [if_pos h]
    constructor
    · intro hy; exact Or.inl hy
    · rintro (hy | hy)
      · exact hy
      · rw [hy]; exact h
  · rw [if_neg h]
    simp

/-- A string built from characters is empty only for no characters. -/
theorem string_mk_eq_empty (cs : List Char) : "" = String.mk cs ↔ cs = [] := by
  constructor
  · intro h
    have hd := congrArg String.data h
    exact hd.symm
  · intro h
    rw [h]

/-- Two adjacent separators in `c :: l` are either at the front or in `l`. -/
theorem has_double_comma_cons (c : Char) (l : List Char) :
    has_double_comma (c :: l) ↔ (c = ',' ∧ starts_with_comma l) ∨ has_double_comma l := by
  constructor
  · rintro ⟨a, b, h⟩
    cases a with
    | nil =>
      simp only [List.nil_append, List.cons.injEq] at h
      exact Or.inl ⟨h.1, b, h.2⟩
    | cons x a =>
      simp only [List.cons_append, List.cons.injEq] at h
      exact Or.inr ⟨a, b, h.2⟩
  · rintro (⟨hc, b, hb⟩ | ⟨a, b, h⟩)
    · exact ⟨[], b, by rw [hc, hb]; rfl⟩
    · exact ⟨c :: a, b, by rw [h]; rfl⟩

/-- Without a separator there is no empty token. -/
theorem find_comma_none (option : List Char) (h : find_comma option = none) :
    ¬ starts_with_comma option ∧ ¬ has_double_comma option := by
  induction option with
  | nil =>
    constructor
    · rintro ⟨b, hb⟩; simp at hb
    · rintro ⟨a, b, hb⟩; simp at hb
  | cons c cs ih =>
    simp only [find_comma] at h
    by_cases hc : c = ','
    · rw [if_pos hc] at h; simp at h
    · rw [if_neg hc] at h
      have hcs : find_comma cs = none := by
        cases hf : find_comma cs with
        | none => rfl
        | some loc => rw [hf] at h; simp at h
      constructor
      · rintro ⟨b, hb⟩
        simp only [List.cons.injEq] at hb
        exact hc hb.1
      · rw [has_double_comma_cons]
        rintro (⟨h1, _⟩ | h2)
        · exact hc h1
        · exact (ih hcs).2 h2

/-- What the position of the first separator says about `option`: it lies
within the string, the token before it is empty exactly when the string
begins with a separator, and two adjacent separators either start right
there or lie in the rest. -/
theorem find_comma_some (option : List Char) :
    ∀ loc, find_comma option = some loc →
      loc < option.length
        ∧ (option.take loc = [] ↔ starts_with_comma option)
        ∧ (has_double_comma option ↔
            starts_with_comma (option.drop (loc + 1))
              ∨ has_double_comma (option.drop (loc + 1))) := by
  induction option with
  | nil => intro loc h; simp [find_comma] at h
  | cons c cs ih =>
    intro loc h
    simp only [find_comma] at h
    by_cases hc : c = ','
    · rw [if_pos hc] at h
      simp only [Option.some.injEq] at h
      subst h
      refine ⟨by simp, ?_, ?_⟩
      · constructor
        · intro _; exact ⟨cs, by rw [hc]⟩
        · intro _; rfl
      · rw [has_double_comma_cons]
        simp [hc]
    · rw [if_neg hc] at h
      cases hf : find_comma cs with
      | none => rw [hf] at h; simp at h
      | some loc1 =>
        rw [hf] at h
        simp only [Option.map_some', Option.some.injEq] at h
        subst h
        obtain ⟨h1, _, h3⟩ := ih loc1 hf
        refine ⟨by simp; omega, ?_, ?_⟩
        · constructor
          · intro ht; simp at ht
          · rintro ⟨b, hb⟩
            simp only [List.cons.injEq] at hb
            exact absurd hb.1 hc
        · rw [has_double_comma_cons]
          simp only [List.drop_succ_cons]
          rw [← h3]
          constructor
          · rintro (⟨h1, _⟩ | h2)
            · exact absurd h1 hc
            · exact h2
          · intro h2; exact Or.inr h2

/-- With enough fuel the loop of `parseNames` ends with no separator left,
and the empty string is in the set afterwards exactly when it was there
before or the option string begins with a separator or holds two adjacent
ones. -/
theorem parseNames_loop_spec (fuel : Nat) :
    ∀ (parsed : List String) (option : List Char), option.length ≤ fuel →
      find_comma (parseNames_loop fuel parsed option).2 = none
        ∧ ("" ∈ (parseNames_loop fuel parsed option).1 ↔
            "" ∈ parsed ∨ starts_with_comma option ∨ has_double_comma option) := by
  induction fuel with
  | zero =>
    intro parsed option hlen
    have hnil : option = [] := List.length_eq_zero.1 (Nat.le_zero.1 hlen)
    subst hnil
    have h := find_comma_none [] rfl
    simp only [parseNames_loop]
    exact ⟨rfl, by simp [h.1, h.2]⟩
  | succ fuel ih =>
    intro parsed option hlen
    cases hf : find_comma option with
    | none =>
      have h := find_comma_none option hf
      have hl : parseNames_loop (fuel + 1) parsed option = (parsed, option) := by
        simp only [parseNames_loop, hf]
      rw [hl]
      exact ⟨hf, by simp [h.1, h.2]⟩
    | some loc =>
      obtain ⟨h1, h2, h3⟩ := find_comma_some option loc hf
      have hdrop : (option.drop (loc + 1)).length ≤ fuel := by
        rw [List.length_drop]; omega
      obtain ⟨i1, i2⟩ := ih (string_set_insert parsed (String.mk (option.take loc)))
        (option.drop (loc + 1)) hdrop
      simp only [parseNames_loop, hf]
      refine ⟨i1, ?_⟩
      rw [i2, mem_string_set_insert, string_mk_eq_empty, h2, h3]
      tauto

/-- C16 fails as stated: the option ",a" (leading separator) puts the empty
string into the set, and so does "a,,b" (doubled separator). -/
theorem parseNames_empty_token_counterexample :
    (parseNames [] ",a").1 = ["", "a"] ∧ "" ∈ (parseNames [] ",a").1
      ∧ "" ∈ (parseNames [] "a,,b").1 := by
  decide

/-- C16, amended: the loop of `parseNames` ends with no separator left, and
the set parsed from an option string into an empty set contains the empty
string exactly when the option string begins with a comma or holds two
adjacent commas; the empty token after a trailing comma is discarded. -/
theorem parseNames_empty_token (option : String) :
    find_comma (parseNames_loop option.data.length [] option.data).2 = none
      ∧ ("" ∈ (parseNames [] option).1 ↔
          starts_with_comma option.data ∨ has_double_comma option.data) := by
  obtain ⟨h1, h2⟩ := parseNames_loop_spec option.data.length [] option.data (le_refl _)
  refine ⟨h1, ?_⟩
  simp only [List.not_mem_nil, false_or] at h2
  by_cases hlen : (parseNames_loop option.data.length [] option.data).2.length ≠ 0
  · have hne : (parseNames_loop option.data.length [] option.data).2 ≠ [] := by
      intro h; rw [h] at hlen; exact hlen rfl
    have hp : (parseNames [] option).1
        = string_set_insert (parseNames_loop option.data.length [] option.data).1
            (String.mk (parseNames_loop option.data.length [] option.data).2) := by
      unfold parseNames
      simp only [if_pos hlen]
    rw [hp, mem_string_set_insert, string_mk_eq_empty, h2]
    constructor
    · rintro (h | h)
      · exact h
      · exact absurd h hne
    · intro h; exact Or.inl h
  · have hp : (parseNames [] option).1
        = (parseNames_loop option.data.length [] option.data).1 := by
      unfold parseNames
      simp only [if_neg hlen]
    rw [hp, h2]

/-- The category loop of `isManuallyWanted` / `isManuallyDeleted` ends true
exactly when it started true or one of the categories is in the set. -/
theorem category_loop_spec (cached : List String) (categories : List String) :
    ∀ found : Bool,
      categories.foldl
          (fun (found : Bool) (curcat : String) =>
            if curcat ∈ cached then true else found) found = true
        ↔ found = true ∨ ∃ c ∈ categories, c ∈ cached := by
  induction categories with
  | nil => intro found; simp
  | cons c cs ih =>
    intro found
    rw [List.foldl_cons, ih]
    by_cases hc : c ∈ cached
    · simp [hc]
    · simp [hc]

/-- The common body of the two queries, on statics that are untouched or
hold the parsed option vectors: the answer is true exactly when the package
name is in the parsed package set or one of its categories is in the parsed
category set, and the statics hold the parsed sets afterwards. -/
theorem manual_selection_spec (package_options category_options : List String)
    (hasManualSelections : Bool) (cache : SelectionCache) (pkg : packagemeta)
    (hvalid : cache.valid package_options category_options) :
    ((manual_selection package_options category_options hasManualSelections cache pkg).1
          = true
        ↔ pkg.name ∈ parse_options [] package_options
          ∨ ∃ c ∈ pkg.categories, c ∈ parse_options [] category_options)
      ∧ (manual_selection package_options category_options hasManualSelections cache
          pkg).2.2
        = { parsed_yet := true,
            parsed_names := parse_options [] package_options,
            parsed_categories := parse_options [] category_options } := by
  have hcache :
      (if (!cache.parsed_yet) = true then
        ({ parsed_yet := true,
           parsed_names := parse_options cache.parsed_names package_options,
           parsed_categories := parse_options cache.parsed_categories category_options }
          : SelectionCache)
       else cache)
      = { parsed_yet := true,
          parsed_names := parse_options [] package_options,
          parsed_categories := parse_options [] category_options } := by
    rcases hvalid with h | ⟨h1, h2, h3⟩
    · rw [h]; rfl
    · rw [h1]
      simp only [Bool.not_true, Bool.false_eq_true, if_false]
      cases cache
      simp only at h1 h2 h3
      simp [h1, h2, h3]
  unfold manual_selection
  simp only [hcache]
  refine ⟨?_, trivial⟩
  by_cases hname : pkg.name ∈ parse_options [] package_options
  · simp [hname]
  · by_cases hsize : (parse_options [] category_options).length ≠ 0
    · simp only [hname, decide_False, Bool.not_false, false_or]
      rw [if_pos (by simp [hsize]), category_loop_spec]
      simp
    · have hnil : parse_options [] category_options = [] := by
        apply List.length_eq_zero.1
        omega
      simp [hname, hnil]

/-- C17: on statics that are untouched or already hold the parsed options
(every state the program reaches), `isManuallyWanted` is true exactly when the
package name is in the set parsed from the packages-to-install options or one
of the package's categories is in the set parsed from the
categories-to-install options; `isManuallyDeleted` likewise for the
packages-to-remove and categories-to-remove options. -/
theorem isManually_spec (options : SelectionOptions) (hasManualSelections : Bool)
    (wanted_cache deleted_cache : SelectionCache) (pkg : packagemeta)
    (hwanted : wanted_cache.valid options.PackageOption options.CategoryOption)
    (hdeleted :
      deleted_cache.valid options.DeletePackageOption options.DeleteCategoryOption) :
    ((isManuallyWanted options hasManualSelections wanted_cache pkg).1 = true
        ↔ pkg.name ∈ parse_options [] options.PackageOption
          ∨ ∃ c ∈ pkg.categories, c ∈ parse_options [] options.CategoryOption)
      ∧ (isManuallyWanted options hasManualSelections wanted_cache pkg).2.2.valid
          options.PackageOption options.CategoryOption
      ∧ ((isManuallyDeleted options hasManualSelections deleted_cache pkg).1 = true
        ↔ pkg.name ∈ parse_options [] options.DeletePackageOption
          ∨ ∃ c ∈ pkg.categories, c ∈ parse_options [] options.DeleteCategoryOption)
      ∧ (isManuallyDeleted options hasManualSelections deleted_cache pkg).2.2.valid
          options.DeletePackageOption options.DeleteCategoryOption := by
  obtain ⟨w1, w2⟩ := manual_selection_spec options.PackageOption options.CategoryOption
    hasManualSelections wanted_cache pkg hwanted
  obtain ⟨d1, d2⟩ := manual_selection_spec options.DeletePackageOption
    options.DeleteCategoryOption hasManualSelections deleted_cache pkg hdeleted
  refine ⟨w1, ?_, d1, ?_⟩
  · unfold isManuallyWanted
    rw [w2]
    exact Or.inr ⟨rfl, rfl, rfl⟩
  · unfold isManuallyDeleted
    rw [d2]
    exact Or.inr ⟨rfl, rfl, rfl⟩

/-- Witness of C17 with the sample command line, before the first call: the
package vim of category Editors is wanted by name, and a package of category
Games is deleted by category. -/
theorem isManually_spec_witness :
    ((isManuallyWanted sampleOptions false SelectionCache.initial
          { packagemeta.mk_named "vim" with categories := ["Editors"] }).1 = true
        ↔ "vim" ∈ parse_options [] sampleOptions.PackageOption
          ∨ ∃ c ∈ ["Editors"], c ∈ parse_options [] sampleOptions.CategoryOption)
      ∧ (isManuallyWanted sampleOptions false SelectionCache.initial
          { packagemeta.mk_named "vim" with categories := ["Editors"] }).1 = true
      ∧ (isManuallyDeleted sampleOptions false SelectionCache.initial
          { packagemeta.mk_named "nethack" with categories := ["Games"] }).1 = true
      ∧ (isManuallyDeleted sampleOptions false SelectionCache.initial
          { packagemeta.mk_named "vim" with categories := ["Editors"] }).1 = false :=
  ⟨(isManually_spec sampleOptions false SelectionCache.initial SelectionCache.initial
      { packagemeta.mk_named "vim" with categories := ["Editors"] }
      (Or.inl rfl) (Or.inl rfl)).1,
    by decide, by decide, by decide⟩

/-! Section: Properties of the availability scanner -/

/-- A completed version loop keeps installed, and keeps exactly the versions
of the range that scan reports as binary- or source-accessible or that equal
the installed version, in their order. -/
theorem scan_versions_spec
    (check : packageversion → Bool → Except Exception Bool) (localdir : Bool)
    (sourcePackage : packageversion → packageversion) (mirror_mode : Bool)
    (vs : List packageversion) :
    ∀ (pkg : packagemeta) (pool : SolverPool)
      (r : packagemeta × SolverPool × List packageversion),
      scan_versions check localdir sourcePackage mirror_mode pkg pool vs = Except.ok r →
      r.1.installed = pkg.installed
        ∧ r.2.2.Sublist vs
        ∧ ∀ v, v ∈ r.2.2 ↔
            v ∈ vs ∧ (scan check localdir v mirror_mode = Except.ok true
              ∨ scan check localdir (sourcePackage v) mirror_mode = Except.ok true
              ∨ v = pkg.installed) := by
  induction vs with
  | nil =>
    intro pkg pool r h
    simp only [scan_versions, Except.ok.injEq] at h
    subst h
    simp
  | cons i rest ih =>
    intro pkg pool r h
    simp only [scan_versions] at h
    cases hacc : scan check localdir i
        (mirror_mode && (decide (i ≠ pkg.installed) || decide (pkg.installed = pkg.curr)
          || decide (pkg.installed = pkg.exp))) with
    | error e => rw [hacc] at h; simp at h
    | ok accessible =>
      rw [hacc] at h
      simp only at h
      cases hsrc : scan check localdir (sourcePackage i)
          (mirror_mode && (decide (i ≠ pkg.installed) || decide (pkg.installed = pkg.curr)
            || decide (pkg.installed = pkg.exp))) with
      | error e => rw [hsrc] at h; simp at h
      | ok src_accessible =>
        rw [hsrc] at h
        simp only at h
        by_cases hprune :
            (!accessible && !src_accessible && decide (i ≠ pkg.installed)) = true
        · -- the version is pruned
          rw [if_pos hprune] at h
          simp only [Bool.and_eq_true, Bool.not_eq_true', decide_eq_true_eq] at hprune
          obtain ⟨⟨ha, hs⟩, hne⟩ := hprune
          have hlazy : (mirror_mode && (decide (i ≠ pkg.installed)
              || decide (pkg.installed = pkg.curr) || decide (pkg.installed = pkg.exp)))
              = mirror_mode := by simp [hne]
          rw [hlazy, ha] at hacc
          rw [hlazy, hs] at hsrc
          obtain ⟨h1, h2, h3⟩ := ih _ _ r h
          have hinst : r.1.installed = pkg.installed := by
            rw [h1]
            split_ifs <;> rfl
          refine ⟨hinst, List.Sublist.cons i h2, ?_⟩
          intro v
          rw [h3]
          have hinst' : (if (if pkg.curr = i then { pkg with curr := none } else pkg).exp = i
              then { (if pkg.curr = i then { pkg with curr := none } else pkg) with
                      exp := none }
              else (if pkg.curr = i then { pkg with curr := none } else pkg)).installed
              = pkg.installed := by
            split_ifs <;> rfl
          rw [hinst']
          constructor
          · rintro ⟨hv, hc⟩
            exact ⟨List.mem_cons_of_mem i hv, hc⟩
          · rintro ⟨hv, hc⟩
            rcases List.mem_cons.1 hv with hv | hv
            · subst hv
              rcases hc with hc | hc | hc
              · rw [hacc] at hc; simp at hc
              · rw [hsrc] at hc; simp at hc
              · exact absurd hc hne
            · exact ⟨hv, hc⟩
        · -- the version is retained
          rw [if_neg hprune] at h
          cases hrest : scan_versions check localdir sourcePackage mirror_mode pkg pool rest with
          | error e => rw [hrest] at h; simp at h
          | ok r1 =>
            rw [hrest] at h
            simp only [Except.ok.injEq] at h
            subst h
            obtain ⟨h1, h2, h3⟩ := ih _ _ r1 hrest
            refine ⟨h1, List.Sublist.cons₂ i h2, ?_⟩
            intro v
            simp only [List.mem_cons, h3]
            constructor
            · rintro (hv | ⟨hv, hc⟩)
              · refine ⟨Or.inl hv, ?_⟩
                subst hv
                by_cases hne : v = pkg.installed
                · exact Or.inr (Or.inr hne)
                · have hlazy : (mirror_mode && (decide (v ≠ pkg.installed)
                      || decide (pkg.installed = pkg.curr)
                      || decide (pkg.installed = pkg.exp))) = mirror_mode := by simp [hne]
                  rw [hlazy] at hacc hsrc
                  cases accessible
                  · cases src_accessible
                    · simp [hne] at hprune
                    · exact Or.inr (Or.inl hsrc)
                  · exact Or.inl hacc
              · exact ⟨Or.inr hv, hc⟩
            · rintro ⟨hv | hv, hc⟩
              · exact Or.inl hv
              · exact Or.inr ⟨hv, hc⟩

/-- C14: after a `ScanDownloadedFiles` pass that completes without error,
every package is still there with the same installed version, and a version
v of its versions before the pass is in versions afterwards if and only if
scan reports its binary as accessible, or scan reports its source package as
accessible, or v equals the installed version; so the installed version is
never pruned, and versions afterwards is a sublist of versions before (no
version is added). -/
theorem ScanDownloadedFiles_prunes
    (check : packageversion → Bool → Except Exception Bool) (localdir : Bool)
    (sourcePackage : packageversion → packageversion) (mirror_mode : Bool)
    (packages : List packagemeta) (pool : SolverPool)
    (result : List packagemeta × SolverPool)
    (hok : ScanDownloadedFiles check localdir sourcePackage mirror_mode packages pool
      = Except.ok result) :
    result.1.length = packages.length
      ∧ ∀ (k : Nat) (pkg after : packagemeta),
          packages[k]? = some pkg → result.1[k]? = some after →
          after.installed = pkg.installed
            ∧ (∀ v, v ∈ after.versions ↔
                v ∈ pkg.versions
                  ∧ (scan check localdir v mirror_mode = Except.ok true
                    ∨ scan check localdir (sourcePackage v) mirror_mode = Except.ok true
                    ∨ v = pkg.installed))
            ∧ (pkg.installed ∈ pkg.versions → pkg.installed ∈ after.versions)
            ∧ after.versions.Sublist pkg.versions := by
  induction packages generalizing pool result with
  | nil =>
    simp only [ScanDownloadedFiles, Except.ok.injEq] at hok
    subst hok
    simp
  | cons p rest ih =>
    simp only [ScanDownloadedFiles] at hok
    cases hv : scan_versions check localdir sourcePackage mirror_mode p pool p.versions with
    | error e => rw [hv] at hok; simp at hok
    | ok r =>
      rw [hv] at hok
      simp only at hok
      cases hrest : ScanDownloadedFiles check localdir sourcePackage mirror_mode rest r.2.1 with
      | error e => rw [hrest] at hok; simp at hok
      | ok rs =>
        rw [hrest] at hok
        simp only [Except.ok.injEq] at hok
        subst hok
        obtain ⟨i1, i2⟩ := ih r.2.1 rs hrest
        obtain ⟨s1, s2, s3⟩ := scan_versions_spec check localdir sourcePackage mirror_mode
          p.versions p pool r hv
        refine ⟨by simp [i1], ?_⟩
        intro k pkg after hk hafter
        cases k with
        | zero =>
          simp only [List.getElem?_cons_zero, Option.some.injEq] at hk hafter
          subst hk
          subst hafter
          exact ⟨s1, s3, fun hmem => (s3 _).2 ⟨hmem, Or.inr (Or.inr rfl)⟩, s2⟩
        | succ k =>
          simp only [List.getElem?_cons_succ] at hk hafter
          exact i2 k pkg after hk hafter

/-- Witness of C14: the sample package (1.0 cached, 1.1 installed and not
cached, 1.2 corrupt) scanned against the sample cache in local-directory
mode keeps 1.0 and the installed 1.1 and drops 1.2. -/
theorem ScanDownloadedFiles_prunes_witness :
    ScanDownloadedFiles sample_check true (fun _ => none) false [scanPackage] emptyPool
        = Except.ok
            ([{ scanPackage with
                versions := [sampleVersion 1 "1.0", sampleVersion 2 "1.1"],
                curr := none }],
             { next_id := 1, removed := [sampleVersion 3 "1.2"] })
      ∧ ∀ v, v ∈ [sampleVersion 1 "1.0", sampleVersion 2 "1.1"] ↔
          v ∈ scanPackage.versions
            ∧ (scan sample_check true v false = Except.ok true
              ∨ scan sample_check true ((fun _ => none) v) false = Except.ok true
              ∨ v = scanPackage.installed) :=
  ⟨rfl,
   ((ScanDownloadedFiles_prunes sample_check true (fun _ => none) false [scanPackage]
      emptyPool _ rfl).2 0 scanPackage _ rfl rfl).2.1⟩

/-- An exception leaves `scan` only as a cache failure other than the
corrupt-package error, unchanged. -/
theorem scan_error_provenance
    (check : packageversion → Bool → Except Exception Bool) (localdir : Bool)
    (v : packageversion) (mode : Bool) (e : Exception)
    (h : scan check localdir v mode = Except.error e) :
    e.errNo ≠ APPERR_CORRUPT_PACKAGE ∧ check v mode = Except.error e := by
  unfold scan at h
  by_cases hv : (!v.isSome) = true
  · rw [if_pos hv] at h; simp at h
  · rw [if_neg hv] at h
    cases hc : check v mode with
    | ok cached =>
      rw [hc] at h
      simp only at h
      split_ifs at h
    | error e1 =>
      rw [hc] at h
      simp only at h
      by_cases he : e1.errNo = APPERR_CORRUPT_PACKAGE
      · rw [if_pos he] at h; simp at h
      · rw [if_neg he] at h
        simp only [Except.error.injEq] at h
        subst h
        exact ⟨he, rfl⟩

/-- What `scan` does with a failing cache check of a non-empty version. -/
theorem scan_of_check_error
    (check : packageversion → Bool → Except Exception Bool) (localdir : Bool)
    (v : packageversion) (mode : Bool) (e : Exception)
    (hv : v.isSome = true) (hc : check v mode = Except.error e) :
    scan check localdir v mode
      = if e.errNo = APPERR_CORRUPT_PACKAGE then Except.ok false else Except.error e := by
  unfold scan
  simp [hv, hc]

/-- An exception leaves the version loop only as a cache failure other than
the corrupt-package error. -/
theorem scan_versions_error_provenance
    (check : packageversion → Bool → Except Exception Bool) (localdir : Bool)
    (sourcePackage : packageversion → packageversion) (mirror_mode : Bool)
    (vs : List packageversion) :
    ∀ (pkg : packagemeta) (pool : SolverPool) (e : Exception),
      scan_versions check localdir sourcePackage mirror_mode pkg pool vs = Except.error e →
      e.errNo ≠ APPERR_CORRUPT_PACKAGE ∧ ∃ w m, check w m = Except.error e := by
  induction vs with
  | nil => intro pkg pool e h; simp [scan_versions] at h
  | cons i rest ih =>
    intro pkg pool e h
    simp only [scan_versions] at h
    cases hacc : scan check localdir i
        (mirror_mode && (decide (i ≠ pkg.installed) || decide (pkg.installed = pkg.curr)
          || decide (pkg.installed = pkg.exp))) with
    | error e1 =>
      rw [hacc] at h
      simp only [Except.error.injEq] at h
      subst h
      obtain ⟨h1, h2⟩ := scan_error_provenance check localdir _ _ _ hacc
      exact ⟨h1, _, _, h2⟩
    | ok accessible =>
      rw [hacc] at h
      simp only at h
      cases hsrc : scan check localdir (sourcePackage i)
          (mirror_mode && (decide (i ≠ pkg.installed) || decide (pkg.installed = pkg.curr)
            || decide (pkg.installed = pkg.exp))) with
      | error e1 =>
        rw [hsrc] at h
        simp only [Except.error.injEq] at h
        subst h
        obtain ⟨h1, h2⟩ := scan_error_provenance check localdir _ _ _ hsrc
        exact ⟨h1, _, _, h2⟩
      | ok src_accessible =>
        rw [hsrc] at h
        simp only at h
        by_cases hprune :
            (!accessible && !src_accessible && decide (i ≠ pkg.installed)) = true
        · rw [if_pos hprune] at h
          exact ih _ _ e h
        · rw [if_neg hprune] at h
          cases hrest : scan_versions check localdir sourcePackage mirror_mode pkg pool rest with
          | error e1 =>
            rw [hrest] at h
            simp only [Except.error.injEq] at h
            subst h
            exact ih _ _ _ hrest
          | ok r1 => rw [hrest] at h; simp at h

/-- A version of the range whose cache check always fails with an error
other than the corrupt-package error makes the version loop end with an
exception. -/
theorem scan_versions_aborts
    (check : packageversion → Bool → Except Exception Bool) (localdir : Bool)
    (sourcePackage : packageversion → packageversion) (mirror_mode : Bool)
    (v : packageversion) (hv : v.isSome = true)
    (hfail : ∀ m, ∃ e, check v m = Except.error e ∧ e.errNo ≠ APPERR_CORRUPT_PACKAGE)
    (vs : List packageversion) :
    ∀ (pkg : packagemeta) (pool : SolverPool), v ∈ vs →
      ∃ e, scan_versions check localdir sourcePackage mirror_mode pkg pool vs
        = Except.error e := by
  induction vs with
  | nil => intro pkg pool hmem; simp at hmem
  | cons i rest ih =>
    intro pkg pool hmem
    simp only [scan_versions]
    cases hacc : scan check localdir i
        (mirror_mode && (decide (i ≠ pkg.installed) || decide (pkg.installed = pkg.curr)
          || decide (pkg.installed = pkg.exp))) with
    | error e1 => exact ⟨e1, rfl⟩
    | ok accessible =>
      have hrest : v ∈ rest := by
        rcases List.mem_cons.1 hmem with h | h
        · subst h
          obtain ⟨e, he, hne⟩ := hfail
            (mirror_mode && (decide (v ≠ pkg.installed) || decide (pkg.installed = pkg.curr)
              || decide (pkg.installed = pkg.exp)))
          rw [scan_of_check_error check localdir v _ e hv he, if_neg hne] at hacc
          simp at hacc
        · exact h
      simp only
      cases hsrc : scan check localdir (sourcePackage i)
          (mirror_mode && (decide (i ≠ pkg.installed) || decide (pkg.installed = pkg.curr)
            || decide (pkg.installed = pkg.exp))) with
      | error e1 => exact ⟨e1, rfl⟩
      | ok src_accessible =>
        simp only
        by_cases hprune :
            (!accessible && !src_accessible && decide (i ≠ pkg.installed)) = true
        · rw [if_pos hprune]
          exact ih _ _ hrest
        · rw [if_neg hprune]
          obtain ⟨e, he⟩ := ih pkg pool hrest
          rw [he]
          exact ⟨e, rfl⟩

/-- When every failure of the cache check is the corrupt-package error, the
version loop completes. -/
theorem scan_versions_completes
    (check : packageversion → Bool → Except Exception Bool) (localdir : Bool)
    (sourcePackage : packageversion → packageversion) (mirror_mode : Bool)
    (hcorrupt : ∀ v m e, check v m = Except.error e → e.errNo = APPERR_CORRUPT_PACKAGE)
    (vs : List packageversion) :
    ∀ (pkg : packagemeta) (pool : SolverPool),
      ∃ r, scan_versions check localdir sourcePackage mirror_mode pkg pool vs
        = Except.ok r := by
  induction vs with
  | nil => intro pkg pool; exact ⟨_, rfl⟩
  | cons i rest ih =>
    intro pkg pool
    by_contra hno
    have herr : ∃ e, scan_versions check localdir sourcePackage mirror_mode pkg pool
        (i :: rest) = Except.error e := by
      cases h : scan_versions check localdir sourcePackage mirror_mode pkg pool (i :: rest) with
      | error e => exact ⟨e, rfl⟩
      | ok r => exact absurd ⟨r, h⟩ hno
    obtain ⟨e, he⟩ := herr
    obtain ⟨h1, w, m, h2⟩ := scan_versions_error_provenance check localdir sourcePackage
      mirror_mode (i :: rest) pkg pool e he
    exact h1 (hcorrupt w m e h2)

/-- An exception leaves `ScanDownloadedFiles` only as a cache failure other
than the corrupt-package error. -/
theorem ScanDownloadedFiles_error_provenance
    (check : packageversion → Bool → Except Exception Bool) (localdir : Bool)
    (sourcePackage : packageversion → packageversion) (mirror_mode : Bool)
    (packages : List packagemeta) :
    ∀ (pool : SolverPool) (e : Exception),
      ScanDownloadedFiles check localdir sourcePackage mirror_mode packages pool
        = Except.error e →
      e.errNo ≠ APPERR_CORRUPT_PACKAGE ∧ ∃ w m, check w m = Except.error e := by
  induction packages with
  | nil => intro pool e h; simp [ScanDownloadedFiles] at h
  | cons p rest ih =>
    intro pool e h
    simp only [ScanDownloadedFiles] at h
    cases hv : scan_versions check localdir sourcePackage mirror_mode p pool p.versions with
    | error e1 =>
      rw [hv] at h
      simp only [Except.error.injEq] at h
      subst h
      exact scan_versions_error_provenance check localdir sourcePackage mirror_mode
        p.versions p pool _ hv
    | ok r =>
      rw [hv] at h
      simp only at h
      cases hrest : ScanDownloadedFiles check localdir sourcePackage mirror_mode rest r.2.1 with
      | error e1 =>
        rw [hrest] at h
        simp only [Except.error.injEq] at h
        subst h
        exact ih _ _ hrest
      | ok rs => rw [hrest] at h; simp at h

/-- C15: for a non-empty version whose cache check fails with the
corrupt-package error `scan` returns false, and a pass in which every cache
failure is of that kind completes; when the cache check fails with another
error `scan` fails with that same error, the version loop that scans the
version and the pass over its package fail with it, and a pass over a
database holding a version whose check fails that way ends with such an
error; for the empty version `scan` returns false whatever the cache would
answer. -/
theorem scan_error_handling :
    (∀ (check : packageversion → Bool → Except Exception Bool) (localdir : Bool)
        (v : packageversion) (mode : Bool) (e : Exception),
        v.isSome = true → check v mode = Except.error e →
        e.errNo = APPERR_CORRUPT_PACKAGE →
        scan check localdir v mode = Except.ok false)
      ∧ (∀ (check : packageversion → Bool → Except Exception Bool) (localdir : Bool)
          (sourcePackage : packageversion → packageversion) (mirror_mode : Bool),
          (∀ v m e, check v m = Except.error e → e.errNo = APPERR_CORRUPT_PACKAGE) →
          ∀ (packages : List packagemeta) (pool : SolverPool),
            ∃ r, ScanDownloadedFiles check localdir sourcePackage mirror_mode packages pool
              = Except.ok r)
      ∧ (∀ (check : packageversion → Bool → Except Exception Bool) (localdir : Bool)
          (v : packageversion) (mode : Bool) (e : Exception),
          v.isSome = true → check v mode = Except.error e →
          e.errNo ≠ APPERR_CORRUPT_PACKAGE →
          scan check localdir v mode = Except.error e)
      ∧ (∀ (check : packageversion → Bool → Except Exception Bool) (localdir : Bool)
          (sourcePackage : packageversion → packageversion) (mirror_mode : Bool)
          (pkg : packagemeta) (pool : SolverPool) (i : packageversion)
          (rest : List packageversion) (e : Exception),
          scan check localdir i
              (mirror_mode && (decide (i ≠ pkg.installed)
                || decide (pkg.installed = pkg.curr) || decide (pkg.installed = pkg.exp)))
            = Except.error e →
          scan_versions check localdir sourcePackage mirror_mode pkg pool (i :: rest)
            = Except.error e)
      ∧ (∀ (check : packageversion → Bool → Except Exception Bool) (localdir : Bool)
          (sourcePackage : packageversion → packageversion) (mirror_mode : Bool)
          (pkg : packagemeta) (others : List packagemeta) (pool : SolverPool)
          (e : Exception),
          scan_versions check localdir sourcePackage mirror_mode pkg pool pkg.versions
            = Except.error e →
          ScanDownloadedFiles check localdir sourcePackage mirror_mode (pkg :: others) pool
            = Except.error e)
      ∧ (∀ (check : packageversion → Bool → Except Exception Bool) (localdir : Bool)
          (sourcePackage : packageversion → packageversion) (mirror_mode : Bool)
          (packages : List packagemeta) (pool : SolverPool) (pkg : packagemeta)
          (v : packageversion),
          pkg ∈ packages → v ∈ pkg.versions → v.isSome = true →
          (∀ m, ∃ e, check v m = Except.error e ∧ e.errNo ≠ APPERR_CORRUPT_PACKAGE) →
          ∃ e, ScanDownloadedFiles check localdir sourcePackage mirror_mode packages pool
                = Except.error e
              ∧ e.errNo ≠ APPERR_CORRUPT_PACKAGE ∧ ∃ w m, check w m = Except.error e)
      ∧ (∀ (check : packageversion → Bool → Except Exception Bool) (localdir : Bool)
          (mode : Bool), scan check localdir none mode = Except.ok false) := by
  refine ⟨?_, ?_, ?_, ?_, ?_, ?_, ?_⟩
  · intro check localdir v mode e hv hc he
    rw [scan_of_check_error check localdir v mode e hv hc, if_pos he]
  · intro check localdir sourcePackage mirror_mode hcorrupt packages pool
    cases h : ScanDownloadedFiles check localdir sourcePackage mirror_mode packages pool with
    | ok r => exact ⟨r, rfl⟩
    | error e =>
      obtain ⟨h1, w, m, h2⟩ := ScanDownloadedFiles_error_provenance check localdir
        sourcePackage mirror_mode packages pool e h
      exact absurd (hcorrupt w m e h2) h1
  · intro check localdir v mode e hv hc he
    rw [scan_of_check_error check localdir v mode e hv hc, if_neg he]
  · intro check localdir sourcePackage mirror_mode pkg pool i rest e h
    simp only [scan_versions, h]
  · intro check localdir sourcePackage mirror_mode pkg others pool e h
    simp only [ScanDownloadedFiles, h]
  · intro check localdir sourcePackage mirror_mode packages
    induction packages with
    | nil => intro pool pkg v hmem; simp at hmem
    | cons p rest ih =>
      intro pool pkg v hmem hv hsome hfail
      have hex : ∃ e, ScanDownloadedFiles check localdir sourcePackage mirror_mode
          (p :: rest) pool = Except.error e := by
        simp only [ScanDownloadedFiles]
        cases hp : scan_versions check localdir sourcePackage mirror_mode p pool p.versions with
        | error e1 => exact ⟨e1, rfl⟩
        | ok r =>
          have hrest : pkg ∈ rest := by
            rcases List.mem_cons.1 hmem with h | h
            · subst h
              obtain ⟨e, he⟩ := scan_versions_aborts check localdir sourcePackage mirror_mode
                v hsome hfail pkg.versions pkg pool hv
              rw [he] at hp
              simp at hp
            · exact h
          obtain ⟨e, he, _⟩ := ih r.2.1 pkg v hrest hv hsome hfail
          simp only [he]
          exact ⟨e, rfl⟩
      obtain ⟨e, he⟩ := hex
      exact ⟨e, he, ScanDownloadedFiles_error_provenance check localdir sourcePackage
        mirror_mode (p :: rest) pool e he⟩
  · intro check localdir mode
    rfl

/-- Witness of C15 with the sample cache: the corrupt 1.2 is reported as not
accessible and the pass over the sample package completes; with a version 1.3
whose check fails with error 2 the pass aborts with that error. -/
theorem scan_error_handling_witness :
    scan sample_check true (sampleVersion 3 "1.2") false = Except.ok false
      ∧ (∃ r, ScanDownloadedFiles sample_check true (fun _ => none) false [scanPackage]
          emptyPool = Except.ok r)
      ∧ scan sample_check true (sampleVersion 4 "1.3") false = Except.error { errNo := 2 }
      ∧ ScanDownloadedFiles sample_check true (fun _ => none) false
          [{ scanPackage with versions := scanPackage.versions ++ [sampleVersion 4 "1.3"] }]
          emptyPool = Except.error { errNo := 2 } :=
  ⟨scan_error_handling.1 sample_check true (sampleVersion 3 "1.2") false
      { errNo := APPERR_CORRUPT_PACKAGE } rfl rfl rfl,
    ⟨_, rfl⟩,
    scan_error_handling.2.2.1 sample_check true (sampleVersion 4 "1.3") false
      { errNo := 2 } rfl rfl (by decide),
    rfl⟩

/-! Section: Properties of the version set merge -/

/-- Writing a trust slot leaves the version set alone. -/
theorem slot_set_versions (pkg : packagemeta) (stability : trusts) (x : packageversion) :
    (slot_set pkg stability x).versions = pkg.versions := by
  cases stability <;> rfl

/-- The created version, the version set and the registry after `add_version`
in terms of the outcome of its loop. -/
theorem add_version_parts (cmp : packageversion → packageversion → Int)
    (pool : SolverPool) (pkg : packagemeta) (d : addPackageData) :
    (add_version cmp pool pkg d).1
        = ((add_version_loop d pkg pool pkg.versions).2.2.1.addPackage
            (add_version_loop d pkg pool pkg.versions).2.1.name
            (add_version_loop d pkg pool pkg.versions).1).1
      ∧ (add_version cmp pool pkg d).2.1.versions
        = (set_insert cmp (add_version cmp pool pkg d).1
            (add_version_loop d pkg pool pkg.versions).2.2.2).1
      ∧ (add_version cmp pool pkg d).2.2
        = ((add_version_loop d pkg pool pkg.versions).2.2.1.addPackage
            (add_version_loop d pkg pool pkg.versions).2.1.name
            (add_version_loop d pkg pool pkg.versions).1).2 := by
  refine ⟨rfl, ?_, rfl⟩
  simp only [add_version]
  split_ifs <;> simp [slot_set_versions]

/-- The loop of `add_version` skips a leading range without an entry of the
requested canonical version. -/
theorem add_version_loop_skip (d : addPackageData) (pkg : packagemeta)
    (pool : SolverPool) (l1 l : List packageversion)
    (h : ∀ v ∈ l1, Canonical_version v ≠ d.version) :
    add_version_loop d pkg pool (l1 ++ l)
      = ((add_version_loop d pkg pool l).1, (add_version_loop d pkg pool l).2.1,
          (add_version_loop d pkg pool l).2.2.1,
          l1 ++ (add_version_loop d pkg pool l).2.2.2) := by
  induction l1 with
  | nil => rfl
  | cons i rest ih =>
    have hi : Canonical_version i ≠ d.version := h i (List.mem_cons_self i rest)
    have hrest : ∀ v ∈ rest, Canonical_version v ≠ d.version :=
      fun v hv => h v (List.mem_cons_of_mem i hv)
    have hstep : add_version_loop d pkg pool (i :: (rest ++ l))
        = ((add_version_loop d pkg pool (rest ++ l)).1,
            (add_version_loop d pkg pool (rest ++ l)).2.1,
            (add_version_loop d pkg pool (rest ++ l)).2.2.1,
            i :: (add_version_loop d pkg pool (rest ++ l)).2.2.2) := by
      simp only [add_version_loop, ne_eq, hi, not_false_eq_true, if_true]
    rw [List.cons_append, hstep, ih hrest]
    rfl

/-- Without an entry of the requested canonical version the loop of
`add_version` changes nothing. -/
theorem add_version_loop_none (d : addPackageData) (pkg : packagemeta)
    (pool : SolverPool) (l : List packageversion)
    (h : ∀ v ∈ l, Canonical_version v ≠ d.version) :
    add_version_loop d pkg pool l = (d, pkg, pool, l) := by
  have := add_version_loop_skip d pkg pool l [] h
  simpa [add_version_loop] using this

/-- The loop of `add_version` at the first entry of the requested canonical
version: the request, the registry and the remaining range afterwards. -/
theorem add_version_loop_hit (d : addPackageData) (pkg : packagemeta)
    (pool : SolverPool) (i : packageversion) (l2 : List packageversion)
    (hi : Canonical_version i = d.version) :
    (add_version_loop d pkg pool (i :: l2)).1
        = { d with archive_sites :=
              if d.vendor = Vendor i then d.archive_sites ++ source_sites i
              else d.archive_sites }
      ∧ (add_version_loop d pkg pool (i :: l2)).2.1.name = pkg.name
      ∧ (add_version_loop d pkg pool (i :: l2)).2.2.1
        = (if d.vendor = Vendor i ∧ d.reponame ≠ "_installed" then pool.remove i else pool)
      ∧ (add_version_loop d pkg pool (i :: l2)).2.2.2 = l2
      ∧ (d.vendor ≠ Vendor i ∨ d.reponame = "_installed" →
          (add_version_loop d pkg pool (i :: l2)).2.1 = pkg) := by
  by_cases hv : d.vendor = Vendor i
  · by_cases hr : d.reponame = "_installed"
    · simp [add_version_loop, hi, hv, hr]
    · have hname : ∀ x, (slot_set pkg d.stability x).name = pkg.name := by
        intro x; cases d.stability <;> rfl
      by_cases hs : has_slot d.stability = true ∧ slot_get pkg d.stability = i
      · simp [add_version_loop, hi, hv, hr, hs, hname]
      · simp [add_version_loop, hi, hv, hr, hs]
  · simp [add_version_loop, hi, hv]

/-- Inserting into a set without a tie puts the element at some position and
keeps the others in place. -/
theorem set_insert_of_no_tie (cmp : packageversion → packageversion → Int)
    (x : packageversion) (l : List packageversion)
    (h : ∀ y ∈ l, cmp x y < 0 ∨ cmp y x < 0) :
    ∃ l1 l2, l = l1 ++ l2 ∧ (set_insert cmp x l).1 = l1 ++ x :: l2 := by
  induction l with
  | nil => exact ⟨[], [], rfl, rfl⟩
  | cons y ys ih =>
    by_cases h1 : cmp x y < 0
    · exact ⟨[], y :: ys, rfl, by simp [set_insert, h1]⟩
    · have h2 : cmp y x < 0 := by
        rcases h y (List.mem_cons_self y ys) with h | h
        · exact absurd h h1
        · exact h
      obtain ⟨l1, l2, e1, e2⟩ := ih (fun z hz => h z (List.mem_cons_of_mem y hz))
      refine ⟨y :: l1, l2, by rw [e1]; rfl, ?_⟩
      simp [set_insert, h1, h2, e2]

/-- When the canonical version string is the key of the ordering, a version
whose canonical version no member carries ties with no member. -/
theorem no_tie_of_canonical (cmp : packageversion → packageversion → Int)
    (hord : IsTotalOrder cmp) (hkey : CanonicalKey cmp)
    (x : packageversion) (l : List packageversion)
    (h : ∀ y ∈ l, Canonical_version y ≠ Canonical_version x) :
    ∀ y ∈ l, cmp x y < 0 ∨ cmp y x < 0 := by
  intro y hy
  by_contra hno
  have h1 : ¬ cmp x y < 0 := fun hlt => hno (Or.inl hlt)
  have h2 : ¬ cmp y x < 0 := fun hlt => hno (Or.inr hlt)
  have h3 : ¬ 0 < cmp x y := fun hpos => h2 ((hord.antisymm y x).2 hpos)
  have hz : cmp x y = 0 := by omega
  exact h y hy (hkey x y hz).symm

/-- A list splits at its first element satisfying a test, if there is one. -/
theorem split_at_first (p : packageversion → Bool) (l : List packageversion) :
    (∀ v ∈ l, p v = false)
      ∨ ∃ l1 i l2, l = l1 ++ i :: l2 ∧ (∀ v ∈ l1, p v = false) ∧ p i = true := by
  induction l with
  | nil => left; simp
  | cons x xs ih =>
    cases hx : p x
    · rcases ih with h | ⟨l1, i, l2, e, h1, h2⟩
      · left
        intro v hv
        rcases List.mem_cons.1 hv with hv | hv
        · rw [hv]; exact hx
        · exact h v hv
      · right
        refine ⟨x :: l1, i, l2, by rw [e]; rfl, ?_, h2⟩
        intro v hv
        rcases List.mem_cons.1 hv with hv | hv
        · rw [hv]; exact hx
        · exact h1 v hv
    · right
      exact ⟨[], x, xs, rfl, by simp, hx⟩

/-- In a set that is unique by canonical version, the entries around one
entry carry other canonical versions. -/
theorem unique_canonical_split (l1 l2 : List packageversion) (i : packageversion)
    (h : UniqueCanonical (l1 ++ i :: l2)) :
    ∀ v ∈ l1 ++ l2, Canonical_version v ≠ Canonical_version i := by
  unfold UniqueCanonical at h
  rw [List.map_append, List.map_cons] at h
  have hnd := List.nodup_middle.1 h
  rw [List.nodup_cons] at hnd
  intro v hv hcv
  apply hnd.1
  rw [← List.map_append, ← hcv]
  exact List.mem_map_of_mem Canonical_version hv

/-- The value of `find?` on a list split at the first element satisfying the test. -/
theorem find_first (p : packageversion → Bool) (l1 l2 : List packageversion)
    (i : packageversion) (h1 : ∀ v ∈ l1, p v = false) (hi : p i = true) :
    (l1 ++ i :: l2).find? p = some i := by
  induction l1 with
  | nil => simp [List.find?, hi]
  | cons x xs ih =>
    have hx : p x = false := h1 x (List.mem_cons_self x xs)
    simp only [List.cons_append, List.find?, hx]
    exact ih (fun v hv => h1 v (List.mem_cons_of_mem x hv))

/-- The value of `find?` when no element satisfies the test. -/
theorem find_none (p : packageversion → Bool) (l : List packageversion)
    (h : ∀ v ∈ l, p v = false) : l.find? p = none := by
  induction l with
  | nil => rfl
  | cons x xs ih =>
    have hx : p x = false := h x (List.mem_cons_self x xs)
    simp only [List.find?, hx]
    exact ih (fun v hv => h v (List.mem_cons_of_mem x hv))

/-- The entries of canonical version `s` of a list that has one such entry
`x` and no other. -/
theorem filter_single (s : String) (m1 m2 : List packageversion) (x : packageversion)
    (h : ∀ v ∈ m1 ++ m2, Canonical_version v ≠ s) (hx : Canonical_version x = s) :
    (m1 ++ x :: m2).filter (fun v => decide (Canonical_version v = s)) = [x] := by
  have h1 : m1.filter (fun v => decide (Canonical_version v = s)) = [] := by
    rw [List.filter_eq_nil_iff]
    intro v hv
    simpa using h v (List.mem_append_left m2 hv)
  have h2 : m2.filter (fun v => decide (Canonical_version v = s)) = [] := by
    rw [List.filter_eq_nil_iff]
    intro v hv
    simpa using h v (List.mem_append_right m1 hv)
  rw [List.filter_append, h1, List.filter_cons_of_pos (by simpa using hx), h2]
  rfl

/-- The call `add_version` on a set without an entry of the requested
canonical version: the version is created from the request as given, the
registry only mints it, and it is inserted among the unchanged members. -/
theorem add_version_fresh (cmp : packageversion → packageversion → Int)
    (hord : IsTotalOrder cmp) (hkey : CanonicalKey cmp)
    (pool : SolverPool) (pkg : packagemeta) (d : addPackageData)
    (hnone : ∀ v ∈ pkg.versions, Canonical_version v ≠ d.version) :
    (add_version cmp pool pkg d).1 = (pool.addPackage pkg.name d).1
      ∧ (add_version cmp pool pkg d).2.2 = (pool.addPackage pkg.name d).2
      ∧ ∃ m1 m2, pkg.versions = m1 ++ m2
          ∧ (add_version cmp pool pkg d).2.1.versions
            = m1 ++ (add_version cmp pool pkg d).1 :: m2 := by
  obtain ⟨p1, p2, p3⟩ := add_version_parts cmp pool pkg d
  have hloop := add_version_loop_none d pkg pool pkg.versions hnone
  rw [hloop] at p1 p2 p3
  refine ⟨p1, p3, ?_⟩
  rw [p2]
  apply set_insert_of_no_tie
  apply no_tie_of_canonical cmp hord hkey
  intro y hy
  rw [p1]
  exact hnone y hy

/-- The call `add_version` on a set whose only entry of the requested
canonical version is `i`: the created version carries the merged sites when
the vendors agree, `remove` is requested for `i` only when the vendors agree
and the repository is not "_installed", and the created version takes the
place of `i` among the other members. -/
theorem add_version_replace (cmp : packageversion → packageversion → Int)
    (hord : IsTotalOrder cmp) (hkey : CanonicalKey cmp)
    (pool : SolverPool) (pkg : packagemeta) (d : addPackageData)
    (l1 l2 : List packageversion) (i : packageversion)
    (hsplit : pkg.versions = l1 ++ i :: l2)
    (hothers : ∀ v ∈ l1 ++ l2, Canonical_version v ≠ d.version)
    (hi : Canonical_version i = d.version) :
    (add_version cmp pool pkg d).1
        = some { id := pool.next_id, name := pkg.name, version := d.version,
                 vendor := d.vendor, reponame := d.reponame, stability := d.stability,
                 sites := if d.vendor = Vendor i then d.archive_sites ++ source_sites i
                          else d.archive_sites }
      ∧ (add_version cmp pool pkg d).2.2.removed
        = (if d.vendor = Vendor i ∧ d.reponame ≠ "_installed" then pool.removed ++ [i]
           else pool.removed)
      ∧ (add_version cmp pool pkg d).2.2.next_id = pool.next_id + 1
      ∧ ∃ m1 m2, l1 ++ l2 = m1 ++ m2
          ∧ (add_version cmp pool pkg d).2.1.versions
            = m1 ++ (add_version cmp pool pkg d).1 :: m2 := by
  obtain ⟨p1, p2, p3⟩ := add_version_parts cmp pool pkg d
  have hl1 : ∀ v ∈ l1, Canonical_version v ≠ d.version :=
    fun v hv => hothers v (List.mem_append_left l2 hv)
  have hskip := add_version_loop_skip d pkg pool l1 (i :: l2) hl1
  obtain ⟨q1, q2, q3, q4, _⟩ := add_version_loop_hit d pkg pool i l2 hi
  rw [hsplit, hskip] at p1 p2 p3
  simp only [q1, q2, q3, q4] at p1 p2 p3
  have hthe : (add_version cmp pool pkg d).1
      = some { id := pool.next_id, name := pkg.name, version := d.version,
               vendor := d.vendor, reponame := d.reponame, stability := d.stability,
               sites := if d.vendor = Vendor i then d.archive_sites ++ source_sites i
                        else d.archive_sites } := by
    rw [p1]
    split_ifs <;> rfl
  refine ⟨hthe, ?_, ?_, ?_⟩
  · rw [p3]
    split_ifs <;> rfl
  · rw [p3]
    split_ifs <;> rfl
  · rw [p2]
    apply set_insert_of_no_tie
    apply no_tie_of_canonical cmp hord hkey
    intro y hy
    rw [hthe]
    exact hothers y hy

/-- The sample comparator has the canonical version string as its key. -/
theorem canonicalCompare_canonicalKey : CanonicalKey canonicalCompare :=
  fun a b h => (canonicalCompare_eq_zero_iff a b).1 h

/-- C11 fails as stated: on a package that already holds version 1.0 of the
same vendor with site s0 (a set unique by canonical version, under a total
order keyed by the canonical version), adding (1.0, sites s1) and then (1.0,
sites s2) leaves one entry of version 1.0 whose site list is s2, s1, s0 and
not s2 followed by s1. -/
theorem add_version_twice_counterexample :
    UniqueCanonical mergePackage.versions
      ∧ ((add_versions canonicalCompare emptyPool mergePackage
            [request "repo" "1.0" "cygwin" trusts.TRUST_CURR ["s1"],
             request "repo" "1.0" "cygwin" trusts.TRUST_CURR ["s2"]]).2.1.versions.filter
          (fun v => decide (Canonical_version v = "1.0"))).map source_sites
        = [["s2", "s1", "s0"]]
      ∧ ["s2", "s1", "s0"] ≠ ["s2"] ++ ["s1"] := by
  refine ⟨by unfold UniqueCanonical; decide, by decide, by decide⟩

/-- C11, amended: when the ordering of the set is a total order keyed by the
canonical version and versions is unique by canonical version, after
`add_version` with (s, r, sites S1) followed by `add_version` with (s, r,
sites S2) from the same repository other than "_installed", versions holds
exactly one entry with canonical version s, the one the second call created;
its site list is S2 followed by S1 followed by the sites of the entry of
canonical version s and vendor r that versions held before the first call
(nothing when there was none); and the registry was asked to remove the
object of the first call. -/
theorem add_version_twice_merges (cmp : packageversion → packageversion → Int)
    (hord : IsTotalOrder cmp) (hkey : CanonicalKey cmp)
    (pool : SolverPool) (pkg : packagemeta) (s r repo : String) (st1 st2 : trusts)
    (S1 S2 : List String)
    (hrepo : repo ≠ "_installed") (huniq : UniqueCanonical pkg.versions) :
    ∃ v1 v2,
      (add_versions cmp pool pkg [request repo s r st1 S1, request repo s r st2 S2]).1
          = [v1, v2]
        ∧ (add_versions cmp pool pkg
            [request repo s r st1 S1, request repo s r st2 S2]).2.1.versions.filter
              (fun v => decide (Canonical_version v = s)) = [v2]
        ∧ source_sites v2 = S2 ++ S1 ++ prior_sites pkg.versions s r
        ∧ v1 ∈ (add_versions cmp pool pkg
            [request repo s r st1 S1, request repo s r st2 S2]).2.2.removed := by
  -- the first call
  have hfirst : ∃ m1 m2,
      (∀ v ∈ m1 ++ m2, Canonical_version v ≠ s)
        ∧ (add_version cmp pool pkg (request repo s r st1 S1)).2.1.versions
          = m1 ++ (add_version cmp pool pkg (request repo s r st1 S1)).1 :: m2
        ∧ Canonical_version (add_version cmp pool pkg (request repo s r st1 S1)).1 = s
        ∧ Vendor (add_version cmp pool pkg (request repo s r st1 S1)).1 = r
        ∧ source_sites (add_version cmp pool pkg (request repo s r st1 S1)).1
          = S1 ++ prior_sites pkg.versions s r := by
    rcases split_at_first (fun v => decide (Canonical_version v = s)) pkg.versions
      with hnone | ⟨l1, i, l2, hsplit, hl1, hi⟩
    · have hnone1 : ∀ v ∈ pkg.versions, Canonical_version v ≠ s := by
        intro v hv; simpa using hnone v hv
      obtain ⟨a1, _, m1, m2, a3, a4⟩ := add_version_fresh cmp hord hkey pool pkg
        (request repo s r st1 S1) hnone1
      have hprior : prior_sites pkg.versions s r = [] := by
        unfold prior_sites
        rw [find_none _ _ hnone]
      refine ⟨m1, m2, by rw [← a3]; exact hnone1, a4, ?_, ?_, ?_⟩
      · rw [a1]; rfl
      · rw [a1]; rfl
      · rw [a1, hprior]; simp [SolverPool.addPackage, request, source_sites]
    · have hi1 : Canonical_version i = s := by simpa using hi
      have hothers : ∀ v ∈ l1 ++ l2, Canonical_version v ≠ s := by
        rw [hsplit] at huniq
        intro v hv
        rw [← hi1]
        exact unique_canonical_split l1 l2 i huniq v hv
      obtain ⟨a1, _, _, m1, m2, a3, a4⟩ := add_version_replace cmp hord hkey pool pkg
        (request repo s r st1 S1) l1 l2 i hsplit hothers hi1
      have hprior : prior_sites pkg.versions s r
          = if r = Vendor i then source_sites i else [] := by
        unfold prior_sites
        rw [hsplit, find_first _ l1 l2 i hl1 hi]
      refine ⟨m1, m2, by rw [← a3]; exact hothers, a4, ?_, ?_, ?_⟩
      · rw [a1]; rfl
      · rw [a1]; rfl
      · rw [a1, hprior]
        simp only [request, source_sites]
        split_ifs <;> simp
  obtain ⟨m1, m2, hm, hv1, hc1, hven1, hs1⟩ := hfirst
  -- the second call
  simp only [add_versions]
  generalize add_version cmp pool pkg (request repo s r st1 S1) = X
    at hm hv1 hc1 hven1 hs1 ⊢
  obtain ⟨b1, b2, _, n1, n2, b3, b4⟩ := add_version_replace cmp hord hkey X.2.2 X.2.1
    (request repo s r st2 S2) m1 m2 X.1 hv1 hm hc1
  have hvendor : (request repo s r st2 S2).vendor = Vendor X.1 := hven1.symm
  have hrepo2 : (request repo s r st2 S2).reponame ≠ "_installed" := hrepo
  rw [if_pos hvendor] at b1
  rw [if_pos ⟨hvendor, hrepo2⟩] at b2
  refine ⟨X.1, _, rfl, ?_, ?_, ?_⟩
  · rw [b4]
    apply filter_single
    · rw [← b3]; exact hm
    · rw [b1]; rfl
  · rw [b1]
    show S2 ++ source_sites X.1 = _
    rw [hs1, List.append_assoc]
  · rw [b2]
    simp

/-- Witness of the amended C11 on the sample package holding 1.0 with site
s0: the entry left for 1.0 carries the sites s2, s1, s0. -/
theorem add_version_twice_merges_witness :
    ∃ v1 v2,
      (add_versions canonicalCompare emptyPool mergePackage
          [request "repo" "1.0" "cygwin" trusts.TRUST_CURR ["s1"],
           request "repo" "1.0" "cygwin" trusts.TRUST_CURR ["s2"]]).1 = [v1, v2]
        ∧ (add_versions canonicalCompare emptyPool mergePackage
            [request "repo" "1.0" "cygwin" trusts.TRUST_CURR ["s1"],
             request "repo" "1.0" "cygwin" trusts.TRUST_CURR ["s2"]]).2.1.versions.filter
              (fun v => decide (Canonical_version v = "1.0")) = [v2]
        ∧ source_sites v2 = ["s2"] ++ ["s1"] ++ prior_sites mergePackage.versions "1.0" "cygwin"
        ∧ v1 ∈ (add_versions canonicalCompare emptyPool mergePackage
            [request "repo" "1.0" "cygwin" trusts.TRUST_CURR ["s1"],
             request "repo" "1.0" "cygwin" trusts.TRUST_CURR ["s2"]]).2.2.removed :=
  add_version_twice_merges canonicalCompare canonicalCompare_isTotalOrder
    canonicalCompare_canonicalKey emptyPool mergePackage "1.0" "cygwin" "repo"
    trusts.TRUST_CURR trusts.TRUST_CURR ["s1"] ["s2"] (by decide)
    (by unfold UniqueCanonical; decide)

/-- C12: when the ordering of the set is a total order keyed by the canonical
version and versions holds no entry of canonical version s, after
`add_version` (s, vendor A) followed by `add_version` (s, vendor B) with A
and B distinct and repositories other than "_installed", versions holds
exactly one entry with canonical version s, the one the second call created
(vendor B, its sites those of the second call), and the registry was asked
to remove nothing, neither in the first nor in the second call. -/
theorem add_version_cross_vendor (cmp : packageversion → packageversion → Int)
    (hord : IsTotalOrder cmp) (hkey : CanonicalKey cmp)
    (pool : SolverPool) (pkg : packagemeta) (s A B repoA repoB : String)
    (stA stB : trusts) (SA SB : List String)
    (hAB : A ≠ B) (_hrepoA : repoA ≠ "_installed") (_hrepoB : repoB ≠ "_installed")
    (hnone : ∀ v ∈ pkg.versions, Canonical_version v ≠ s) :
    ∃ vA vB,
      (add_versions cmp pool pkg [request repoA s A stA SA, request repoB s B stB SB]).1
          = [vA, vB]
        ∧ (add_versions cmp pool pkg
            [request repoA s A stA SA, request repoB s B stB SB]).2.1.versions.filter
              (fun v => decide (Canonical_version v = s)) = [vB]
        ∧ Vendor vA = A ∧ Vendor vB = B ∧ source_sites vB = SB
        ∧ (add_version cmp pool pkg (request repoA s A stA SA)).2.2.removed = pool.removed
        ∧ (add_versions cmp pool pkg
            [request repoA s A stA SA, request repoB s B stB SB]).2.2.removed
          = (add_version cmp pool pkg (request repoA s A stA SA)).2.2.removed := by
  obtain ⟨a1, a2, m1, m2, a3, a4⟩ := add_version_fresh cmp hord hkey pool pkg
    (request repoA s A stA SA) hnone
  have hm : ∀ v ∈ m1 ++ m2, Canonical_version v ≠ s := by rw [← a3]; exact hnone
  have hcA : Canonical_version (add_version cmp pool pkg (request repoA s A stA SA)).1 = s := by
    rw [a1]; rfl
  have hvA : Vendor (add_version cmp pool pkg (request repoA s A stA SA)).1 = A := by
    rw [a1]; rfl
  have hremA : (add_version cmp pool pkg (request repoA s A stA SA)).2.2.removed
      = pool.removed := by
    rw [a2]; rfl
  simp only [add_versions]
  generalize add_version cmp pool pkg (request repoA s A stA SA) = X
    at a4 hcA hvA hremA ⊢
  obtain ⟨b1, b2, _, n1, n2, b3, b4⟩ := add_version_replace cmp hord hkey X.2.2 X.2.1
    (request repoB s B stB SB) m1 m2 X.1 a4 hm hcA
  have hvendor : ¬ (request repoB s B stB SB).vendor = Vendor X.1 := by
    rw [hvA]
    exact fun h => hAB h.symm
  rw [if_neg hvendor] at b1
  rw [if_neg (fun h => hvendor h.1)] at b2
  refine ⟨X.1, _, rfl, ?_, hvA, ?_, ?_, hremA, b2⟩
  · rw [b4]
    apply filter_single
    · rw [← b3]; exact hm
    · rw [b1]; rfl
  · rw [b1]; rfl
  · rw [b1]; rfl

/-- Witness of C12: version 1.0 added to the fresh package foo from vendor A
and then from vendor B. -/
theorem add_version_cross_vendor_witness :
    ∃ vA vB,
      (add_versions canonicalCompare emptyPool (packagemeta.mk_named "foo")
          [request "r1" "1.0" "A" trusts.TRUST_CURR ["s1"],
           request "r2" "1.0" "B" trusts.TRUST_CURR ["s2"]]).1 = [vA, vB]
        ∧ (add_versions canonicalCompare emptyPool (packagemeta.mk_named "foo")
            [request "r1" "1.0" "A" trusts.TRUST_CURR ["s1"],
             request "r2" "1.0" "B" trusts.TRUST_CURR ["s2"]]).2.1.versions.filter
              (fun v => decide (Canonical_version v = "1.0")) = [vB]
        ∧ Vendor vA = "A" ∧ Vendor vB = "B" ∧ source_sites vB = ["s2"]
        ∧ (add_version canonicalCompare emptyPool (packagemeta.mk_named "foo")
            (request "r1" "1.0" "A" trusts.TRUST_CURR ["s1"])).2.2.removed
          = emptyPool.removed
        ∧ (add_versions canonicalCompare emptyPool (packagemeta.mk_named "foo")
            [request "r1" "1.0" "A" trusts.TRUST_CURR ["s1"],
             request "r2" "1.0" "B" trusts.TRUST_CURR ["s2"]]).2.2.removed
          = (add_version canonicalCompare emptyPool (packagemeta.mk_named "foo")
              (request "r1" "1.0" "A" trusts.TRUST_CURR ["s1"])).2.2.removed :=
  add_version_cross_vendor canonicalCompare canonicalCompare_isTotalOrder
    canonicalCompare_canonicalKey emptyPool (packagemeta.mk_named "foo") "1.0" "A" "B"
    "r1" "r2" trusts.TRUST_CURR trusts.TRUST_CURR ["s1"] ["s2"] (by decide) (by decide)
    (by decide) (by decide)

/-- For a request from "_installed" the loop of `add_version` leaves the
package (its trust slots) and the registry as they were. -/
theorem add_version_loop_installed (d : addPackageData) (pkg : packagemeta)
    (pool : SolverPool) (hrepo : d.reponame = "_installed") (l : List packageversion) :
    (add_version_loop d pkg pool l).2.1 = pkg
      ∧ (add_version_loop d pkg pool l).2.2.1 = pool := by
  induction l with
  | nil => exact ⟨rfl, rfl⟩
  | cons i rest ih =>
    by_cases hcv : Canonical_version i = d.version
    · by_cases hv : d.vendor = Vendor i
      · simp [add_version_loop, hcv, hv, hrepo]
      · simp [add_version_loop, hcv, hv]
    · simp only [add_version_loop, ne_eq, hcv, not_false_eq_true, if_true]
      exact ih

/-- C13: for a request whose repository label is "_installed", `add_version`
never asks the registry to remove anything and clears no trust slot (curr
and exp each keep their value or become the created, non-empty version);
and when the ordering of the set is a total order keyed by the canonical
version and versions is unique by canonical version, the created version
carries the incoming sites followed by the sites of the entry of the same
canonical version and vendor that versions held, and it is a member of
versions when the call returns. -/
theorem add_version_installed (cmp : packageversion → packageversion → Int)
    (hord : IsTotalOrder cmp) (hkey : CanonicalKey cmp)
    (pool : SolverPool) (pkg : packagemeta) (d : addPackageData)
    (hrepo : d.reponame = "_installed") (huniq : UniqueCanonical pkg.versions) :
    (add_version cmp pool pkg d).2.2.removed = pool.removed
      ∧ (add_version cmp pool pkg d).1.isSome = true
      ∧ ((add_version cmp pool pkg d).2.1.curr = pkg.curr
          ∨ (add_version cmp pool pkg d).2.1.curr = (add_version cmp pool pkg d).1)
      ∧ ((add_version cmp pool pkg d).2.1.exp = pkg.exp
          ∨ (add_version cmp pool pkg d).2.1.exp = (add_version cmp pool pkg d).1)
      ∧ (∀ e ∈ pkg.versions, Canonical_version e = d.version → Vendor e = d.vendor →
          source_sites (add_version cmp pool pkg d).1 = d.archive_sites ++ source_sites e)
      ∧ (add_version cmp pool pkg d).1 ∈ (add_version cmp pool pkg d).2.1.versions := by
  obtain ⟨p1, _, p3⟩ := add_version_parts cmp pool pkg d
  obtain ⟨q1, q2⟩ := add_version_loop_installed d pkg pool hrepo pkg.versions
  have hsome : (add_version cmp pool pkg d).1.isSome = true := by rw [p1]; rfl
  have hslots : ((add_version cmp pool pkg d).2.1.curr = pkg.curr
        ∨ (add_version cmp pool pkg d).2.1.curr = (add_version cmp pool pkg d).1)
      ∧ ((add_version cmp pool pkg d).2.1.exp = pkg.exp
        ∨ (add_version cmp pool pkg d).2.1.exp = (add_version cmp pool pkg d).1) := by
    simp only [add_version, q1]
    split_ifs <;> cases (add_version_loop d pkg pool pkg.versions).1.stability <;>
      simp [slot_set]
  have hsplit : (∀ v ∈ pkg.versions, Canonical_version v ≠ d.version)
      ∨ ∃ l1 i l2, pkg.versions = l1 ++ i :: l2
          ∧ (∀ v ∈ l1 ++ l2, Canonical_version v ≠ d.version)
          ∧ Canonical_version i = d.version := by
    rcases split_at_first (fun v => decide (Canonical_version v = d.version)) pkg.versions
      with hnone | ⟨l1, i, l2, hsplit, _, hi⟩
    · left
      intro v hv; simpa using hnone v hv
    · right
      have hi1 : Canonical_version i = d.version := by simpa using hi
      refine ⟨l1, i, l2, hsplit, ?_, hi1⟩
      rw [hsplit] at huniq
      intro v hv
      rw [← hi1]
      exact unique_canonical_split l1 l2 i huniq v hv
  refine ⟨by rw [p3, q2]; rfl, hsome, hslots.1, hslots.2, ?_, ?_⟩
  · intro e he hce hve
    rcases hsplit with hnone | ⟨l1, i, l2, hsplit, hothers, hi⟩
    · exact absurd hce (hnone e he)
    · have hei : e = i := by
        rw [hsplit] at he
        rcases List.mem_append.1 he with h | h
        · exact absurd hce (hothers e (List.mem_append_left l2 h))
        · rcases List.mem_cons.1 h with h | h
          · exact h
          · exact absurd hce (hothers e (List.mem_append_right l1 h))
      subst hei
      obtain ⟨a1, _⟩ := add_version_replace cmp hord hkey pool pkg d l1 l2 e hsplit
        hothers hi
      rw [a1, if_pos hve.symm]
      rfl
  · rcases hsplit with hnone | ⟨l1, i, l2, hsplit, hothers, hi⟩
    · obtain ⟨_, _, m1, m2, _, a4⟩ := add_version_fresh cmp hord hkey pool pkg d hnone
      rw [a4]
      simp
    · obtain ⟨_, _, _, m1, m2, _, a4⟩ := add_version_replace cmp hord hkey pool pkg d
        l1 l2 i hsplit hothers hi
      rw [a4]
      simp

/-- Witness of C13: the installed record of version 1.0 (vendor cygwin, site
local) added to the sample package that holds 1.0 with site s0. -/
theorem add_version_installed_witness :
    (add_version canonicalCompare emptyPool mergePackage
        (request "_installed" "1.0" "cygwin" trusts.TRUST_UNKNOWN ["local"])).2.2.removed
        = []
      ∧ source_sites (add_version canonicalCompare emptyPool mergePackage
          (request "_installed" "1.0" "cygwin" trusts.TRUST_UNKNOWN ["local"])).1
        = ["local", "s0"]
      ∧ (add_version canonicalCompare emptyPool mergePackage
          (request "_installed" "1.0" "cygwin" trusts.TRUST_UNKNOWN ["local"])).1
        ∈ (add_version canonicalCompare emptyPool mergePackage
          (request "_installed" "1.0" "cygwin" trusts.TRUST_UNKNOWN ["local"])).2.1.versions := by
  have h := add_version_installed canonicalCompare canonicalCompare_isTotalOrder
    canonicalCompare_canonicalKey emptyPool mergePackage
    (request "_installed" "1.0" "cygwin" trusts.TRUST_UNKNOWN ["local"]) rfl
    (by unfold UniqueCanonical; decide)
  exact ⟨h.1, by decide, h.2.2.2.2.2⟩

/-! Section: Invariants of the pick flags -/

/-- The call `set_action` never leaves both pick flags set when they were not
both set before. -/
theorem set_action_pick_exclusive (accessible : packageversion → Bool)
    (pkg : packagemeta) (action : _actions) (default_version : packageversion)
    (useraction : Bool) (h : ¬ (pkg._picked = true ∧ pkg._srcpicked = true)) :
    ¬ ((set_action accessible pkg action default_version useraction)._picked = true
      ∧ (set_action accessible pkg action default_version useraction)._srcpicked = true) := by
  unfold set_action
  cases action <;> simp only [reduceCtorEq, if_true, if_false]
  · by_cases h1 : (pkg.installed.isSome || categories_find pkg.categories "Base"
        || categories_find pkg.categories "Orphaned") = true
    · rw [if_pos h1]
      by_cases h2 : default_version.isSome = true
      · simp [h2, pick, srcpick]
      · simpa [h2] using h
    · rw [if_neg h1]
      simp [pick]
  · by_cases h2 : default_version.isSome = true
    · by_cases h3 : default_version ≠ pkg.installed
      · by_cases h4 : accessible default_version = true
        · simp [h2, h3, h4, pick, srcpick]
        · simp [h2, h3, h4, pick, srcpick]
      · simp [h2, h3, pick, srcpick]
    · simpa [h2] using h
  · by_cases h2 : pkg.installed.isSome = true
    · simp [h2, pick, srcpick]
    · simp [h2, pick, srcpick]
  · simpa using h

/-- The package after the loop of `add_version`: untouched, or with the slot
chosen by the incoming stability cleared, which happens only when that slot
referenced an entry of the incoming canonical version. -/
theorem add_version_loop_pkg (d : addPackageData) (pkg : packagemeta)
    (pool : SolverPool) (l : List packageversion) :
    (add_version_loop d pkg pool l).2.1 = pkg
      ∨ ((add_version_loop d pkg pool l).2.1 = slot_set pkg d.stability none
          ∧ Canonical_version (slot_get pkg d.stability) = d.version) := by
  induction l with
  | nil => exact Or.inl rfl
  | cons i rest ih =>
    by_cases hcv : Canonical_version i = d.version
    · by_cases hv : d.vendor = Vendor i
      · by_cases hr : d.reponame = "_installed"
        · left
          simp [add_version_loop, hcv, hv, hr]
        · by_cases hs : has_slot d.stability = true ∧ slot_get pkg d.stability = i
          · right
            constructor
            · simp only [add_version_loop, hcv, hv, hr, ne_eq, not_true_eq_false,
                not_false_eq_true, if_true, if_false]
              rw [if_pos hs]
            · rw [hs.2, hcv]
          · left
            simp only [add_version_loop, hcv, hv, hr, ne_eq, not_true_eq_false,
              not_false_eq_true, if_true, if_false]
            rw [if_neg hs]
      · left
        simp [add_version_loop, hcv, hv]
    · simp only [add_version_loop, ne_eq, hcv, not_false_eq_true, if_true]
      exact ih

/-- Writing a trust slot leaves the pick flags, installed and desired alone. -/
theorem slot_set_frame (pkg : packagemeta) (stability : trusts) (x : packageversion) :
    (slot_set pkg stability x)._picked = pkg._picked
      ∧ (slot_set pkg stability x)._srcpicked = pkg._srcpicked
      ∧ (slot_set pkg stability x).installed = pkg.installed
      ∧ (slot_set pkg stability x).desired = pkg.desired
      ∧ (slot_set pkg stability x).name = pkg.name := by
  cases stability <;> exact ⟨rfl, rfl, rfl, rfl, rfl⟩

/-- The loop of `add_version` leaves the pick flags alone. -/
theorem add_version_loop_flags (d : addPackageData) (pkg : packagemeta)
    (pool : SolverPool) (l : List packageversion) :
    (add_version_loop d pkg pool l).2.1._picked = pkg._picked
      ∧ (add_version_loop d pkg pool l).2.1._srcpicked = pkg._srcpicked := by
  rcases add_version_loop_pkg d pkg pool l with h | ⟨h, _⟩
  · rw [h]; exact ⟨rfl, rfl⟩
  · rw [h]
    exact ⟨(slot_set_frame pkg d.stability none).1, (slot_set_frame pkg d.stability none).2.1⟩

/-- The call `add_version` leaves the pick flags alone. -/
theorem add_version_flags (cmp : packageversion → packageversion → Int)
    (pool : SolverPool) (pkg : packagemeta) (d : addPackageData) :
    (add_version cmp pool pkg d).2.1._picked = pkg._picked
      ∧ (add_version cmp pool pkg d).2.1._srcpicked = pkg._srcpicked := by
  obtain ⟨h1, h2⟩ := add_version_loop_flags d pkg pool pkg.versions
  simp only [add_version]
  split_ifs <;>
    cases (add_version_loop d pkg pool pkg.versions).1.stability <;>
    simp [slot_set, h1, h2]

/-- The call `set_installed_version` leaves the pick flags alone. -/
theorem set_installed_version_flags (version : String) (l : List packageversion) :
    ∀ pkg : packagemeta,
      (l.foldl
          (fun (pkg : packagemeta) (i : packageversion) =>
            if version = Canonical_version i then { pkg with installed := i, desired := i }
            else pkg) pkg)._picked = pkg._picked
        ∧ (l.foldl
          (fun (pkg : packagemeta) (i : packageversion) =>
            if version = Canonical_version i then { pkg with installed := i, desired := i }
            else pkg) pkg)._srcpicked = pkg._srcpicked := by
  induction l with
  | nil => intro pkg; exact ⟨rfl, rfl⟩
  | cons i rest ih =>
    intro pkg
    rw [List.foldl_cons]
    obtain ⟨h1, h2⟩ := ih (if version = Canonical_version i
      then { pkg with installed := i, desired := i } else pkg)
    rw [h1, h2]
    split_ifs <;> exact ⟨rfl, rfl⟩

/-- One defined call keeps the pick flags from being both set. -/
theorem apply_operation_pick_exclusive (accessible : packageversion → Bool)
    (cmp : packageversion → packageversion → Int)
    (is_test_package : packageversion → Bool)
    (state next : packagemeta × SolverPool) (op : Operation)
    (h : ¬ (state.1._picked = true ∧ state.1._srcpicked = true))
    (hstep : apply_operation accessible cmp is_test_package state op = some next) :
    ¬ (next.1._picked = true ∧ next.1._srcpicked = true) := by
  cases op with
  | set_action action default_version useraction =>
    simp only [apply_operation, Option.some.injEq] at hstep
    rw [← hstep]
    exact set_action_pick_exclusive accessible state.1 action default_version useraction h
  | select_action id deftrust =>
    simp only [apply_operation] at hstep
    cases hsel : select_action accessible cmp state.1 id deftrust with
    | none => rw [hsel] at hstep; simp at hstep
    | some pkg =>
      rw [hsel] at hstep
      simp only [Option.some.injEq] at hstep
      rw [← hstep]
      unfold select_action at hsel
      by_cases hid : id ≤ 0
      · rw [if_pos hid] at hsel
        cases hget : state.1.versions[(-id).toNat]? with
        | none => rw [hget] at hsel; simp at hsel
        | some i =>
          rw [hget] at hsel
          simp only [Option.some.injEq] at hsel
          rw [← hsel]
          exact set_action_pick_exclusive accessible state.1 _ _ _ h
      · rw [if_neg hid] at hsel
        by_cases hno : id = _actions.NoChange_action.toInt
        · rw [if_pos hno] at hsel
          simp only [Option.some.injEq] at hsel
          rw [← hsel]
          exact set_action_pick_exclusive accessible state.1 _ _ _ h
        · rw [if_neg hno] at hsel
          cases hof : _actions.ofInt id with
          | none => rw [hof] at hsel; simp at hsel
          | some action =>
            rw [hof] at hsel
            simp only [Option.some.injEq] at hsel
            rw [← hsel]
            exact set_action_pick_exclusive accessible state.1 _ _ _ h
  | toggle_action =>
    simp only [apply_operation, Option.some.injEq] at hstep
    rw [← hstep]
    show ¬ ((toggle_action accessible is_test_package state.1)._picked = true
      ∧ (toggle_action accessible is_test_package state.1)._srcpicked = true)
    unfold toggle_action
    split_ifs <;> exact set_action_pick_exclusive accessible state.1 _ _ _ h
  | add_version pkgdata =>
    simp only [apply_operation, Option.some.injEq] at hstep
    rw [← hstep]
    obtain ⟨h1, h2⟩ := add_version_flags cmp state.2 state.1 pkgdata
    show ¬ ((add_version cmp state.2 state.1 pkgdata).2.1._picked = true
      ∧ (add_version cmp state.2 state.1 pkgdata).2.1._srcpicked = true)
    rw [h1, h2]
    exact h
  | set_installed_version version =>
    simp only [apply_operation, Option.some.injEq] at hstep
    rw [← hstep]
    obtain ⟨h1, h2⟩ := set_installed_version_flags version state.1.versions state.1
    show ¬ ((set_installed_version state.1 version)._picked = true
      ∧ (set_installed_version state.1 version)._srcpicked = true)
    unfold set_installed_version
    rw [h1, h2]
    exact h

/-- A sequence of defined calls keeps the pick flags from being both set. -/
theorem apply_operations_pick_exclusive (accessible : packageversion → Bool)
    (cmp : packageversion → packageversion → Int)
    (is_test_package : packageversion → Bool) (ops : List Operation) :
    ∀ (state final : packagemeta × SolverPool),
      ¬ (state.1._picked = true ∧ state.1._srcpicked = true) →
      apply_operations accessible cmp is_test_package state ops = some final →
      ¬ (final.1._picked = true ∧ final.1._srcpicked = true) := by
  induction ops with
  | nil =>
    intro state final h hrun
    simp only [apply_operations, Option.some.injEq] at hrun
    rw [← hrun]
    exact h
  | cons op ops ih =>
    intro state final h hrun
    simp only [apply_operations] at hrun
    cases hstep : apply_operation accessible cmp is_test_package state op with
    | none => rw [hstep] at hrun; simp at hrun
    | some next =>
      rw [hstep] at hrun
      exact ih next final
        (apply_operation_pick_exclusive accessible cmp is_test_package state next op h hstep)
        hrun

/-- C25: in every state reached from a freshly constructed package by a
finite sequence of `set_action`, `select_action` (with ids in range),
`toggle_action`, `add_version` and `set_installed_version` calls, picked and
srcPicked are not both true. -/
theorem pick_flags_never_both (accessible : packageversion → Bool)
    (compare : packageversion → packageversion → Int)
    (is_test_package : packageversion → Bool) (name : String) (pool : SolverPool)
    (ops : List Operation) (final : packagemeta × SolverPool)
    (hrun : apply_operations accessible compare is_test_package
      (packagemeta.mk_named name, pool) ops = some final) :
    ¬ (final.1._picked = true ∧ final.1._srcpicked = true) :=
  apply_operations_pick_exclusive accessible compare is_test_package ops
    (packagemeta.mk_named name, pool) final (by simp [packagemeta.mk_named]) hrun

/-- Witness of C25: the sample session on package foo is defined throughout
and ends with picked set and srcPicked clear. -/
theorem pick_flags_never_both_witness :
    (∃ final, apply_operations (fun _ => true) canonicalCompare sample_is_test
        (packagemeta.mk_named "foo", emptyPool) sampleSession = some final
      ∧ final.1._picked = true ∧ final.1._srcpicked = false)
      ∧ ∀ final, apply_operations (fun _ => true) canonicalCompare sample_is_test
          (packagemeta.mk_named "foo", emptyPool) sampleSession = some final →
        ¬ (final.1._picked = true ∧ final.1._srcpicked = true) :=
  ⟨⟨_, rfl, by decide, by decide⟩,
   fun final h => pick_flags_never_both (fun _ => true) canonicalCompare sample_is_test
     "foo" emptyPool sampleSession final h⟩

/-! Section: Properties of the category index -/

/-- Category names compare equal exactly when their lower-case forms agree. -/
theorem casecompare_eq_iff (a b : String) :
    casecompare_eq a b = true ↔ a.toLower = b.toLower := by
  unfold casecompare_eq
  exact beq_iff_eq

/-- The member list read back after `push_back`: the list of the category
that was pushed to gained the package at its end, the others are unchanged. -/
theorem lookup_push_back (index : CategoryIndex) (cat pkg c : String) :
    (index.push_back cat pkg).lookup c
      = if casecompare_eq cat c then index.lookup c ++ [pkg] else index.lookup c := by
  induction index with
  | nil =>
    by_cases h : casecompare_eq cat c = true
    · simp [CategoryIndex.push_back, CategoryIndex.lookup, List.find?, h]
    · simp [CategoryIndex.push_back, CategoryIndex.lookup, List.find?, h]
  | cons e rest ih =>
    by_cases hec : casecompare_eq e.1 cat = true
    · have h1 := (casecompare_eq_iff e.1 cat).1 hec
      by_cases hc : casecompare_eq e.1 c = true
      · have h2 := (casecompare_eq_iff e.1 c).1 hc
        have h3 : casecompare_eq cat c = true :=
          (casecompare_eq_iff cat c).2 (h1.symm.trans h2)
        simp [CategoryIndex.push_back, CategoryIndex.lookup, List.find?, hec, hc, h3]
      · have h3 : ¬ casecompare_eq cat c = true := by
          intro h
          apply hc
          exact (casecompare_eq_iff e.1 c).2 (h1.trans ((casecompare_eq_iff cat c).1 h))
        simp [CategoryIndex.push_back, CategoryIndex.lookup, List.find?, hec, hc, h3]
    · by_cases hc : casecompare_eq e.1 c = true
      · have h3 : ¬ casecompare_eq cat c = true := by
          intro h
          apply hec
          exact (casecompare_eq_iff e.1 cat).2
            (((casecompare_eq_iff e.1 c).1 hc).trans ((casecompare_eq_iff cat c).1 h).symm)
        simp [CategoryIndex.push_back, CategoryIndex.lookup, List.find?, hec, hc, h3]
      · have hstep : (CategoryIndex.push_back (e :: rest) cat pkg).lookup c
            = (CategoryIndex.push_back rest cat pkg).lookup c := by
          simp [CategoryIndex.push_back, CategoryIndex.lookup, List.find?, hec, hc]
        have hold : CategoryIndex.lookup (e :: rest) c = CategoryIndex.lookup rest c := by
          simp [CategoryIndex.lookup, List.find?, hc]
        rw [hstep, hold]
        exact ih

/-- The lookup in the package's category set after a name was added. -/
theorem categories_find_append (categories : List String) (x c : String) :
    categories_find (categories ++ [x]) c
      = (categories_find categories c || casecompare_eq x c) := by
  simp [categories_find]

/-- C24: if package p occurs in the index list of every category c exactly
once when c is in p.categories and not at all otherwise, the same holds after
`p.add_category (x)` for every name x, x is in p.categories afterwards, and a
second `add_category (x)` changes neither p.categories nor the index. -/
theorem add_category_consistent (index : CategoryIndex) (pkg : packagemeta) (x : String)
    (hcons : index_consistent index pkg) :
    index_consistent (add_category index pkg x).1 (add_category index pkg x).2
      ∧ categories_find (add_category index pkg x).2.categories x = true
      ∧ add_category (add_category index pkg x).1 (add_category index pkg x).2 x
        = add_category index pkg x := by
  have hxx : casecompare_eq x x = true := (casecompare_eq_iff x x).2 rfl
  by_cases hfind : categories_find pkg.categories x = true
  · have hadd : add_category index pkg x = (index, pkg) := by
      unfold add_category
      rw [if_pos hfind]
    rw [hadd]
    exact ⟨hcons, hfind, hadd⟩
  · have hadd : add_category index pkg x
        = (index.push_back x pkg.name, { pkg with categories := pkg.categories ++ [x] }) := by
      unfold add_category
      rw [if_neg hfind]
    have hfound : categories_find (pkg.categories ++ [x]) x = true := by
      rw [categories_find_append, hxx]
      simp
    rw [hadd]
    refine ⟨?_, hfound, ?_⟩
    · intro c
      show ((index.push_back x pkg.name).lookup c).count pkg.name
        = if categories_find (pkg.categories ++ [x]) c = true then 1 else 0
      rw [lookup_push_back, categories_find_append]
      have hc := hcons c
      by_cases hxc : casecompare_eq x c = true
      · have hnot : ¬ categories_find pkg.categories c = true := by
          intro h
          apply hfind
          unfold categories_find at h ⊢
          rw [List.any_eq_true] at h ⊢
          obtain ⟨y, hy, hyc⟩ := h
          refine ⟨y, hy, ?_⟩
          exact (casecompare_eq_iff y x).2
            (((casecompare_eq_iff y c).1 hyc).trans ((casecompare_eq_iff x c).1 hxc).symm)
        rw [if_neg hnot] at hc
        rw [if_pos hxc, List.count_append, hc]
        simp [hxc]
      · rw [if_neg hxc, hc]
        simp [hxc]
    · unfold add_category
      simp only
      rw [if_pos hfound]

/-- Witness of C24: package foo without categories and an empty index, then
`add_category ("Base")`. -/
theorem add_category_consistent_witness :
    index_consistent (add_category [] (packagemeta.mk_named "foo") "Base").1
        (add_category [] (packagemeta.mk_named "foo") "Base").2
      ∧ (add_category [] (packagemeta.mk_named "foo") "Base").1 = [("Base", ["foo"])]
      ∧ (add_category [] (packagemeta.mk_named "foo") "Base").2.categories = ["Base"]
      ∧ add_category (add_category [] (packagemeta.mk_named "foo") "Base").1
          (add_category [] (packagemeta.mk_named "foo") "Base").2 "Base"
        = add_category [] (packagemeta.mk_named "foo") "Base" := by
  have h := add_category_consistent [] (packagemeta.mk_named "foo") "Base"
    (by intro c; simp [CategoryIndex.lookup, packagemeta.mk_named, categories_find])
  exact ⟨h.1, by decide, by decide, h.2.2⟩

/-! Section: References into the version set -/

/-- Each package after a completed pass is the outcome of the version loop on
the package at the same position before the pass. -/
theorem ScanDownloadedFiles_index
    (check : packageversion → Bool → Except Exception Bool) (localdir : Bool)
    (sourcePackage : packageversion → packageversion) (mirror_mode : Bool)
    (packages : List packagemeta) :
    ∀ (pool : SolverPool) (result : List packagemeta × SolverPool),
      ScanDownloadedFiles check localdir sourcePackage mirror_mode packages pool
        = Except.ok result →
      ∀ (k : Nat) (pkg after : packagemeta),
        packages[k]? = some pkg → result.1[k]? = some after →
        ∃ (pool0 : SolverPool) (r : packagemeta × SolverPool × List packageversion),
          scan_versions check localdir sourcePackage mirror_mode pkg pool0 pkg.versions
              = Except.ok r
            ∧ after = { r.1 with versions := r.2.2 } := by
  induction packages with
  | nil =>
    intro pool result _ k pkg after hk
    simp at hk
  | cons p rest ih =>
    intro pool result hok k pkg after hk hafter
    simp only [ScanDownloadedFiles] at hok
    cases hv : scan_versions check localdir sourcePackage mirror_mode p pool p.versions with
    | error e => rw [hv] at hok; simp at hok
    | ok r =>
      rw [hv] at hok
      simp only at hok
      cases hrest : ScanDownloadedFiles check localdir sourcePackage mirror_mode rest r.2.1 with
      | error e => rw [hrest] at hok; simp at hok
      | ok rs =>
        rw [hrest] at hok
        simp only [Except.ok.injEq] at hok
        subst hok
        cases k with
        | zero =>
          simp only [List.getElem?_cons_zero, Option.some.injEq] at hk hafter
          subst hk
          exact ⟨pool, r, hv, hafter.symm⟩
        | succ k =>
          simp only [List.getElem?_cons_succ] at hk hafter
          exact ih r.2.1 rs hrest k pkg after hk hafter

/-- The package after the two clearing statements of the pruning branch:
curr and exp are cleared when they reference the pruned version, installed
and desired are left alone. -/
theorem scan_clear_spec (pkg : packagemeta) (i : packageversion) :
    ∃ P : packagemeta,
      (if (if pkg.curr = i then { pkg with curr := none } else pkg).exp = i
        then { (if pkg.curr = i then { pkg with curr := none } else pkg) with exp := none }
        else (if pkg.curr = i then { pkg with curr := none } else pkg)) = P
        ∧ P.desired = pkg.desired ∧ P.installed = pkg.installed
        ∧ P.curr = (if pkg.curr = i then none else pkg.curr)
        ∧ P.exp = (if pkg.exp = i then none else pkg.exp) := by
  refine ⟨_, rfl, ?_, ?_, ?_, ?_⟩ <;>
    by_cases hc : pkg.curr = i <;> by_cases he : pkg.exp = i <;> simp [hc, he]

/-- A completed version loop leaves desired alone, leaves curr and exp alone
or clears them, and a curr or exp that is left non-empty and was in the range
is among the retained versions. -/
theorem scan_versions_refs
    (check : packageversion → Bool → Except Exception Bool) (localdir : Bool)
    (sourcePackage : packageversion → packageversion) (mirror_mode : Bool)
    (vs : List packageversion) :
    ∀ (pkg : packagemeta) (pool : SolverPool)
      (r : packagemeta × SolverPool × List packageversion),
      scan_versions check localdir sourcePackage mirror_mode pkg pool vs = Except.ok r →
      r.1.desired = pkg.desired
        ∧ (r.1.curr = none ∨ (r.1.curr = pkg.curr ∧ (pkg.curr ∈ vs → pkg.curr ∈ r.2.2)))
        ∧ (r.1.exp = none ∨ (r.1.exp = pkg.exp ∧ (pkg.exp ∈ vs → pkg.exp ∈ r.2.2))) := by
  induction vs with
  | nil =>
    intro pkg pool r h
    simp only [scan_versions, Except.ok.injEq] at h
    subst h
    exact ⟨rfl, Or.inr ⟨rfl, fun h => h⟩, Or.inr ⟨rfl, fun h => h⟩⟩
  | cons i rest ih =>
    intro pkg pool r h
    simp only [scan_versions] at h
    cases hacc : scan check localdir i
        (mirror_mode && (decide (i ≠ pkg.installed) || decide (pkg.installed = pkg.curr)
          || decide (pkg.installed = pkg.exp))) with
    | error e => rw [hacc] at h; simp at h
    | ok accessible =>
      rw [hacc] at h
      simp only at h
      cases hsrc : scan check localdir (sourcePackage i)
          (mirror_mode && (decide (i ≠ pkg.installed) || decide (pkg.installed = pkg.curr)
            || decide (pkg.installed = pkg.exp))) with
      | error e => rw [hsrc] at h; simp at h
      | ok src_accessible =>
        rw [hsrc] at h
        simp only at h
        by_cases hprune :
            (!accessible && !src_accessible && decide (i ≠ pkg.installed)) = true
        · -- the version is pruned
          rw [if_pos hprune] at h
          obtain ⟨P, hP, c1, _, c3, c4⟩ := scan_clear_spec pkg i
          rw [hP] at h
          obtain ⟨h1, h2, h3⟩ := ih P _ r h
          rw [c1] at h1
          rw [c3] at h2
          rw [c4] at h3
          refine ⟨h1, ?_, ?_⟩
          · rcases h2 with h2 | ⟨h2, h2m⟩
            · exact Or.inl h2
            · by_cases hci : pkg.curr = i
              · left
                rw [h2, if_pos hci]
              · right
                rw [if_neg hci] at h2 h2m
                refine ⟨h2, ?_⟩
                intro hmem
                rcases List.mem_cons.1 hmem with hm | hm
                · exact absurd hm hci
                · exact h2m hm
          · rcases h3 with h3 | ⟨h3, h3m⟩
            · exact Or.inl h3
            · by_cases hei : pkg.exp = i
              · left
                rw [h3, if_pos hei]
              · right
                rw [if_neg hei] at h3 h3m
                refine ⟨h3, ?_⟩
                intro hmem
                rcases List.mem_cons.1 hmem with hm | hm
                · exact absurd hm hei
                · exact h3m hm
        · -- the version is retained
          rw [if_neg hprune] at h
          cases hrest : scan_versions check localdir sourcePackage mirror_mode pkg pool rest with
          | error e => rw [hrest] at h; simp at h
          | ok r1 =>
            rw [hrest] at h
            simp only [Except.ok.injEq] at h
            subst h
            obtain ⟨h1, h2, h3⟩ := ih _ _ r1 hrest
            refine ⟨h1, ?_, ?_⟩
            · rcases h2 with h2 | ⟨h2, h2m⟩
              · exact Or.inl h2
              · right
                refine ⟨h2, ?_⟩
                intro hmem
                rcases List.mem_cons.1 hmem with hm | hm
                · rw [hm]; exact List.mem_cons_self i _
                · exact List.mem_cons_of_mem i (h2m hm)
            · rcases h3 with h3 | ⟨h3, h3m⟩
              · exact Or.inl h3
              · right
                refine ⟨h3, ?_⟩
                intro hmem
                rcases List.mem_cons.1 hmem with hm | hm
                · rw [hm]; exact List.mem_cons_self i _
                · exact List.mem_cons_of_mem i (h3m hm)

/-- C22 fails as stated: on the sample package (1.0 installed, 1.1 stable and
desired but neither cached nor installed), where every reference is a member
of versions, the pass prunes 1.1 and clears curr, but desired still holds
the pruned 1.1. -/
theorem ScanDownloadedFiles_desired_counterexample :
    valid_ref desiredPackage.curr desiredPackage.versions
      ∧ valid_ref desiredPackage.exp desiredPackage.versions
      ∧ valid_ref desiredPackage.installed desiredPackage.versions
      ∧ valid_ref desiredPackage.desired desiredPackage.versions
      ∧ ScanDownloadedFiles sample_check true (fun _ => none) false [desiredPackage]
          emptyPool
        = Except.ok
            ([{ desiredPackage with versions := [sampleVersion 1 "1.0"], curr := none }],
             { next_id := 1, removed := [sampleVersion 2 "1.1"] })
      ∧ ¬ valid_ref
          ({ desiredPackage with versions := [sampleVersion 1 "1.0"], curr := none }
            : packagemeta).desired
          ({ desiredPackage with versions := [sampleVersion 1 "1.0"], curr := none }
            : packagemeta).versions := by
  unfold valid_ref
  refine ⟨by decide, by decide, by decide, by decide, rfl, by decide⟩

/-- C22, amended: after a completed `ScanDownloadedFiles` pass, for a package
whose curr, exp and installed were each empty or a member of versions, curr,
exp and installed are again each empty or a member of versions (a curr or exp
that pointed at a pruned version has been cleared, installed is never
pruned); desired is left as it was, so it is empty or a member of versions
afterwards exactly when it was empty or its version was retained (reported
accessible in binary or source, or equal to installed). -/
theorem ScanDownloadedFiles_references
    (check : packageversion → Bool → Except Exception Bool) (localdir : Bool)
    (sourcePackage : packageversion → packageversion) (mirror_mode : Bool)
    (packages : List packagemeta) (pool : SolverPool)
    (result : List packagemeta × SolverPool)
    (hok : ScanDownloadedFiles check localdir sourcePackage mirror_mode packages pool
      = Except.ok result) :
    ∀ (k : Nat) (pkg after : packagemeta),
      packages[k]? = some pkg → result.1[k]? = some after →
      (valid_ref pkg.curr pkg.versions → valid_ref after.curr after.versions)
        ∧ (valid_ref pkg.exp pkg.versions → valid_ref after.exp after.versions)
        ∧ (valid_ref pkg.installed pkg.versions →
            valid_ref after.installed after.versions)
        ∧ after.desired = pkg.desired
        ∧ (valid_ref after.desired after.versions ↔
            pkg.desired = none
              ∨ (pkg.desired ∈ pkg.versions
                  ∧ (scan check localdir pkg.desired mirror_mode = Except.ok true
                    ∨ scan check localdir (sourcePackage pkg.desired) mirror_mode
                      = Except.ok true
                    ∨ pkg.desired = pkg.installed))) := by
  intro k pkg after hk hafter
  obtain ⟨pool0, r, hr, hafter⟩ := ScanDownloadedFiles_index check localdir sourcePackage
    mirror_mode packages pool result hok k pkg after hk hafter
  obtain ⟨s1, _, s3⟩ := scan_versions_spec check localdir sourcePackage mirror_mode
    pkg.versions pkg pool0 r hr
  obtain ⟨d1, d2, d3⟩ := scan_versions_refs check localdir sourcePackage mirror_mode
    pkg.versions pkg pool0 r hr
  subst hafter
  unfold valid_ref
  refine ⟨?_, ?_, ?_, d1, ?_⟩
  · intro hv
    show r.1.curr = none ∨ r.1.curr ∈ r.2.2
    rcases d2 with h | ⟨h, hm⟩
    · exact Or.inl h
    · rcases hv with hv | hv
      · left; rw [h, hv]
      · right; rw [h]; exact hm hv
  · intro hv
    show r.1.exp = none ∨ r.1.exp ∈ r.2.2
    rcases d3 with h | ⟨h, hm⟩
    · exact Or.inl h
    · rcases hv with hv | hv
      · left; rw [h, hv]
      · right; rw [h]; exact hm hv
  · intro hv
    show r.1.installed = none ∨ r.1.installed ∈ r.2.2
    rw [s1]
    rcases hv with hv | hv
    · exact Or.inl hv
    · exact Or.inr ((s3 _).2 ⟨hv, Or.inr (Or.inr rfl)⟩)
  · show (r.1.desired = none ∨ r.1.desired ∈ r.2.2) ↔ _
    rw [d1, s3]

/-- Witness of the amended C22 on the sample package whose desired 1.1 is
pruned: curr is cleared, installed stays a member, desired is unchanged. -/
theorem ScanDownloadedFiles_references_witness :
    valid_ref (none : packageversion) [sampleVersion 1 "1.0"]
      ∧ valid_ref (sampleVersion 1 "1.0") [sampleVersion 1 "1.0"]
      ∧ ({ desiredPackage with versions := [sampleVersion 1 "1.0"], curr := none }
          : packagemeta).desired = desiredPackage.desired := by
  have h := ScanDownloadedFiles_references sample_check true (fun _ => none) false
    [desiredPackage] emptyPool
    ([{ desiredPackage with versions := [sampleVersion 1 "1.0"], curr := none }],
      { next_id := 1, removed := [sampleVersion 2 "1.1"] }) rfl 0 desiredPackage
    { desiredPackage with versions := [sampleVersion 1 "1.0"], curr := none } rfl rfl
  exact ⟨h.1 (Or.inr (by decide)), h.2.2.1 (Or.inr (by decide)), h.2.2.2.1⟩

/-- The version set after `add_version` on a set that is unique by canonical
version, under an ordering keyed by the canonical version: the created
version, which carries the requested canonical version, sits among the
former members of other canonical versions, and those are all still there. -/
theorem add_version_versions (cmp : packageversion → packageversion → Int)
    (hord : IsTotalOrder cmp) (hkey : CanonicalKey cmp)
    (pool : SolverPool) (pkg : packagemeta) (d : addPackageData)
    (huniq : UniqueCanonical pkg.versions) :
    Canonical_version (add_version cmp pool pkg d).1 = d.version
      ∧ ∃ m1 m2,
          (add_version cmp pool pkg d).2.1.versions
              = m1 ++ (add_version cmp pool pkg d).1 :: m2
            ∧ (∀ v ∈ m1 ++ m2, Canonical_version v ≠ d.version)
            ∧ (∀ v ∈ pkg.versions, Canonical_version v ≠ d.version → v ∈ m1 ++ m2)
            ∧ UniqueCanonical (m1 ++ m2) := by
  rcases split_at_first (fun v => decide (Canonical_version v = d.version)) pkg.versions
    with hnone | ⟨l1, i, l2, hsplit, _, hi⟩
  · have hnone1 : ∀ v ∈ pkg.versions, Canonical_version v ≠ d.version := by
      intro v hv; simpa using hnone v hv
    obtain ⟨a1, _, m1, m2, a3, a4⟩ := add_version_fresh cmp hord hkey pool pkg d hnone1
    refine ⟨by rw [a1]; rfl, m1, m2, a4, by rw [← a3]; exact hnone1, ?_, by rw [← a3]; exact huniq⟩
    intro v hv _
    rw [← a3]
    exact hv
  · have hi1 : Canonical_version i = d.version := by simpa using hi
    have hothers : ∀ v ∈ l1 ++ l2, Canonical_version v ≠ d.version := by
      rw [hsplit] at huniq
      intro v hv
      rw [← hi1]
      exact unique_canonical_split l1 l2 i huniq v hv
    obtain ⟨a1, _, _, m1, m2, a3, a4⟩ := add_version_replace cmp hord hkey pool pkg d
      l1 l2 i hsplit hothers hi1
    refine ⟨by rw [a1]; rfl, m1, m2, a4, by rw [← a3]; exact hothers, ?_, ?_⟩
    · intro v hv hcv
      rw [← a3]
      rw [hsplit] at hv
      rcases List.mem_append.1 hv with h | h
      · exact List.mem_append_left l2 h
      · rcases List.mem_cons.1 h with h | h
        · rw [h] at hcv; exact absurd hi1 hcv
        · exact List.mem_append_right l1 h
    · rw [← a3]
      rw [hsplit] at huniq
      unfold UniqueCanonical at huniq ⊢
      rw [List.map_append, List.map_cons] at huniq
      have hnd := List.nodup_middle.1 huniq
      rw [List.nodup_cons] at hnd
      rw [List.map_append]
      exact hnd.2

/-- The outcome of `std::set::insert` for any comparator: the set is left as
it was (and was not empty), or the element sits at some position among the
former members. -/
theorem set_insert_cases (cmp : packageversion → packageversion → Int)
    (x : packageversion) (l : List packageversion) :
    ((set_insert cmp x l).1 = l ∧ l ≠ [])
      ∨ ∃ l1 l2, l = l1 ++ l2 ∧ (set_insert cmp x l).1 = l1 ++ x :: l2 := by
  induction l with
  | nil => exact Or.inr ⟨[], [], rfl, rfl⟩
  | cons y ys ih =>
    by_cases h1 : cmp x y < 0
    · exact Or.inr ⟨[], y :: ys, rfl, by simp [set_insert, h1]⟩
    · by_cases h2 : cmp y x < 0
      · rcases ih with ⟨e, _⟩ | ⟨l1, l2, e1, e2⟩
        · left
          exact ⟨by simp [set_insert, h1, h2, e], by simp⟩
        · right
          exact ⟨y :: l1, l2, by rw [e1]; rfl, by simp [set_insert, h1, h2, e2]⟩
      · left
        exact ⟨by simp [set_insert, h1, h2], by simp⟩

/-- The range left by the loop of `add_version` on a set that is unique by
canonical version: it is unique by canonical version and holds no entry of
the requested canonical version; the request keeps its canonical version. -/
theorem add_version_loop_erases (d : addPackageData) (pkg : packagemeta)
    (pool : SolverPool) (l : List packageversion) (huniq : UniqueCanonical l) :
    UniqueCanonical (add_version_loop d pkg pool l).2.2.2
      ∧ (∀ v ∈ (add_version_loop d pkg pool l).2.2.2, Canonical_version v ≠ d.version)
      ∧ (add_version_loop d pkg pool l).1.version = d.version := by
  rcases split_at_first (fun v => decide (Canonical_version v = d.version)) l
    with hnone | ⟨l1, i, l2, hsplit, hl1, hi⟩
  · have hnone1 : ∀ v ∈ l, Canonical_version v ≠ d.version := by
      intro v hv; simpa using hnone v hv
    rw [add_version_loop_none d pkg pool l hnone1]
    exact ⟨huniq, hnone1, rfl⟩
  · have hi1 : Canonical_version i = d.version := by simpa using hi
    have hl1' : ∀ v ∈ l1, Canonical_version v ≠ d.version := by
      intro v hv; simpa using hl1 v hv
    have hothers : ∀ v ∈ l1 ++ l2, Canonical_version v ≠ d.version := by
      rw [hsplit] at huniq
      intro v hv
      rw [← hi1]
      exact unique_canonical_split l1 l2 i huniq v hv
    obtain ⟨q1, _, _, q4, _⟩ := add_version_loop_hit d pkg pool i l2 hi1
    rw [hsplit, add_version_loop_skip d pkg pool l1 (i :: l2) hl1']
    simp only [q1, q4]
    refine ⟨?_, hothers, trivial⟩
    rw [hsplit] at huniq
    unfold UniqueCanonical at huniq ⊢
    rw [List.map_append, List.map_cons] at huniq
    have hnd := List.nodup_middle.1 huniq
    rw [List.nodup_cons] at hnd
    rw [List.map_append]
    exact hnd.2

/-- The call `add_version`, for any comparator, keeps the version set unique
by canonical version and leaves it non-empty. -/
theorem add_version_unique (cmp : packageversion → packageversion → Int)
    (pool : SolverPool) (pkg : packagemeta) (d : addPackageData)
    (huniq : UniqueCanonical pkg.versions) :
    UniqueCanonical (add_version cmp pool pkg d).2.1.versions
      ∧ (add_version cmp pool pkg d).2.1.versions ≠ [] := by
  obtain ⟨p1, p2, _⟩ := add_version_parts cmp pool pkg d
  obtain ⟨e1, e2, e3⟩ := add_version_loop_erases d pkg pool pkg.versions huniq
  have hc : Canonical_version (add_version cmp pool pkg d).1 = d.version := by
    rw [p1, ← e3]
    rfl
  rw [p2]
  rcases set_insert_cases cmp (add_version cmp pool pkg d).1
      (add_version_loop d pkg pool pkg.versions).2.2.2 with ⟨h, hne⟩ | ⟨l1, l2, h1, h2⟩
  · rw [h]
    exact ⟨e1, hne⟩
  · rw [h2]
    refine ⟨?_, by simp⟩
    rw [h1] at e1 e2
    unfold UniqueCanonical at e1 ⊢
    rw [List.map_append, List.map_cons]
    apply List.nodup_middle.2
    rw [List.nodup_cons, ← List.map_append]
    refine ⟨?_, e1⟩
    intro hmem
    obtain ⟨v, hv, hcv⟩ := List.mem_map.1 hmem
    exact e2 v hv (hcv.trans hc)

/-- A sequence of `add_version` calls, for any comparator, keeps the version
set unique by canonical version, and leaves it non-empty when there was a
call. -/
theorem add_versions_unique (cmp : packageversion → packageversion → Int)
    (ds : List addPackageData) :
    ∀ (pool : SolverPool) (pkg : packagemeta), UniqueCanonical pkg.versions →
      UniqueCanonical (add_versions cmp pool pkg ds).2.1.versions
        ∧ (ds ≠ [] → (add_versions cmp pool pkg ds).2.1.versions ≠ []) := by
  induction ds with
  | nil =>
    intro pool pkg huniq
    exact ⟨huniq, fun h => absurd rfl h⟩
  | cons d ds ih =>
    intro pool pkg huniq
    obtain ⟨u1, u2⟩ := add_version_unique cmp pool pkg d huniq
    obtain ⟨i1, i2⟩ := ih (add_version cmp pool pkg d).2.2 (add_version cmp pool pkg d).2.1 u1
    simp only [add_versions]
    refine ⟨i1, ?_⟩
    intro _
    by_cases hds : ds = []
    · subst hds
      simp only [add_versions]
      exact u2
    · exact i2 hds

/-- C23: starting from a package with no versions, after every finite
sequence of `add_version` calls (any canonical versions, vendors, repository
labels and stability tags, and whatever the ordering of the set) no two
members of versions have the same canonical version, and versions is
non-empty once a call was made. -/
theorem add_versions_unique_nonempty (compare : packageversion → packageversion → Int)
    (pool : SolverPool) (pkg : packagemeta) (ds : List addPackageData)
    (hempty : pkg.versions = []) :
    UniqueCanonical (add_versions compare pool pkg ds).2.1.versions
      ∧ (ds ≠ [] → (add_versions compare pool pkg ds).2.1.versions ≠ []) :=
  add_versions_unique compare ds pool pkg
    (by unfold UniqueCanonical; rw [hempty]; exact List.nodup_nil)

/-- Witness of C23: the sample requests (1.0, 2.0, 1.5, 2.0 from another
vendor, 1.0 again) on the fresh package foo leave the versions 1.0, 1.5 and
2.0, one entry each. -/
theorem add_versions_unique_nonempty_witness :
    UniqueCanonical (add_versions canonicalCompare emptyPool (packagemeta.mk_named "foo")
        sampleRequests).2.1.versions
      ∧ (add_versions canonicalCompare emptyPool (packagemeta.mk_named "foo")
          sampleRequests).2.1.versions ≠ []
      ∧ (add_versions canonicalCompare emptyPool (packagemeta.mk_named "foo")
          sampleRequests).2.1.versions.map Canonical_version = ["1.0", "1.5", "2.0"] := by
  have h := add_versions_unique_nonempty canonicalCompare emptyPool
    (packagemeta.mk_named "foo") sampleRequests rfl
  exact ⟨h.1, h.2 (by decide), by decide⟩

/-- What `add_version` does to the references of the package.  Installed and
desired are left alone; a trust slot other than the one chosen by the
incoming stability is left alone; the chosen slot ends as `keep_highest` of
its old value and the created version (for a comparator that ties versions
with the same canonical string). -/
theorem add_version_slots (cmp : packageversion → packageversion → Int)
    (hresp : RespectsCanonical cmp)
    (pool : SolverPool) (pkg : packagemeta) (d : addPackageData) :
    (add_version cmp pool pkg d).2.1.installed = pkg.installed
      ∧ (add_version cmp pool pkg d).2.1.desired = pkg.desired
      ∧ (d.stability ≠ trusts.TRUST_CURR → (add_version cmp pool pkg d).2.1.curr = pkg.curr)
      ∧ (d.stability ≠ trusts.TRUST_TEST → (add_version cmp pool pkg d).2.1.exp = pkg.exp)
      ∧ (has_slot d.stability = true →
          slot_get (add_version cmp pool pkg d).2.1 d.stability
            = keep_highest cmp (slot_get pkg d.stability) (add_version cmp pool pkg d).1) := by
  obtain ⟨hver, hstab, _, _⟩ := add_version_loop_spec d pkg pool pkg.versions
  have hpkg := add_version_loop_pkg d pkg pool pkg.versions
  simp only [add_version]
  generalize add_version_loop d pkg pool pkg.versions = L at hver hstab hpkg ⊢
  have hthe : Canonical_version (L.2.2.1.addPackage L.2.1.name L.1).1 = d.version := by
    simp [SolverPool.addPackage, Canonical_version, hver]
  rw [hstab]
  cases hst : d.stability with
  | TRUST_UNKNOWN =>
    rw [hst] at hpkg
    have hL : L.2.1 = pkg := by
      rcases hpkg with h | ⟨h, _⟩
      · exact h
      · rw [h]; rfl
    simp [has_slot, hL]
  | TRUST_CURR =>
    rw [hst] at hpkg
    simp only [has_slot, slot_get, slot_set, keep_highest, if_true]
    rcases hpkg with h | ⟨h, hcv⟩
    · rw [h]
      by_cases hsome : pkg.curr.isSome = true
      · by_cases hlt : cmp (L.2.2.1.addPackage pkg.name L.1).1 pkg.curr < 0
        · simp [hsome, hlt, not_le.mpr hlt]
        · simp [hsome, hlt, not_lt.mp hlt]
      · simp [hsome]
    · simp only [slot_get] at hcv
      have hz : cmp (L.2.2.1.addPackage L.2.1.name L.1).1 pkg.curr = 0 := by
        apply hresp
        rw [hthe, hcv]
      rw [h] at hz ⊢
      simp only [slot_set] at hz ⊢
      simp [hz]
  | TRUST_TEST =>
    rw [hst] at hpkg
    simp only [has_slot, slot_get, slot_set, keep_highest, if_true]
    rcases hpkg with h | ⟨h, hcv⟩
    · rw [h]
      by_cases hsome : pkg.exp.isSome = true
      · by_cases hlt : cmp (L.2.2.1.addPackage pkg.name L.1).1 pkg.exp < 0
        · simp [hsome, hlt, not_le.mpr hlt]
        · simp [hsome, hlt, not_lt.mp hlt]
      · simp [hsome]
    · simp only [slot_get] at hcv
      have hz : cmp (L.2.2.1.addPackage L.2.1.name L.1).1 pkg.exp = 0 := by
        apply hresp
        rw [hthe, hcv]
      rw [h] at hz ⊢
      simp only [slot_set] at hz ⊢
      simp [hz]

/-- C21 fails as stated: the sample package holds version 1.0 from the
repository, referenced by curr (every reference is empty or a member of
versions); after `add_version` of the installed record of 1.0 (repository
label "_installed", no stability tag) versions holds only the created entry
and curr still references the erased one. -/
theorem add_version_references_counterexample :
    valid_ref ({ mergePackage with curr := mergeEntry } : packagemeta).curr
        ({ mergePackage with curr := mergeEntry } : packagemeta).versions
      ∧ valid_ref ({ mergePackage with curr := mergeEntry } : packagemeta).exp
        ({ mergePackage with curr := mergeEntry } : packagemeta).versions
      ∧ valid_ref ({ mergePackage with curr := mergeEntry } : packagemeta).installed
        ({ mergePackage with curr := mergeEntry } : packagemeta).versions
      ∧ valid_ref ({ mergePackage with curr := mergeEntry } : packagemeta).desired
        ({ mergePackage with curr := mergeEntry } : packagemeta).versions
      ∧ (add_version canonicalCompare emptyPool { mergePackage with curr := mergeEntry }
          (request "_installed" "1.0" "cygwin" trusts.TRUST_UNKNOWN ["local"])).2.1.curr
        = mergeEntry
      ∧ ¬ valid_ref
          (add_version canonicalCompare emptyPool { mergePackage with curr := mergeEntry }
            (request "_installed" "1.0" "cygwin" trusts.TRUST_UNKNOWN ["local"])).2.1.curr
          (add_version canonicalCompare emptyPool { mergePackage with curr := mergeEntry }
            (request "_installed" "1.0" "cygwin" trusts.TRUST_UNKNOWN ["local"])).2.1.versions := by
  unfold valid_ref
  refine ⟨by decide, by decide, by decide, by decide, by decide, by decide⟩

/-- C21, amended: when the ordering of the set is a total order whose ties
are exactly between versions with the same canonical string, versions is
unique by canonical version, and each of curr, exp, installed and desired is
empty or a member of versions, then after `add_version`: the trust slot
chosen by the incoming stability tag is empty or a member of versions; each
of curr, exp, installed and desired that was empty or did not reference an
entry with the incoming canonical version is again empty or a member of
versions; and for a request whose repository label is "_installed" the
installed and desired references and a trust slot not chosen by the
stability tag are left as they were.  Nothing is said of a reference other
than the chosen slot that referenced the erased entry when the repository
label is not "_installed". -/
theorem add_version_references (cmp : packageversion → packageversion → Int)
    (hord : IsTotalOrder cmp) (hkey : CanonicalKey cmp) (hresp : RespectsCanonical cmp)
    (pool : SolverPool) (pkg : packagemeta) (d : addPackageData)
    (huniq : UniqueCanonical pkg.versions)
    (hcurr : valid_ref pkg.curr pkg.versions) (hexp : valid_ref pkg.exp pkg.versions)
    (hinst : valid_ref pkg.installed pkg.versions)
    (hdes : valid_ref pkg.desired pkg.versions) :
    ((d.stability = trusts.TRUST_CURR ∨ pkg.curr = none
          ∨ Canonical_version pkg.curr ≠ d.version) →
        valid_ref (add_version cmp pool pkg d).2.1.curr
          (add_version cmp pool pkg d).2.1.versions)
      ∧ ((d.stability = trusts.TRUST_TEST ∨ pkg.exp = none
            ∨ Canonical_version pkg.exp ≠ d.version) →
        valid_ref (add_version cmp pool pkg d).2.1.exp
          (add_version cmp pool pkg d).2.1.versions)
      ∧ ((pkg.installed = none ∨ Canonical_version pkg.installed ≠ d.version) →
          valid_ref (add_version cmp pool pkg d).2.1.installed
            (add_version cmp pool pkg d).2.1.versions)
      ∧ ((pkg.desired = none ∨ Canonical_version pkg.desired ≠ d.version) →
          valid_ref (add_version cmp pool pkg d).2.1.desired
            (add_version cmp pool pkg d).2.1.versions)
      ∧ (d.reponame = "_installed" →
          (d.stability ≠ trusts.TRUST_CURR →
              (add_version cmp pool pkg d).2.1.curr = pkg.curr)
            ∧ (d.stability ≠ trusts.TRUST_TEST →
              (add_version cmp pool pkg d).2.1.exp = pkg.exp)
            ∧ (add_version cmp pool pkg d).2.1.installed = pkg.installed
            ∧ (add_version cmp pool pkg d).2.1.desired = pkg.desired) := by
  obtain ⟨hc, m1, m2, v1, _, v3, _⟩ := add_version_versions cmp hord hkey pool pkg d huniq
  obtain ⟨s1, s2, s3, s4, s5⟩ := add_version_slots cmp hresp pool pkg d
  have hthe : (add_version cmp pool pkg d).1 ∈ (add_version cmp pool pkg d).2.1.versions := by
    rw [v1]; simp
  have hpersist : ∀ x : packageversion, valid_ref x pkg.versions →
      (x = none ∨ Canonical_version x ≠ d.version) →
      valid_ref x (add_version cmp pool pkg d).2.1.versions := by
    intro x hx hcx
    rcases hx with hx | hx
    · exact Or.inl hx
    · rcases hcx with hcx | hcx
      · exact Or.inl hcx
      · right
        rw [v1]
        rcases List.mem_append.1 (v3 x hx hcx) with h | h
        · exact List.mem_append_left _ h
        · exact List.mem_append_right _ (List.mem_cons_of_mem _ h)
  have hkeep : ∀ x : packageversion, valid_ref x pkg.versions →
      valid_ref (keep_highest cmp x (add_version cmp pool pkg d).1)
        (add_version cmp pool pkg d).2.1.versions := by
    intro x hx
    unfold keep_highest
    by_cases hk : x.isSome = true ∧ cmp (add_version cmp pool pkg d).1 x < 0
    · rw [if_pos hk]
      apply hpersist x hx
      right
      intro hcx
      have hz := hresp (add_version cmp pool pkg d).1 x (hc.trans hcx.symm)
      omega
    · rw [if_neg hk]
      exact Or.inr hthe
  refine ⟨?_, ?_, ?_, ?_, fun _ => ⟨s3, s4, s1, s2⟩⟩
  · intro hcase
    by_cases hst : d.stability = trusts.TRUST_CURR
    · have h := s5 (by rw [hst]; rfl)
      rw [hst] at h
      simp only [slot_get] at h
      rw [h]
      exact hkeep pkg.curr hcurr
    · rw [s3 hst]
      exact hpersist pkg.curr hcurr (hcase.resolve_left hst)
  · intro hcase
    by_cases hst : d.stability = trusts.TRUST_TEST
    · have h := s5 (by rw [hst]; rfl)
      rw [hst] at h
      simp only [slot_get] at h
      rw [h]
      exact hkeep pkg.exp hexp
    · rw [s4 hst]
      exact hpersist pkg.exp hexp (hcase.resolve_left hst)
  · intro hcx
    rw [s1]
    exact hpersist pkg.installed hinst hcx
  · intro hcx
    rw [s2]
    exact hpersist pkg.desired hdes hcx

/-- Witness of the amended C21: the sample package's curr references its
version 1.0 and the same vendor's repository supplies 1.0 again as a stable
version; the old entry is erased, and curr becomes the created version, a
member of versions. -/
theorem add_version_references_witness :
    valid_ref
        (add_version canonicalCompare emptyPool { mergePackage with curr := mergeEntry }
          (request "repo" "1.0" "cygwin" trusts.TRUST_CURR ["s1"])).2.1.curr
        (add_version canonicalCompare emptyPool { mergePackage with curr := mergeEntry }
          (request "repo" "1.0" "cygwin" trusts.TRUST_CURR ["s1"])).2.1.versions
      ∧ (add_version canonicalCompare emptyPool { mergePackage with curr := mergeEntry }
          (request "repo" "1.0" "cygwin" trusts.TRUST_CURR ["s1"])).2.1.curr
        = (add_version canonicalCompare emptyPool { mergePackage with curr := mergeEntry }
          (request "repo" "1.0" "cygwin" trusts.TRUST_CURR ["s1"])).1
      ∧ mergeEntry ∉
          (add_version canonicalCompare emptyPool { mergePackage with curr := mergeEntry }
            (request "repo" "1.0" "cygwin" trusts.TRUST_CURR ["s1"])).2.1.versions := by
  have h := add_version_references canonicalCompare canonicalCompare_isTotalOrder
    canonicalCompare_canonicalKey canonicalCompare_respectsCanonical emptyPool
    { mergePackage with curr := mergeEntry }
    (request "repo" "1.0" "cygwin" trusts.TRUST_CURR ["s1"])
    (by unfold UniqueCanonical; decide) (Or.inr (by decide)) (Or.inl rfl) (Or.inl rfl)
    (Or.inl rfl)
  exact ⟨h.1 (Or.inl rfl), by decide, by decide⟩

end PackageMeta
